import Mathlib

/-!
# Block deduplication index (drivers/dedup/dedup_sysfs.c)

A shallow embedding of the equivalence-class engine of the dedup driver:
the circular `equal_blocks` links, the merge and removal primitives, the
grouping pass of the initial scan and the incremental update on a block
write, followed by the properties proved about them.

Modelling conventions.
* The arrays of `struct dedup_blk_info` are bootmem buffers much larger
  than `blocks_count`; they are total maps from an index to a cell.
* `sector_t` is an unsigned 64-bit integer: the counter
  `duplicatedBlocks` is a natural number kept below `2 ^ 64` by explicit
  reduction on `++` and `--`.
* A digest buffer of `SHA256_DIGEST_SIZE` bytes is the number whose base
  256 digits are its bytes, so `memcmp(a, b, SHA256_DIGEST_SIZE) == 0` is
  equality; a `NULL` buffer pointer is `none`.
* The `while` loop of `dedup_remove_block_duplication` need not terminate;
  it is run with an explicit bound on the number of loop tests, and the
  result is `none` when the bound is exhausted.
* `printk`/`trace_printk` output is not modelled.
-/

namespace Dedup

/-- Bytes of one block of the device. -/
abbrev Content := List Nat

/-- Contents of a `SHA256_DIGEST_SIZE`-byte buffer. -/
abbrev Digest := Nat

/-- Number of values of `sector_t` (unsigned 64-bit). -/
def SECTOR_MOD : Nat := 2 ^ 64

/-- Global state of the module: the file-scope variables `start_block`,
`blocks_count`, `blocksArray` (fields `hashes`, `hash_crc`,
`equal_blocks`), `duplicatedBlocks` and `need_to_init`. The code only ever
stores positive values in `blocks_count`, which is therefore a natural
number here. -/
structure DedupState where
  start_block : Nat
  blocks_count : Nat
  hashes : Nat → Option Digest
  hash_crc : Nat → Nat
  equal_blocks : Nat → Nat
  duplicatedBlocks : Nat
  need_to_init : Nat

/-- External collaborators of the engine.
* `calc_hash data` is the SHA-256 digest written by `calc_hash`.
* `crc32_le d` is `crc32_le(0, d, SHA256_DIGEST_SIZE)`.
* `read_dev_sector b` is the data `read_block` obtains for device block
  `b`, `none` when `read_dev_sector` returns `NULL`.
* `kmalloc_hash i` is the result of `kmalloc(SHA256_DIGEST_SIZE)` for
  record `i`: `none` for `NULL`, otherwise the (arbitrary) initial contents
  of the fresh buffer.
* `kmalloc_data b` is the result of `kmalloc(block_size)` in
  `dedup_calc_block_hash_crc` for index `b`, in the same way. -/
structure Env where
  calc_hash : Content → Digest
  crc32_le : Digest → Nat
  read_dev_sector : Nat → Option Content
  kmalloc_hash : Nat → Option Digest
  kmalloc_data : Nat → Option Content

/-- The loop `for (i = 0; i < k; ++i) s = body i s`. -/
def forLoop {σ : Type} (body : Nat → σ → σ) : Nat → σ → σ
  | 0, s => s
  | k + 1, s => body k (forLoop body k s)

/-- The scan `for (j = 0; j < bound; ++j) if (p j) { found = j; break; }`:
the first index below `bound` satisfying `p`, if any. -/
def firstMatch (p : Nat → Bool) (bound : Nat) : Option Nat :=
  (List.range bound).find? p

/-- Source function `dedup_is_in_range`; the sum is computed in unsigned
64-bit arithmetic. -/
def dedup_is_in_range (s : DedupState) (block : Nat) : Nat :=
  if s.start_block ≤ block ∧ block < (s.start_block + s.blocks_count) % SECTOR_MOD
  then 1 else 0

/-- Source function `dedup_set_block_duplication`. -/
def dedup_set_block_duplication (s : DedupState) (old_block new_block : Nat) :
    DedupState :=
  let tmp_next := s.equal_blocks old_block
  let eb1 := Function.update s.equal_blocks old_block new_block
  let eb2 := Function.update eb1 new_block tmp_next
  { s with equal_blocks := eb2
           duplicatedBlocks := (s.duplicatedBlocks + 1) % SECTOR_MOD }

/-- The loop `while (equal_blocks[next] != block) next = equal_blocks[next];`
of `dedup_remove_block_duplication`, with at most `fuel` evaluations of the
loop test. Returns the final `next`, or `none` when the tests are used up. -/
def remove_walk (eb : Nat → Nat) (block : Nat) : Nat → Nat → Option Nat
  | 0, _ => none
  | fuel + 1, next =>
    if eb next ≠ block then remove_walk eb block fuel (eb next) else some next

/-- Source function `dedup_remove_block_duplication`, `none` when the walk
does not stop within `fuel` loop tests. -/
def dedup_remove_block_duplication (fuel : Nat) (s : DedupState) (block : Nat) :
    Option DedupState :=
  if s.equal_blocks block = block then some s
  else
    match remove_walk s.equal_blocks block fuel block with
    | none => none
    | some next =>
      let eb1 := Function.update s.equal_blocks next (s.equal_blocks block)
      let eb2 := Function.update eb1 block block
      some { s with equal_blocks := eb2
                    duplicatedBlocks := (s.duplicatedBlocks + SECTOR_MOD - 1) % SECTOR_MOD }

/-- The two statements `calc_hash(data, size, hashes[block]);
hash_crc[block] = crc32_le(0, hashes[block], SHA256_DIGEST_SIZE);`.
The digest is written through the pointer `hashes[block]`; the code never
reaches these statements with a `NULL` pointer after a successful build, and
the model leaves the record untouched in that case. -/
def store_hash_crc (env : Env) (s : DedupState) (block : Nat) (data : Content) :
    DedupState :=
  match s.hashes block with
  | none => s
  | some _ =>
    { s with hashes := Function.update s.hashes block (some (env.calc_hash data))
             hash_crc := Function.update s.hash_crc block
               (env.crc32_le (env.calc_hash data)) }

/-- The test of the inner loop of `test_final_hash_compare` for the pair
`(i, j)`: checksum first, then the two pointers, then `memcmp`. -/
def build_match (s : DedupState) (i j : Nat) : Bool :=
  decide (s.hash_crc i = s.hash_crc j) &&
    ((s.hashes j).isSome && ((s.hashes i).isSome && decide (s.hashes i = s.hashes j)))

/-- The variable `equal_block` of `test_final_hash_compare` after the inner
loop for block `i`. -/
def build_equal_block (s : DedupState) (i : Nat) : Nat :=
  (firstMatch (build_match s i) i).getD i

/-- One iteration of the outer loop of `test_final_hash_compare`. -/
def build_step (i : Nat) (s : DedupState) : DedupState :=
  if build_equal_block s i ≠ i then
    dedup_set_block_duplication s (build_equal_block s i) i
  else s

/-- Source function `test_final_hash_compare`. -/
def test_final_hash_compare (s : DedupState) : DedupState :=
  forLoop build_step s.blocks_count s

/-- The test of the loop of `dedup_update_page_changed` for `currblock`. -/
def update_match (s : DedupState) (block currblock : Nat) : Bool :=
  decide (currblock ≠ block) &&
    (decide (s.hash_crc currblock = s.hash_crc block) &&
      ((s.hashes currblock).isSome && ((s.hashes block).isSome &&
        decide (s.hashes currblock = s.hashes block))))

/-- The variable `equal_block` of `dedup_update_page_changed` after its
loop. -/
def update_equal_block (s : DedupState) (block : Nat) : Nat :=
  (firstMatch (update_match s block) s.blocks_count).getD block

/-- Source function `dedup_update_page_changed`: the return value and the
new state, `none` when the removal walk does not stop within `fuel` tests. -/
def dedup_update_page_changed (env : Env) (fuel : Nat) (s : DedupState)
    (block : Nat) (block_data : Content) : Option (Int × DedupState) :=
  if dedup_is_in_range s block = 0 then some (0, s)
  else
    let block := block - s.start_block
    match dedup_remove_block_duplication fuel s block with
    | none => none
    | some s1 =>
      let s2 := store_hash_crc env s1 block block_data
      let equal_block := update_equal_block s2 block
      if block ≠ equal_block then
        some (0, dedup_set_block_duplication s2 equal_block block)
      else some (0, s2)

/-- One iteration of the first loop of `dedup_init_blocks`. -/
def init_record (env : Env) (block_idx : Nat) (s : DedupState) : DedupState :=
  { s with equal_blocks := Function.update s.equal_blocks block_idx block_idx
           hashes := Function.update s.hashes block_idx (env.kmalloc_hash block_idx)
           hash_crc := Function.update s.hash_crc block_idx 0 }

/-- The first loop of `dedup_init_blocks` over the indices below `k`; the
flag is `false` when the loop left the function with `return -1`. -/
def init_records (env : Env) : Nat → DedupState → DedupState × Bool
  | 0, s => (s, true)
  | k + 1, s =>
    match init_records env k s with
    | (s1, false) => (s1, false)
    | (s1, true) => (init_record env k s1, (env.kmalloc_hash k).isSome)

/-- Source function `read_block` into a buffer holding `dest`: the buffer is
left as it was when the read fails. -/
def read_block (env : Env) (dest : Content) (block : Nat) : Content :=
  match env.read_dev_sector block with
  | none => dest
  | some data => data

/-- Source function `dedup_calc_block_hash_crc`. -/
def dedup_calc_block_hash_crc (env : Env) (block : Nat) (s : DedupState) :
    DedupState :=
  if block ≥ s.blocks_count then s
  else
    match env.kmalloc_data block with
    | none => s
    | some buf =>
      store_hash_crc env s block (read_block env buf (s.start_block + block))

/-- Source function `dedup_init_blocks`: return value and new state. -/
def dedup_init_blocks (env : Env) (s : DedupState) : Int × DedupState :=
  match init_records env s.blocks_count s with
  | (s1, false) => (-1, s1)
  | (s1, true) =>
    (0, test_final_hash_compare (forLoop (dedup_calc_block_hash_crc env) s1.blocks_count s1))

/-- The macro `DEDUP_ALLOC_BOOTMEM_BSIZE` of `dedup.h`. -/
def DEDUP_ALLOC_BOOTMEM_BSIZE : Nat := 64000000

/-- The constant `BLOCKS_MAX_COUNT`, `DEDUP_ALLOC_BOOTMEM_BSIZE / sizeof(u8*)`
with pointers of 8 bytes. -/
def BLOCKS_MAX_COUNT : Nat := DEDUP_ALLOC_BOOTMEM_BSIZE / 8

/-- Source function `dedup_calc`: return value and new state. `bdev` tells
whether `get_our_bdev` found the block device. -/
def dedup_calc (env : Env) (bdev : Bool) (s : DedupState) : Int × DedupState :=
  if s.need_to_init ≠ 0 then
    if bdev = false then (-1, s)
    else
      let s1 :=
        if s.blocks_count > BLOCKS_MAX_COUNT then { s with blocks_count := BLOCKS_MAX_COUNT }
        else s
      if (dedup_init_blocks env s1).1 ≠ 0 then (-1, (dedup_init_blocks env s1).2)
      else (0, { (dedup_init_blocks env s1).2 with need_to_init := 0 })
  else (0, s)

/-- Source function `dedup_get_next_equal_block`; the sum is computed in
unsigned 64-bit arithmetic. -/
def dedup_get_next_equal_block (s : DedupState) (block : Nat) : Nat :=
  if dedup_is_in_range s block ≠ 0 then
    (s.equal_blocks (block - s.start_block) + s.start_block) % SECTOR_MOD
  else block

/-- The loop `while (j != i && tmp_buf[j]) { tmp_buf[j] = 0; printk("->%d", j);
j = equal_blocks[j]; }` of `print_dedup_data_structure` over a buffer of `n`
cells, with at most `fuel` evaluations of the loop test: the marks and the
numbers of the current line when the loop is left. The result is `none` when
the tests are used up, and when the test reads `tmp_buf[j]` outside the
buffer. -/
def print_walk (eb : Nat → Nat) (n i : Nat) :
    Nat → Nat → (Nat → Bool) → List Nat → Option ((Nat → Bool) × List Nat)
  | 0, _, _, _ => none
  | fuel + 1, j, tmp_buf, line =>
    if j ≠ i ∧ n ≤ j then none
    else if j ≠ i ∧ tmp_buf j = true then
      print_walk eb n i fuel (eb j) (Function.update tmp_buf j false) (line ++ [j])
    else some (tmp_buf, line)

/-- One iteration of the outer loop of `print_dedup_data_structure` on the
marks `tmp_buf` and the lines printed so far. -/
def print_step (fuel : Nat) (eb : Nat → Nat) (n i : Nat)
    (st : (Nat → Bool) × List (List Nat)) : Option ((Nat → Bool) × List (List Nat)) :=
  if st.1 i = true then
    if i = eb i then some (Function.update st.1 i false, st.2)
    else
      match print_walk eb n i fuel (eb i) (Function.update st.1 i false) [i] with
      | none => none
      | some (tmp_buf, line) => some (tmp_buf, st.2 ++ [line])
  else some st

/-- The outer loop `for (i = 0; i < k; ++i)` of `print_dedup_data_structure`. -/
def print_loop (fuel : Nat) (eb : Nat → Nat) (n : Nat) :
    Nat → (Nat → Bool) × List (List Nat) → Option ((Nat → Bool) × List (List Nat))
  | 0, st => some st
  | k + 1, st =>
    match print_loop fuel eb n k st with
    | none => none
    | some st1 => print_step fuel eb n k st1

/-- Source function `print_dedup_data_structure`: the lines printed, each as
the list of the block numbers on it (the first number, then one number per
`->`). `tmp_alloc` tells whether `kmalloc(blocks_count)` gave a buffer, whose
`blocks_count` cells are all set by `memset`. The `int` variables `i` and `j`
hold the indices exactly, the block count being at most `BLOCKS_MAX_COUNT`.
The result is `none` when an inner loop does not stop within `fuel` loop tests
or reads outside the buffer. -/
def print_dedup_data_structure (fuel : Nat) (tmp_alloc : Bool) (s : DedupState) :
    Option (List (List Nat)) :=
  if tmp_alloc = false then some []
  else
    (print_loop fuel s.equal_blocks s.blocks_count s.blocks_count
      (fun j => decide (j < s.blocks_count), [])).map Prod.snd

/-- The loop `while (equal_blocks[next] != block) next = equal_blocks[next];`
of `dedup_remove_block_duplication` with the indices at which `equal_blocks`
is read recorded: `reads` holds the indices read by the loop tests made so
far. Returns the final `next` and the indices read, one per loop test, or
`none` when the `fuel` loop tests are used up. -/
def remove_walk_reads (eb : Nat → Nat) (block : Nat) :
    Nat → Nat → List Nat → Option (Nat × List Nat)
  | 0, _, _ => none
  | fuel + 1, next, reads =>
    if eb next ≠ block then remove_walk_reads eb block fuel (eb next) (reads ++ [next])
    else some (next, reads ++ [next])

/-- Source function `stats_store` from the value `result` returned by its
call of `check_input` (for a command `dedup N` with a positive number `N`,
`check_input` returns `N` and changes no variable of the module): the new
state. `bdev` tells whether `get_our_bdev` finds the block device. The
variable `collect_stats` is not part of the state, and the branches for
`result <= 0` only print. -/
def stats_store (env : Env) (bdev : Bool) (result : Int) (s : DedupState) : DedupState :=
  if result > 0 then
    let s1 := { s with blocks_count :=
      if result > (BLOCKS_MAX_COUNT : Int) then BLOCKS_MAX_COUNT else result.toNat }
    let s2 := { s1 with duplicatedBlocks := 0 }
    (dedup_calc env bdev s2).2
  else s

/-! ## Specification vocabulary -/

/-- Indices `i` and `j` lie on the same cycle of the first `n` links: `j` is
met when following the links from `i` (a cycle through `n` cells has at
most `n` members, so fewer than `n` steps suffice). -/
def SameCycle (eb : Nat → Nat) (n i j : Nat) : Prop :=
  ∃ k, k < n ∧ eb^[k] i = j

instance (eb : Nat → Nat) (n i j : Nat) : Decidable (SameCycle eb n i j) := by
  unfold SameCycle; infer_instance

/-- The cycle invariant: `equal_blocks` restricted to the indices below `n`
is a permutation of them (in range and injective). -/
def CycleInv (eb : Nat → Nat) (n : Nat) : Prop :=
  (∀ i, i < n → eb i < n) ∧ (∀ i, i < n → ∀ j, j < n → eb i = eb j → i = j)

instance (eb : Nat → Nat) (n : Nat) : Decidable (CycleInv eb n) := by
  unfold CycleInv; infer_instance

/-- Every index below `n` is brought back to itself by following links: it
lies on a simple cycle. -/
def ReturnsToStart (eb : Nat → Nat) (n : Nat) : Prop :=
  ∀ i, i < n → ∃ k, 0 < k ∧ k ≤ n ∧ eb^[k] i = i

/-- Number of cycles of the first `n` links: the indices that are the
smallest member of their cycle. -/
def cycleCount (eb : Nat → Nat) (n : Nat) : Nat :=
  ((List.range n).filter (fun i => decide (∀ j, j < i → ¬ SameCycle eb n j i))).length

/-- Number of blocks below `n` on a cycle of length greater than one (the
link of such a block is not the block itself). -/
def linkedCount (eb : Nat → Nat) (n : Nat) : Nat :=
  ((List.range n).filter (fun i => decide (eb i ≠ i))).length

/-- Number of cycles of length greater than one among the first `n` links:
the indices that are not their own link and are the smallest member of their
cycle. -/
def linkedCycleCount (eb : Nat → Nat) (n : Nat) : Nat :=
  ((List.range n).filter
    (fun i => decide (eb i ≠ i ∧ ∀ j, j < i → ¬ SameCycle eb n j i))).length

/-- Number of distinct digests among the first `n` records. -/
def distinctCount (hashes : Nat → Option Digest) (n : Nat) : Nat :=
  ((List.range n).map hashes).dedup.length

/-- The members of the class of `i`, in ascending order. -/
def classOf (eb : Nat → Nat) (n i : Nat) : List Nat :=
  (List.range n).filter (fun j => decide (SameCycle eb n i j))

/-- Every record below `blocks_count` has a digest buffer, and its checksum
is the checksum of the digest it holds. -/
def CrcConsistent (env : Env) (s : DedupState) : Prop :=
  ∀ i, i < s.blocks_count → (s.hashes i).map env.crc32_le = some (s.hash_crc i)

instance (env : Env) (s : DedupState) : Decidable (CrcConsistent env s) := by
  unfold CrcConsistent; infer_instance

/-- Two indices below `blocks_count` share a cycle exactly when their
digests are equal. -/
def PartitionOK (s : DedupState) : Prop :=
  ∀ i, i < s.blocks_count → ∀ j, j < s.blocks_count →
    (SameCycle s.equal_blocks s.blocks_count i j ↔ s.hashes i = s.hashes j)

instance (s : DedupState) : Decidable (PartitionOK s) := by
  unfold PartitionOK; infer_instance

/-- The state handed to `test_final_hash_compare` by `dedup_init_blocks`. -/
def hashed_state (env : Env) (s : DedupState) : DedupState :=
  forLoop (dedup_calc_block_hash_crc env) (init_records env s.blocks_count s).1.blocks_count
    (init_records env s.blocks_count s).1

/-- The states reached from `s0` by a build that returned 0 followed by any
number of calls of `dedup_update_page_changed` that returned. -/
inductive Reaches (env : Env) (s0 : DedupState) : DedupState → Prop
  | build : (dedup_init_blocks env s0).1 = 0 → Reaches env s0 (dedup_init_blocks env s0).2
  | update (s s2 : DedupState) (fuel blk : Nat) (data : Content) (r : Int) :
      Reaches env s0 s → dedup_update_page_changed env fuel s blk data = some (r, s2) →
      Reaches env s0 s2

/-- The line of the class whose smallest index is `i`: `i`, then the other
members in link order. -/
def class_line (eb : Nat → Nat) (n i : Nat) : List Nat :=
  (List.range (classOf eb n i).length).map (fun t => eb^[t] i)

/-- The report for the classes whose smallest index is below `k`: one line
for each class of more than one block, in ascending order of the smallest
index. The whole report is `class_report eb n n`. -/
def class_report (eb : Nat → Nat) (n k : Nat) : List (List Nat) :=
  ((List.range k).filter
    (fun i => decide (eb i ≠ i ∧ ∀ j, j < i → ¬ SameCycle eb n j i))).map (class_line eb n)

/-! ## Scenario data -/

/-- A device whose blocks 0..4 hold `[A, B, A, C, A]`; the digest of a block
is its first byte and the checksum of a digest its residue modulo 7. -/
def scenarioEnv : Env where
  calc_hash := fun c => c.headD 0
  crc32_le := fun d => d % 7
  read_dev_sector := fun b => [[65], [66], [65], [67], [65]].get? b
  kmalloc_hash := fun _ => some 0
  kmalloc_data := fun _ => some []

/-- The module state before the build of five blocks from block 0. -/
def scenarioInit : DedupState where
  start_block := 0
  blocks_count := 5
  hashes := fun _ => none
  hash_crc := fun _ => 0
  equal_blocks := fun _ => 0
  duplicatedBlocks := 0
  need_to_init := 2

/-- The state after the build of scenario A. -/
def scenarioA : DedupState := (dedup_init_blocks scenarioEnv scenarioInit).2

/-- The state after the update of scenario B, block 2 rewritten with `B`. -/
def scenarioB : DedupState :=
  ((dedup_update_page_changed scenarioEnv 5 scenarioA 2 [66]).map Prod.snd).getD scenarioA

/-- Two blocks with the same digest 5 on one cycle, where the stored
checksum of block 0 is not the checksum of its digest (which is 5 under
`scenarioEnv`). -/
def staleCrcState : DedupState where
  start_block := 0
  blocks_count := 2
  hashes := fun _ => some 5
  hash_crc := fun i => if i = 0 then 1 else 5
  equal_blocks := fun i => if i = 0 then 1 else 0
  duplicatedBlocks := 1
  need_to_init := 0

/-- The state after block 1 of `staleCrcState` is rewritten with content of
digest 5. -/
def staleCrcRewritten : DedupState :=
  ((dedup_update_page_changed scenarioEnv 2 staleCrcState 1 [5]).map Prod.snd).getD
    staleCrcState

/-- Two blocks with the different digests 1 and 8 whose checksums under
`scenarioEnv` collide (both are 1), all links reset. -/
def collisionState : DedupState where
  start_block := 0
  blocks_count := 2
  hashes := fun i => if i = 0 then some 1 else some 8
  hash_crc := fun _ => 1
  equal_blocks := fun i => i
  duplicatedBlocks := 0
  need_to_init := 2

/-- The state before the build of two blocks from block 0. -/
def twoBlockInit : DedupState where
  start_block := 0
  blocks_count := 2
  hashes := fun _ => none
  hash_crc := fun _ => 0
  equal_blocks := fun _ => 0
  duplicatedBlocks := 0
  need_to_init := 2

/-- A device on which every read fails. -/
def readFailEnv : Env :=
  { scenarioEnv with read_dev_sector := fun _ => none }

/-- A kernel in which no content buffer can be allocated. -/
def allocFailEnv : Env :=
  { scenarioEnv with kmalloc_data := fun _ => none }

/-- A kernel in which no digest buffer can be allocated. -/
def hashAllocFailEnv : Env :=
  { scenarioEnv with kmalloc_hash := fun _ => none }

/-- A range of two blocks starting at the last value of `sector_t`. -/
def wrapState : DedupState :=
  { twoBlockInit with start_block := 2 ^ 64 - 1 }

/-- The state after block 4 of scenario A is rewritten with `A` again. -/
def scenarioRewrite4 : DedupState :=
  ((dedup_update_page_changed scenarioEnv 5 scenarioA 4 [65]).map Prod.snd).getD scenarioA

/-- The links `[1, 1]`: block 0 leads to block 1, which leads to itself. -/
def brokenState : DedupState :=
  { twoBlockInit with equal_blocks := fun _ => 1 }

/-- The links `[1, 0]`: blocks 0 and 1 on one cycle. -/
def pairState : DedupState :=
  { twoBlockInit with equal_blocks := fun i => if i = 0 then 1 else 0 }

/-- The state after the first `dedup 5` command of scenario A: built by
`dedup_calc`, with `need_to_init` cleared. -/
def scenarioBuilt : DedupState := (dedup_calc scenarioEnv true scenarioInit).2

/-! ## Vocabulary of the proofs -/

/-- Unbounded reachability along the links, used in the proofs. -/
def Reach (eb : Nat → Nat) (i j : Nat) : Prop :=
  ∃ k, eb^[k] i = j

/-- The links after `dedup_set_block_duplication r m`. -/
def mergeLinks (eb : Nat → Nat) (r m : Nat) : Nat → Nat :=
  Function.update (Function.update eb r m) m (eb r)

/-- The links after the two stores of `dedup_remove_block_duplication b`
when the walk ended at `p`. -/
def removeLinks (eb : Nat → Nat) (p b : Nat) : Nat → Nat :=
  Function.update (Function.update eb p (eb b)) b b

/-- Sends the merged block `m` to the block `r` it was attached to. -/
def collapse (r m x : Nat) : Nat := if x = m then r else x

/-- The index `i` is the smallest member of its cycle. -/
def IsCycleMin (eb : Nat → Nat) (i : Nat) : Prop :=
  ∀ j, j < i → ¬ Reach eb j i

/-- Loop invariant of `test_final_hash_compare` after the blocks below `k`
have been processed, starting from `s0`. -/
structure BuildInv (env : Env) (s0 : DedupState) (k : Nat) (s : DedupState) : Prop where
  count : s.blocks_count = s0.blocks_count
  start : s.start_block = s0.start_block
  hashes : s.hashes = s0.hashes
  crc : s.hash_crc = s0.hash_crc
  init : s.need_to_init = s0.need_to_init
  inv : CycleInv s.equal_blocks s0.blocks_count
  above : ∀ x, k ≤ x → s.equal_blocks x = s0.equal_blocks x
  sound : ∀ x y, x < s0.blocks_count → y < s0.blocks_count → Reach s.equal_blocks x y →
    x = y ∨ (x < k ∧ y < k ∧ s0.hashes x = s0.hashes y)
  complete : CrcConsistent env s0 → ∀ x y, x < k → y < k →
    s0.hashes x = s0.hashes y → Reach s.equal_blocks x y
  counter : s0.duplicatedBlocks = 0 → s0.blocks_count < SECTOR_MOD →
    s.duplicatedBlocks + cycleCount s.equal_blocks s0.blocks_count = s0.blocks_count

/-- Relation between a state `s` satisfying the cycle invariant and the
state `s1` returned by `dedup_remove_block_duplication` for index `b`. -/
structure RemoveOut (s : DedupState) (b : Nat) (s1 : DedupState) : Prop where
  count : s1.blocks_count = s.blocks_count
  start : s1.start_block = s.start_block
  hashes : s1.hashes = s.hashes
  crc : s1.hash_crc = s.hash_crc
  init : s1.need_to_init = s.need_to_init
  inv : CycleInv s1.equal_blocks s.blocks_count
  self : s1.equal_blocks b = b
  reach : ∀ x y, x < s.blocks_count → y < s.blocks_count →
    (Reach s1.equal_blocks x y ↔ (x = y ∨ (x ≠ b ∧ y ≠ b ∧ Reach s.equal_blocks x y)))
  dup : s1.duplicatedBlocks =
    if s.equal_blocks b = b then s.duplicatedBlocks
    else (s.duplicatedBlocks + SECTOR_MOD - 1) % SECTOR_MOD
  cycles : cycleCount s1.equal_blocks s.blocks_count =
    if s.equal_blocks b = b then cycleCount s.equal_blocks s.blocks_count
    else cycleCount s.equal_blocks s.blocks_count + 1

/-- Relation between an index `s` whose classes are the classes of equal
digests and the state `s2` after `dedup_update_page_changed` stored the
digest of `data` at index `b`. -/
structure UpdateOut (env : Env) (s : DedupState) (b : Nat) (data : Content)
    (s2 : DedupState) : Prop where
  count : s2.blocks_count = s.blocks_count
  start : s2.start_block = s.start_block
  hashes : s2.hashes = Function.update s.hashes b (some (env.calc_hash data))
  crc : s2.hash_crc = Function.update s.hash_crc b (env.crc32_le (env.calc_hash data))
  consistent : CrcConsistent env s2
  partition : ∀ x y, x < s.blocks_count → y < s.blocks_count →
    (Reach s2.equal_blocks x y ↔ s2.hashes x = s2.hashes y)
  dup_nomatch : (∀ c, c < s.blocks_count → c ≠ b → s.hashes c ≠ some (env.calc_hash data)) →
    s2.duplicatedBlocks =
      if s.equal_blocks b = b then s.duplicatedBlocks
      else (s.duplicatedBlocks + SECTOR_MOD - 1) % SECTOR_MOD
  dup_match : (∃ c, c < s.blocks_count ∧ c ≠ b ∧ s.hashes c = some (env.calc_hash data)) →
    s2.duplicatedBlocks =
      ((if s.equal_blocks b = b then s.duplicatedBlocks
        else (s.duplicatedBlocks + SECTOR_MOD - 1) % SECTOR_MOD) + 1) % SECTOR_MOD

/-- Loop invariant of `test_final_hash_compare` for the order of the links
after the blocks below `k` have been processed: a block with an earlier
block of the same digest points to the nearest such block, and the first
block of a digest points to the last block below `k` with that digest. -/
structure OrderInv (H : Nat → Option Digest) (k : Nat) (eb : Nat → Nat) : Prop where
  later : ∀ i, i < k → (∃ j, j < i ∧ H j = H i) →
    eb i < i ∧ H (eb i) = H i ∧ ∀ c, eb i < c → c < i → H c ≠ H i
  first : ∀ i, i < k → (∀ j, j < i → H j ≠ H i) →
    i ≤ eb i ∧ eb i < k ∧ H (eb i) = H i ∧ ∀ c, eb i < c → c < k → H c ≠ H i

/-- Number of cells below `n` that are still marked. -/
def markCount (tmp_buf : Nat → Bool) (n : Nat) : Nat :=
  ((Finset.range n).filter (fun x => tmp_buf x = true)).card

/-- The marks after the first `t` blocks met from `k` have been cleared. -/
def clearOrbit (eb : Nat → Nat) (k : Nat) (tmp_buf : Nat → Bool) (t : Nat) : Nat → Bool :=
  fun x => tmp_buf x && decide (∀ u, u < t → eb^[u] k ≠ x)

/-- Loop invariant of `print_dedup_data_structure` after the blocks below
`k` have been handled: exactly the blocks of the classes not met yet are
marked, and the lines printed are those of the classes met. -/
structure PrintInv (eb : Nat → Nat) (n k : Nat) (st : (Nat → Bool) × List (List Nat)) :
    Prop where
  marks : ∀ x, st.1 x = true ↔ (x < n ∧ ∀ j, j < k → ¬ Reach eb j x)
  lines : st.2 = class_report eb n k

/-! ## Following links under the cycle invariant -/

theorem iterate_lt {eb : Nat → Nat} {n : Nat} (h : CycleInv eb n) (k : Nat) :
    ∀ i, i < n → eb^[k] i < n := by
  induction k with
  | zero => intro i hi; simpa using hi
  | succ k ih =>
    intro i hi
    rw [Function.iterate_succ_apply]
    exact ih _ (h.1 i hi)

theorem iterate_inj {eb : Nat → Nat} {n : Nat} (h : CycleInv eb n) (k : Nat) :
    ∀ i, i < n → ∀ j, j < n → eb^[k] i = eb^[k] j → i = j := by
  induction k with
  | zero => intro i _ j _ e; simpa using e
  | succ k ih =>
    intro i hi j hj e
    rw [Function.iterate_succ_apply, Function.iterate_succ_apply] at e
    exact h.2 i hi j hj (ih _ (h.1 i hi) _ (h.1 j hj) e)

/-- Under the cycle invariant every index is on a simple cycle of length at
most `n`. -/
theorem returns_of_cycleInv {eb : Nat → Nat} {n : Nat} (h : CycleInv eb n) :
    ReturnsToStart eb n := by
  intro i hi
  let f : Fin (n + 1) → Fin n := fun a => ⟨eb^[a.val] i, iterate_lt h a.val i hi⟩
  obtain ⟨a, b, hab, hf⟩ := Fintype.exists_ne_map_eq_of_card_lt f (by simp)
  have hf2 : eb^[a.val] i = eb^[b.val] i := by
    have := congrArg Fin.val hf
    simpa [f] using this
  have key : ∀ x y : Nat, x < y → y ≤ n → eb^[x] i = eb^[y] i →
      ∃ k, 0 < k ∧ k ≤ n ∧ eb^[k] i = i := by
    intro x y hxy hy e
    refine ⟨y - x, by omega, by omega, ?_⟩
    have e2 : eb^[x] (eb^[y - x] i) = eb^[x] i := by
      rw [← Function.iterate_add_apply]
      have : x + (y - x) = y := by omega
      rw [this]; exact e.symm
    exact iterate_inj h x _ (iterate_lt h _ i hi) _ hi e2
  have hne : a.val ≠ b.val := fun e => hab (Fin.ext e)
  rcases Nat.lt_or_gt_of_ne hne with hlt | hgt
  · exact key a.val b.val hlt (by omega) hf2
  · exact key b.val a.val hgt (by omega) hf2.symm

theorem reach_refl (eb : Nat → Nat) (i : Nat) : Reach eb i i := ⟨0, rfl⟩

theorem reach_step (eb : Nat → Nat) (i : Nat) : Reach eb i (eb i) := ⟨1, rfl⟩

theorem reach_trans {eb : Nat → Nat} {i j l : Nat} (h1 : Reach eb i j)
    (h2 : Reach eb j l) : Reach eb i l := by
  obtain ⟨a, ha⟩ := h1
  obtain ⟨b, hb⟩ := h2
  exact ⟨b + a, by rw [Function.iterate_add_apply, ha, hb]⟩

theorem reach_lt {eb : Nat → Nat} {n i j : Nat} (h : CycleInv eb n) (hi : i < n)
    (hr : Reach eb i j) : j < n := by
  obtain ⟨k, hk⟩ := hr
  rw [← hk]; exact iterate_lt h k i hi

theorem reach_symm {eb : Nat → Nat} {n i j : Nat} (h : CycleInv eb n) (hi : i < n)
    (hr : Reach eb i j) : Reach eb j i := by
  obtain ⟨k, hk⟩ := hr
  obtain ⟨p, hp0, _, hp⟩ := returns_of_cycleInv h i hi
  have hper : Function.IsPeriodicPt eb p i := hp
  refine ⟨p * k - k, ?_⟩
  rw [← hk, ← Function.iterate_add_apply]
  have e : p * k - k + k = p * k := by
    have : k ≤ p * k := Nat.le_mul_of_pos_left k hp0
    omega
  rw [e]
  have := hper.iterate_mod_apply (p * k)
  simpa using this.symm

/-- Under the cycle invariant the bounded and the unbounded notions of being
on one cycle agree. -/
theorem sameCycle_iff_reach {eb : Nat → Nat} {n i : Nat} (h : CycleInv eb n)
    (hi : i < n) (j : Nat) : SameCycle eb n i j ↔ Reach eb i j := by
  constructor
  · rintro ⟨k, _, hk⟩; exact ⟨k, hk⟩
  · rintro ⟨k, hk⟩
    obtain ⟨p, hp0, hpn, hp⟩ := returns_of_cycleInv h i hi
    have hper : Function.IsPeriodicPt eb p i := hp
    refine ⟨k % p, ?_, ?_⟩
    · have := Nat.mod_lt k hp0
      omega
    · rw [hper.iterate_mod_apply k]; exact hk

/-! ## The merge primitive on the links -/

theorem mergeLinks_apply (eb : Nat → Nat) (r m x : Nat) :
    mergeLinks eb r m x = if x = m then eb r else if x = r then m else eb x := by
  simp [mergeLinks, Function.update_apply]

theorem merge_cycleInv {eb : Nat → Nat} {n r m : Nat} (h : CycleInv eb n)
    (hr : r < n) (hm : m < n) (hrm : r ≠ m) (hself : eb m = m) :
    CycleInv (mergeLinks eb r m) n := by
  have hinj := h.2
  refine ⟨?_, ?_⟩
  · intro i hi
    rw [mergeLinks_apply]
    split_ifs
    · exact h.1 r hr
    · exact hm
    · exact h.1 i hi
  · intro i hi j hj e
    rw [mergeLinks_apply, mergeLinks_apply] at e
    by_cases him : i = m
    · by_cases hjm : j = m
      · rw [him, hjm]
      · rw [if_pos him, if_neg hjm] at e
        by_cases hjr : j = r
        · rw [if_pos hjr] at e
          exact absurd (hinj r hr m hm (by rw [e, hself])) hrm
        · rw [if_neg hjr] at e
          exact absurd (hinj r hr j hj e).symm hjr
    · rw [if_neg him] at e
      by_cases hir : i = r
      · rw [if_pos hir] at e
        by_cases hjm : j = m
        · rw [if_pos hjm] at e
          exact absurd (hinj r hr m hm (by rw [← e, hself])) hrm
        · rw [if_neg hjm] at e
          by_cases hjr : j = r
          · rw [hir, hjr]
          · rw [if_neg hjr] at e
            exact absurd (hinj j hj m hm (by rw [← e, hself])) hjm
      · rw [if_neg hir] at e
        by_cases hjm : j = m
        · rw [if_pos hjm] at e
          exact absurd (hinj i hi r hr e) hir
        · rw [if_neg hjm] at e
          by_cases hjr : j = r
          · rw [if_pos hjr] at e
            exact absurd (hinj i hi m hm (by rw [e, hself])) him
          · rw [if_neg hjr] at e
            exact hinj i hi j hj e

theorem reach_of_fixed {eb : Nat → Nat} {m y : Nat} (hself : eb m = m)
    (hr : Reach eb m y) : y = m := by
  obtain ⟨k, hk⟩ := hr
  rw [← hk, Function.iterate_fixed hself]

theorem reach_to_fixed {eb : Nat → Nat} {n m y : Nat} (h : CycleInv eb n)
    (hy : y < n) (hself : eb m = m) (hr : Reach eb y m) : y = m :=
  reach_of_fixed hself (reach_symm h hy hr)

theorem merge_step_collapse {eb : Nat → Nat} {n r m : Nat} (h : CycleInv eb n)
    (hm : m < n) (hself : eb m = m) (z : Nat) (hz : z < n) :
    Reach eb (collapse r m z) (collapse r m (mergeLinks eb r m z)) := by
  have hr_ne : ∀ a, a < n → a ≠ m → eb a ≠ m := by
    intro a ha ham e
    exact ham (h.2 a ha m hm (by rw [e, hself]))
  unfold collapse
  rw [mergeLinks_apply]
  by_cases hzm : z = m
  · rw [if_pos hzm, if_pos hzm]
    by_cases e : eb r = m
    · rw [if_pos e]; exact reach_refl eb r
    · rw [if_neg e]; exact reach_step eb r
  · rw [if_neg hzm, if_neg hzm]
    by_cases hzr : z = r
    · rw [if_pos hzr, if_pos rfl, hzr]; exact reach_refl eb r
    · rw [if_neg hzr, if_neg (hr_ne z hz hzm)]; exact reach_step eb z

theorem merge_reach_collapse {eb : Nat → Nat} {n r m : Nat} (h : CycleInv eb n)
    (hr : r < n) (hm : m < n) (hrm : r ≠ m) (hself : eb m = m) (k : Nat) :
    ∀ x, x < n → Reach eb (collapse r m x) (collapse r m ((mergeLinks eb r m)^[k] x)) := by
  have h2 := merge_cycleInv h hr hm hrm hself
  induction k with
  | zero => intro x _; exact reach_refl eb _
  | succ k ih =>
    intro x hx
    rw [Function.iterate_succ_apply']
    exact reach_trans (ih x hx)
      (merge_step_collapse h hm hself _ (iterate_lt h2 k x hx))

theorem merge_sim_step {eb : Nat → Nat} {r m : Nat} (hrm : r ≠ m)
    (hself : eb m = m) (a : Nat) : Reach (mergeLinks eb r m) a (eb a) := by
  by_cases ham : a = m
  · rw [ham, hself]; exact reach_refl _ m
  · by_cases har : a = r
    · refine ⟨2, ?_⟩
      have e1 : mergeLinks eb r m r = m := by
        rw [mergeLinks_apply, if_neg hrm, if_pos rfl]
      have e2 : mergeLinks eb r m m = eb r := by
        rw [mergeLinks_apply, if_pos rfl]
      rw [har]
      show mergeLinks eb r m (mergeLinks eb r m r) = eb r
      rw [e1, e2]
    · refine ⟨1, ?_⟩
      show mergeLinks eb r m a = eb a
      rw [mergeLinks_apply, if_neg ham, if_neg har]

theorem merge_sim {eb : Nat → Nat} {r m : Nat} (hrm : r ≠ m)
    (hself : eb m = m) {a b : Nat} (hab : Reach eb a b) :
    Reach (mergeLinks eb r m) a b := by
  obtain ⟨k, hk⟩ := hab
  induction k generalizing b with
  | zero => rw [← hk]; exact reach_refl _ _
  | succ k ih =>
    rw [Function.iterate_succ_apply'] at hk
    rw [← hk]
    exact reach_trans (ih rfl) (merge_sim_step hrm hself _)

/-- After a merge of the singleton `m` behind `r`, two indices are on one
cycle exactly when their images under `collapse` were. -/
theorem merge_reach_iff {eb : Nat → Nat} {n r m : Nat} (h : CycleInv eb n)
    (hr : r < n) (hm : m < n) (hrm : r ≠ m) (hself : eb m = m) (x y : Nat)
    (hx : x < n) :
    Reach (mergeLinks eb r m) x y ↔ Reach eb (collapse r m x) (collapse r m y) := by
  constructor
  · rintro ⟨k, hk⟩
    rw [← hk]
    exact merge_reach_collapse h hr hm hrm hself k x hx
  · intro hxy
    have hrm_step : Reach (mergeLinks eb r m) r m :=
      ⟨1, by show mergeLinks eb r m r = m; rw [mergeLinks_apply, if_neg hrm, if_pos rfl]⟩
    have hmr : Reach (mergeLinks eb r m) m r := by
      have s1 : Reach (mergeLinks eb r m) m (eb r) :=
        ⟨1, by show mergeLinks eb r m m = eb r; rw [mergeLinks_apply, if_pos rfl]⟩
      have s2 : Reach eb (eb r) r := reach_symm h hr (reach_step eb r)
      exact reach_trans s1 (merge_sim hrm hself s2)
    have into : ∀ z, Reach (mergeLinks eb r m) z (collapse r m z) := by
      intro z
      unfold collapse
      by_cases hz : z = m
      · rw [if_pos hz, hz]; exact hmr
      · rw [if_neg hz]; exact reach_refl _ z
    have out : ∀ z, Reach (mergeLinks eb r m) (collapse r m z) z := by
      intro z
      unfold collapse
      by_cases hz : z = m
      · rw [if_pos hz, hz]; exact hrm_step
      · rw [if_neg hz]; exact reach_refl _ z
    exact reach_trans (into x) (reach_trans (merge_sim hrm hself hxy) (out y))

/-! ## Counting cycles -/

theorem cycleCount_eq_card (eb : Nat → Nat) (n : Nat) :
    cycleCount eb n =
      ((Finset.range n).filter (fun i => ∀ j, j < i → ¬ SameCycle eb n j i)).card := by
  unfold cycleCount
  rw [← List.toFinset_card_of_nodup ((List.nodup_range n).filter _)]
  congr 1
  ext a
  simp

theorem isCycleMin_iff {eb : Nat → Nat} {n i : Nat} (h : CycleInv eb n) (hi : i < n) :
    (∀ j, j < i → ¬ SameCycle eb n j i) ↔ IsCycleMin eb i := by
  constructor
  · intro hmin j hj hr
    exact hmin j hj ((sameCycle_iff_reach h (by omega) i).2 hr)
  · intro hmin j hj hs
    exact hmin j hj ((sameCycle_iff_reach h (by omega) i).1 hs)

theorem cycleCount_eq_card_min {eb : Nat → Nat} {n : Nat} (h : CycleInv eb n)
    [DecidablePred (IsCycleMin eb)] :
    cycleCount eb n = ((Finset.range n).filter (IsCycleMin eb)).card := by
  rw [cycleCount_eq_card]
  congr 1
  ext a
  simp only [Finset.mem_filter, Finset.mem_range]
  constructor
  · rintro ⟨ha, hmin⟩; exact ⟨ha, (isCycleMin_iff h ha).1 hmin⟩
  · rintro ⟨ha, hmin⟩; exact ⟨ha, (isCycleMin_iff h ha).2 hmin⟩

theorem exists_least (P : Nat → Prop) (x : Nat) (hx : P x) :
    ∃ a, P a ∧ ∀ j, j < a → ¬ P j := by
  classical
  exact ⟨Nat.find ⟨x, hx⟩, Nat.find_spec _, fun j hj => Nat.find_min _ hj⟩

/-- How the cycle minima change under a merge: the larger one of the
minimum of the class of `r` and the singleton `m` stops being a minimum. -/
theorem merge_isCycleMin {eb : Nat → Nat} {n r m : Nat} (h : CycleInv eb n)
    (hr : r < n) (hm : m < n) (hrm : r ≠ m) (hself : eb m = m) :
    ∃ c, c < n ∧ IsCycleMin eb c ∧
      ∀ x, x < n → (IsCycleMin (mergeLinks eb r m) x ↔ (IsCycleMin eb x ∧ x ≠ c)) := by
  obtain ⟨a, har, hamin⟩ := exists_least (fun j => Reach eb j r) r (reach_refl eb r)
  have ha_le : a ≤ r := by
    by_contra hc
    exact hamin r (by omega) (reach_refl eb r)
  have han : a < n := by omega
  have ham : a ≠ m := by
    intro e
    rw [e] at har
    exact hrm (reach_of_fixed hself har)
  have hmin_a : IsCycleMin eb a := fun j hj hja => hamin j hj (reach_trans hja har)
  have hmin_m : IsCycleMin eb m := by
    intro j hj hjm
    have := reach_to_fixed h (by omega) hself hjm
    omega
  have huniq : ∀ x, x < n → Reach eb x r → IsCycleMin eb x → x = a := by
    intro x hx hxr hxmin
    rcases Nat.lt_trichotomy x a with hlt | heq | hgt
    · exact absurd hxr (hamin x hlt)
    · exact heq
    · exact absurd (reach_trans har (reach_symm h hx hxr)) (hxmin a hgt)
  have hiff := fun x y hx => merge_reach_iff h hr hm hrm hself x y hx
  have hcol_ne : ∀ j, j ≠ m → collapse r m j = j := fun j hj => by
    unfold collapse; rw [if_neg hj]
  have hcol_m : collapse r m m = r := by unfold collapse; rw [if_pos rfl]
  refine ⟨max m a, by omega, ?_, ?_⟩
  · rcases Nat.le_total m a with hle | hle
    · rw [Nat.max_eq_right hle]; exact hmin_a
    · rw [Nat.max_eq_left hle]; exact hmin_m
  intro x hx
  by_cases hxm : x = m
  · rw [hxm]
    constructor
    · intro hmin'
      refine ⟨hmin_m, ?_⟩
      intro e
      have hlt : a < m := by omega
      apply hmin' a hlt
      rw [hiff a m han, hcol_ne a ham, hcol_m]
      exact har
    · rintro ⟨_, hne⟩ j hj hjm
      have hjn : j < n := by omega
      rw [hiff j m hjn, hcol_ne j (by omega), hcol_m] at hjm
      have : ¬ j < a := fun hja => hamin j hja hjm
      omega
  · by_cases hxr : Reach eb x r
    · constructor
      · intro hmin'
        have hxmin : IsCycleMin eb x := by
          intro j hj hjx
          have hjn : j < n := by omega
          have hjm : j ≠ m := by
            intro e
            rw [e] at hjx
            exact hxm (reach_of_fixed hself hjx)
          apply hmin' j hj
          rw [hiff j x hjn, hcol_ne j hjm, hcol_ne x hxm]
          exact hjx
        refine ⟨hxmin, ?_⟩
        intro e
        have hxa : x = a := huniq x hx hxr hxmin
        have hlt : m < x := by omega
        apply hmin' m hlt
        rw [hiff m x hm, hcol_m, hcol_ne x hxm]
        exact reach_symm h hx hxr
      · rintro ⟨hxmin, hne⟩ j hj hjx
        have hxa : x = a := huniq x hx hxr hxmin
        have hjn : j < n := by omega
        have hjm : j ≠ m := by omega
        rw [hiff j x hjn, hcol_ne j hjm, hcol_ne x hxm] at hjx
        exact hxmin j hj hjx
    · have hxa : x ≠ a := fun e => hxr (e ▸ har)
      constructor
      · intro hmin'
        refine ⟨?_, by omega⟩
        intro j hj hjx
        have hjn : j < n := by omega
        have hjm : j ≠ m := by
          intro e
          rw [e] at hjx
          exact hxm (reach_of_fixed hself hjx)
        apply hmin' j hj
        rw [hiff j x hjn, hcol_ne j hjm, hcol_ne x hxm]
        exact hjx
      · rintro ⟨hxmin, _⟩ j hj hjx
        have hjn : j < n := by omega
        rw [hiff j x hjn, hcol_ne x hxm] at hjx
        by_cases hjm : j = m
        · rw [hjm, hcol_m] at hjx
          exact hxr (reach_symm h hr hjx)
        · rw [hcol_ne j hjm] at hjx
          exact hxmin j hj hjx

/-- A merge of a singleton lowers the number of cycles by one. -/
theorem merge_cycleCount {eb : Nat → Nat} {n r m : Nat} (h : CycleInv eb n)
    (hr : r < n) (hm : m < n) (hrm : r ≠ m) (hself : eb m = m) :
    cycleCount (mergeLinks eb r m) n + 1 = cycleCount eb n := by
  classical
  obtain ⟨c, hc, hcmin, hiff⟩ := merge_isCycleMin h hr hm hrm hself
  rw [cycleCount_eq_card_min h, cycleCount_eq_card_min (merge_cycleInv h hr hm hrm hself)]
  have hset : (Finset.range n).filter (IsCycleMin (mergeLinks eb r m)) =
      ((Finset.range n).filter (IsCycleMin eb)).erase c := by
    ext x
    simp only [Finset.mem_filter, Finset.mem_range, Finset.mem_erase]
    constructor
    · rintro ⟨hx, hmin⟩
      have := (hiff x hx).1 hmin
      exact ⟨this.2, hx, this.1⟩
    · rintro ⟨hne, hx, hmin⟩
      exact ⟨hx, (hiff x hx).2 ⟨hmin, hne⟩⟩
  have hmem : c ∈ (Finset.range n).filter (IsCycleMin eb) := by
    simp only [Finset.mem_filter, Finset.mem_range]
    exact ⟨hc, hcmin⟩
  rw [hset, Finset.card_erase_of_mem hmem]
  have : 0 < ((Finset.range n).filter (IsCycleMin eb)).card := Finset.card_pos.2 ⟨c, hmem⟩
  omega

theorem cycleCount_le (eb : Nat → Nat) (n : Nat) : cycleCount eb n ≤ n := by
  unfold cycleCount
  calc ((List.range n).filter _).length ≤ (List.range n).length := List.length_filter_le _ _
    _ = n := List.length_range n

/-! ## The removal primitive -/

theorem remove_walk_of_iterate (eb : Nat → Nat) (block : Nat) (k : Nat) :
    ∀ x fuel, eb^[k + 1] x = block → k < fuel →
      ∃ p, remove_walk eb block fuel x = some p ∧ eb p = block ∧
        ∃ j, j ≤ k ∧ p = eb^[j] x := by
  induction k with
  | zero =>
    intro x fuel hx hf
    obtain ⟨f, rfl⟩ : ∃ f, fuel = f + 1 := ⟨fuel - 1, by omega⟩
    have hx1 : eb x = block := hx
    exact ⟨x, by simp [remove_walk, hx1], hx1, 0, le_refl _, rfl⟩
  | succ k ih =>
    intro x fuel hx hf
    obtain ⟨f, rfl⟩ : ∃ f, fuel = f + 1 := ⟨fuel - 1, by omega⟩
    by_cases hx1 : eb x = block
    · exact ⟨x, by simp [remove_walk, hx1], hx1, 0, Nat.zero_le _, rfl⟩
    · rw [Function.iterate_succ_apply] at hx
      obtain ⟨p, hp, hpb, j, hj, hpj⟩ := ih (eb x) f hx (by omega)
      refine ⟨p, ?_, hpb, j + 1, by omega, ?_⟩
      · simp [remove_walk, hx1, hp]
      · rw [Function.iterate_succ_apply]; exact hpj

/-- Under the cycle invariant the predecessor walk from `b` stops within `n`
loop tests, at an in-range predecessor of `b`. -/
theorem remove_walk_total {eb : Nat → Nat} {n b fuel : Nat} (h : CycleInv eb n)
    (hb : b < n) (hf : n ≤ fuel) :
    ∃ p, remove_walk eb b fuel b = some p ∧ eb p = b ∧ p < n := by
  obtain ⟨k, hk0, hkn, hk⟩ := returns_of_cycleInv h b hb
  obtain ⟨k1, rfl⟩ : ∃ k1, k = k1 + 1 := ⟨k - 1, by omega⟩
  obtain ⟨p, hp, hpb, j, _, hpj⟩ := remove_walk_of_iterate eb b k1 b fuel hk (by omega)
  exact ⟨p, hp, hpb, by rw [hpj]; exact iterate_lt h j b hb⟩

theorem removeLinks_apply (eb : Nat → Nat) (p b x : Nat) :
    removeLinks eb p b x = if x = b then b else if x = p then eb b else eb x := by
  simp [removeLinks, Function.update_apply]

theorem remove_cycleInv {eb : Nat → Nat} {n p b : Nat} (h : CycleInv eb n)
    (hp : p < n) (hb : b < n) (hpb : eb p = b) :
    CycleInv (removeLinks eb p b) n := by
  have hinj := h.2
  refine ⟨?_, ?_⟩
  · intro i hi
    rw [removeLinks_apply]
    split_ifs
    · exact hb
    · exact h.1 b hb
    · exact h.1 i hi
  · intro i hi j hj e
    rw [removeLinks_apply, removeLinks_apply] at e
    by_cases hib : i = b
    · by_cases hjb : j = b
      · rw [hib, hjb]
      · rw [if_pos hib, if_neg hjb] at e
        by_cases hjp : j = p
        · rw [if_pos hjp] at e
          have : b = p := hinj b hb p hp (by rw [← e, hpb])
          rw [hib, hjp, this]
        · rw [if_neg hjp] at e
          exact absurd (hinj j hj p hp (by rw [← e, hpb])) hjp
    · rw [if_neg hib] at e
      by_cases hip : i = p
      · rw [if_pos hip] at e
        by_cases hjb : j = b
        · rw [if_pos hjb] at e
          have : b = p := hinj b hb p hp (by rw [e, hpb])
          rw [hip, hjb, this]
        · rw [if_neg hjb] at e
          by_cases hjp : j = p
          · rw [hip, hjp]
          · rw [if_neg hjp] at e
            exact absurd (hinj b hb j hj e).symm hjb
      · rw [if_neg hip] at e
        by_cases hjb : j = b
        · rw [if_pos hjb] at e
          exact absurd (hinj i hi p hp (by rw [e, hpb])) hip
        · rw [if_neg hjb] at e
          by_cases hjp : j = p
          · rw [if_pos hjp] at e
            exact absurd (hinj i hi b hb e) hib
          · rw [if_neg hjp] at e
            exact hinj i hi j hj e

/-- Removal is undone by merging the removed block behind its former
predecessor. -/
theorem merge_removeLinks {eb : Nat → Nat} {p b : Nat} (hne : p ≠ b)
    (hpb : eb p = b) : mergeLinks (removeLinks eb p b) p b = eb := by
  funext x
  rw [mergeLinks_apply, removeLinks_apply, removeLinks_apply, if_neg hne, if_pos rfl]
  by_cases hxb : x = b
  · rw [if_pos hxb, hxb]
  · rw [if_neg hxb, if_neg hxb]
    by_cases hxp : x = p
    · rw [if_pos hxp, hxp, hpb]
    · rw [if_neg hxp, if_neg hxp]

/-- Merging is undone by removing the merged block. -/
theorem remove_mergeLinks {eb : Nat → Nat} {r m : Nat}
    (hself : eb m = m) : removeLinks (mergeLinks eb r m) r m = eb := by
  funext x
  rw [removeLinks_apply, mergeLinks_apply, mergeLinks_apply, if_pos rfl]
  by_cases hxm : x = m
  · rw [if_pos hxm, hxm, hself]
  · rw [if_neg hxm, if_neg hxm]
    by_cases hxr : x = r
    · rw [if_pos hxr, hxr]
    · rw [if_neg hxr, if_neg hxr]

theorem remove_cycleCount {eb : Nat → Nat} {n p b : Nat} (h : CycleInv eb n)
    (hp : p < n) (hb : b < n) (hne : p ≠ b) (hpb : eb p = b) :
    cycleCount (removeLinks eb p b) n = cycleCount eb n + 1 := by
  have h2 := remove_cycleInv h hp hb hpb
  have hself : removeLinks eb p b b = b := by rw [removeLinks_apply, if_pos rfl]
  have := merge_cycleCount h2 hp hb hne hself
  rw [merge_removeLinks hne hpb] at this
  omega

/-- After a removal of `b` (with predecessor `p`), the cycles are the old
ones with `b` taken out of its class. -/
theorem remove_reach_iff {eb : Nat → Nat} {n p b : Nat} (h : CycleInv eb n)
    (hp : p < n) (hb : b < n) (hne : p ≠ b) (hpb : eb p = b) (x y : Nat)
    (hx : x < n) :
    Reach (removeLinks eb p b) x y ↔
      (x = y ∨ (x ≠ b ∧ y ≠ b ∧ Reach eb x y)) := by
  have h2 := remove_cycleInv h hp hb hpb
  have hself : removeLinks eb p b b = b := by rw [removeLinks_apply, if_pos rfl]
  have hiff := fun u v hu => merge_reach_iff h2 hp hb hne hself u v hu
  rw [merge_removeLinks hne hpb] at hiff
  have hcol : ∀ z, z ≠ b → collapse p b z = z := fun z hz => by
    unfold collapse; rw [if_neg hz]
  constructor
  · intro hr
    by_cases hxy : x = y
    · exact Or.inl hxy
    · right
      have hxb : x ≠ b := fun e => hxy (by rw [e] at hr ⊢; exact (reach_of_fixed hself hr).symm)
      have hyb : y ≠ b := fun e => hxy (by rw [e] at hr ⊢; exact reach_to_fixed h2 hx hself hr)
      refine ⟨hxb, hyb, ?_⟩
      rw [hiff x y hx, hcol x hxb, hcol y hyb]
      exact hr
  · rintro (hxy | ⟨hxb, hyb, hr⟩)
    · rw [hxy]; exact reach_refl _ y
    · rw [hiff x y hx, hcol x hxb, hcol y hyb] at hr
      exact hr

/-- What `dedup_remove_block_duplication` returns under the cycle invariant
with enough loop tests. -/
theorem remove_result {s : DedupState} {b fuel : Nat}
    (h : CycleInv s.equal_blocks s.blocks_count) (hb : b < s.blocks_count)
    (hf : s.blocks_count ≤ fuel) :
    (s.equal_blocks b = b ∧ dedup_remove_block_duplication fuel s b = some s) ∨
    (s.equal_blocks b ≠ b ∧ ∃ p, p < s.blocks_count ∧ p ≠ b ∧ s.equal_blocks p = b ∧
      dedup_remove_block_duplication fuel s b =
        some { s with equal_blocks := removeLinks s.equal_blocks p b
                      duplicatedBlocks :=
                        (s.duplicatedBlocks + SECTOR_MOD - 1) % SECTOR_MOD }) := by
  by_cases hbb : s.equal_blocks b = b
  · left
    exact ⟨hbb, by simp [dedup_remove_block_duplication, hbb]⟩
  · right
    obtain ⟨p, hp, hpb, hpn⟩ := remove_walk_total h hb hf
    refine ⟨hbb, p, hpn, ?_, hpb, ?_⟩
    · intro e; rw [e] at hpb; exact hbb hpb
    · simp [dedup_remove_block_duplication, hbb, hp, removeLinks]

/-! ## The grouping pass of the build -/

theorem crc_get {env : Env} {s : DedupState} (h : CrcConsistent env s) (i : Nat)
    (hi : i < s.blocks_count) :
    ∃ d, s.hashes i = some d ∧ s.hash_crc i = env.crc32_le d := by
  have := h i hi
  cases hd : s.hashes i with
  | none => rw [hd] at this; cases this
  | some d =>
    rw [hd] at this
    exact ⟨d, rfl, (Option.some.inj this).symm⟩

theorem firstMatch_spec (p : Nat → Bool) (bound dflt : Nat) :
    ((firstMatch p bound).getD dflt = dflt ∧ firstMatch p bound = none ∧
        ∀ j, j < bound → p j = false) ∨
    (firstMatch p bound = some ((firstMatch p bound).getD dflt) ∧
      (firstMatch p bound).getD dflt < bound ∧
      p ((firstMatch p bound).getD dflt) = true ∧
      ∀ j, j < (firstMatch p bound).getD dflt → p j = false) := by
  unfold firstMatch
  cases h : (List.range bound).find? p with
  | none =>
    left
    refine ⟨rfl, rfl, ?_⟩
    intro j hj
    have := (List.find?_range_eq_none.1 h) j hj
    simpa using this
  | some j =>
    right
    obtain ⟨h1, h2, h3⟩ := List.find?_range_eq_some.1 h
    refine ⟨rfl, by simpa using h2, by simpa using h1, ?_⟩
    intro j2 hj2
    have := h3 j2 (by simpa using hj2)
    simpa using this

theorem build_match_iff (s : DedupState) (i j : Nat) :
    build_match s i j = true ↔
      (s.hash_crc i = s.hash_crc j ∧ s.hashes i ≠ none ∧ s.hashes i = s.hashes j) := by
  unfold build_match
  cases hi : s.hashes i <;> cases hj : s.hashes j <;> simp

theorem identity_cycleInv {eb : Nat → Nat} {n : Nat} (hid : ∀ i, i < n → eb i = i) :
    CycleInv eb n := by
  refine ⟨fun i hi => by rw [hid i hi]; exact hi, ?_⟩
  intro i hi j hj e
  rw [hid i hi, hid j hj] at e
  exact e

theorem identity_cycleCount {eb : Nat → Nat} {n : Nat} (hid : ∀ i, i < n → eb i = i) :
    cycleCount eb n = n := by
  classical
  rw [cycleCount_eq_card_min (identity_cycleInv hid)]
  have : (Finset.range n).filter (IsCycleMin eb) = Finset.range n := by
    apply Finset.filter_true_of_mem
    intro x hx j hj hr
    have hxn : x < n := Finset.mem_range.1 hx
    have := reach_of_fixed (hid j (by omega)) hr
    omega
  rw [this, Finset.card_range]

theorem buildInv_zero (env : Env) (s0 : DedupState)
    (hid : ∀ i, i < s0.blocks_count → s0.equal_blocks i = i) : BuildInv env s0 0 s0 where
  count := rfl
  start := rfl
  hashes := rfl
  crc := rfl
  init := rfl
  inv := identity_cycleInv hid
  above := fun _ _ => rfl
  sound := fun x y hx _ hr => Or.inl (reach_of_fixed (hid x hx) hr).symm
  complete := fun _ x y hx _ _ => absurd hx (Nat.not_lt_zero x)
  counter := fun h0 _ => by rw [h0, identity_cycleCount hid]; omega

theorem buildInv_step (env : Env) (s0 : DedupState)
    (hid : ∀ i, i < s0.blocks_count → s0.equal_blocks i = i) (k : Nat)
    (hk : k < s0.blocks_count) (s : DedupState) (hs : BuildInv env s0 k s) :
    BuildInv env s0 (k + 1) (build_step k s) := by
  have hself : s.equal_blocks k = k := by rw [hs.above k (le_refl k)]; exact hid k hk
  have hmatch : ∀ j, build_match s k j = true ↔
      (s0.hash_crc k = s0.hash_crc j ∧ s0.hashes k ≠ none ∧ s0.hashes k = s0.hashes j) := by
    intro j
    rw [build_match_iff, hs.hashes, hs.crc]
  unfold build_step
  rcases firstMatch_spec (build_match s k) k k with ⟨he, _, hnone⟩ | ⟨_, hlt, htrue, _⟩
  · have he2 : build_equal_block s k = k := he
    rw [if_neg (by rw [he2]; exact fun hc => hc rfl)]
    refine { hs with above := ?_, sound := ?_, complete := ?_ }
    · intro x hx; exact hs.above x (by omega)
    · intro x y hx hy hr
      rcases hs.sound x y hx hy hr with h1 | ⟨h1, h2, h3⟩
      · exact Or.inl h1
      · exact Or.inr ⟨by omega, by omega, h3⟩
    · intro hc x y hx hy hxy
      have hnomatch : ∀ j, j < k → s0.hashes k ≠ s0.hashes j := by
        intro j hj e
        have hf := hnone j hj
        have ht : build_match s k j = true := by
          rw [hmatch]
          obtain ⟨d, hd, hcd⟩ := crc_get hc k hk
          obtain ⟨d2, hd2, hcd2⟩ := crc_get hc j (by omega)
          have hdd : d = d2 := by
            rw [hd, hd2] at e
            exact Option.some.inj e
          exact ⟨by rw [hcd, hcd2, hdd], by rw [hd]; exact Option.some_ne_none d, e⟩
        rw [ht] at hf
        cases hf
      by_cases hxk : x = k
      · by_cases hyk : y = k
        · rw [hxk, hyk]; exact reach_refl _ k
        · exact absurd (by rw [← hxk]; exact hxy) (hnomatch y (by omega))
      · by_cases hyk : y = k
        · exact absurd (by rw [← hyk]; exact hxy.symm) (hnomatch x (by omega))
        · exact hs.complete hc x y (by omega) (by omega) hxy
  · have hj : build_equal_block s k < k := hlt
    have hjt : build_match s k (build_equal_block s k) = true := htrue
    generalize build_equal_block s k = j at hj hjt
    rw [if_pos (by omega)]
    obtain ⟨_, _, hkj⟩ := (hmatch j).1 hjt
    have hjn : j < s0.blocks_count := by omega
    have hjk : j ≠ k := by omega
    have hiff := fun x y hx => merge_reach_iff hs.inv hjn hk hjk hself x y hx
    have hcol_lt : ∀ z, z < k + 1 → collapse j k z < k := by
      intro z hz
      unfold collapse
      split_ifs <;> omega
    have hcol_h : ∀ z, s0.hashes (collapse j k z) = s0.hashes z := by
      intro z
      unfold collapse
      split_ifs with hzk
      · rw [hzk, hkj]
      · rfl
    have heb : (dedup_set_block_duplication s j k).equal_blocks =
        mergeLinks s.equal_blocks j k := rfl
    refine
      { count := hs.count, start := hs.start, hashes := hs.hashes, crc := hs.crc,
        init := hs.init, inv := ?_, above := ?_, sound := ?_, complete := ?_,
        counter := ?_ }
    · rw [heb]; exact merge_cycleInv hs.inv hjn hk hjk hself
    · intro x hx
      rw [heb, mergeLinks_apply, if_neg (by omega), if_neg (by omega)]
      exact hs.above x (by omega)
    · intro x y hx hy hr
      rw [heb, hiff x y hx] at hr
      have hcx : collapse j k x < s0.blocks_count := by
        unfold collapse; split_ifs <;> omega
      have hcy : collapse j k y < s0.blocks_count := by
        unfold collapse; split_ifs <;> omega
      rcases hs.sound _ _ hcx hcy hr with h1 | ⟨h1, h2, h3⟩
      · by_cases hxy : x = y
        · exact Or.inl hxy
        · right
          have hh : s0.hashes x = s0.hashes y := by
            rw [← hcol_h x, ← hcol_h y, h1]
          unfold collapse at h1
          split_ifs at h1 with hxk hyk hyk
          · omega
          · exact ⟨by omega, by omega, hh⟩
          · exact ⟨by omega, by omega, hh⟩
          · omega
      · right
        rw [hcol_h x, hcol_h y] at h3
        unfold collapse at h1 h2
        split_ifs at h1 h2 <;> exact ⟨by omega, by omega, h3⟩
    · intro hc x y hx hy hxy
      rw [heb, hiff x y (by omega)]
      apply hs.complete hc _ _ (hcol_lt x hx) (hcol_lt y hy)
      rw [hcol_h x, hcol_h y]
      exact hxy
    · intro h0 hM
      have hcnt := hs.counter h0 hM
      have hcc := merge_cycleCount hs.inv hjn hk hjk hself
      rw [heb]
      show (s.duplicatedBlocks + 1) % SECTOR_MOD +
        cycleCount (mergeLinks s.equal_blocks j k) s0.blocks_count = s0.blocks_count
      have : s.duplicatedBlocks + 1 < SECTOR_MOD := by omega
      rw [Nat.mod_eq_of_lt this]
      omega

theorem buildInv_loop (env : Env) (s0 : DedupState)
    (hid : ∀ i, i < s0.blocks_count → s0.equal_blocks i = i) (k : Nat)
    (hk : k ≤ s0.blocks_count) : BuildInv env s0 k (forLoop build_step k s0) := by
  induction k with
  | zero => exact buildInv_zero env s0 hid
  | succ k ih => exact buildInv_step env s0 hid k (by omega) _ (ih (by omega))

theorem buildInv_final (env : Env) (s0 : DedupState)
    (hid : ∀ i, i < s0.blocks_count → s0.equal_blocks i = i) :
    BuildInv env s0 s0.blocks_count (test_final_hash_compare s0) :=
  buildInv_loop env s0 hid s0.blocks_count (le_refl _)

/-! ## Effect of a removal on the whole state -/

theorem remove_walk_some (eb : Nat → Nat) (block : Nat) :
    ∀ fuel x p, remove_walk eb block fuel x = some p → eb p = block ∧ Reach eb x p := by
  intro fuel
  induction fuel with
  | zero => intro x p hp; simp [remove_walk] at hp
  | succ f ih =>
    intro x p hp
    by_cases hx : eb x = block
    · simp [remove_walk, hx] at hp
      rw [← hp]; exact ⟨hx, reach_refl eb x⟩
    · simp [remove_walk, hx] at hp
      obtain ⟨h1, h2⟩ := ih (eb x) p hp
      exact ⟨h1, reach_trans (reach_step eb x) h2⟩

theorem removeOut_of_links {s : DedupState} {b p : Nat}
    (h : CycleInv s.equal_blocks s.blocks_count) (hb : b < s.blocks_count)
    (hp : p < s.blocks_count) (hne : p ≠ b) (hpb : s.equal_blocks p = b) :
    RemoveOut s b
      { s with equal_blocks := removeLinks s.equal_blocks p b
               duplicatedBlocks := (s.duplicatedBlocks + SECTOR_MOD - 1) % SECTOR_MOD } := by
  have hbb : s.equal_blocks b ≠ b := by
    intro e
    exact hne (h.2 p hp b hb (by rw [hpb, e]))
  refine
    { count := rfl, start := rfl, hashes := rfl, crc := rfl, init := rfl,
      inv := remove_cycleInv h hp hb hpb, self := ?_, reach := ?_, dup := ?_,
      cycles := ?_ }
  · show removeLinks s.equal_blocks p b b = b
    rw [removeLinks_apply, if_pos rfl]
  · intro x y hx _
    exact remove_reach_iff h hp hb hne hpb x y hx
  · show _ = if s.equal_blocks b = b then _ else _
    rw [if_neg hbb]
  · show cycleCount (removeLinks s.equal_blocks p b) s.blocks_count = _
    rw [if_neg hbb]
    exact remove_cycleCount h hp hb hne hpb

theorem removeOut_of_self {s : DedupState} {b : Nat}
    (h : CycleInv s.equal_blocks s.blocks_count) (hbb : s.equal_blocks b = b) :
    RemoveOut s b s := by
  refine
    { count := rfl, start := rfl, hashes := rfl, crc := rfl, init := rfl,
      inv := h, self := hbb, reach := ?_, dup := by rw [if_pos hbb],
      cycles := by rw [if_pos hbb] }
  intro x y hx _
  constructor
  · intro hr
    by_cases hxy : x = y
    · exact Or.inl hxy
    · right
      refine ⟨?_, ?_, hr⟩
      · intro e; rw [e] at hr; exact hxy (by rw [e]; exact (reach_of_fixed hbb hr).symm)
      · intro e; rw [e] at hr; exact hxy (by rw [e]; exact reach_to_fixed h hx hbb hr)
  · rintro (hxy | ⟨_, _, hr⟩)
    · rw [hxy]; exact reach_refl _ y
    · exact hr

/-- Whatever the bound on the walk, a removal that returns did what the two
stores of the source do, at an in-range predecessor. -/
theorem remove_cases {s s1 : DedupState} {b fuel : Nat}
    (h : CycleInv s.equal_blocks s.blocks_count) (hb : b < s.blocks_count)
    (hres : dedup_remove_block_duplication fuel s b = some s1) :
    (s.equal_blocks b = b ∧ s1 = s) ∨
    (s.equal_blocks b ≠ b ∧ ∃ p, p < s.blocks_count ∧ p ≠ b ∧ s.equal_blocks p = b ∧
      s1 = { s with equal_blocks := removeLinks s.equal_blocks p b
                    duplicatedBlocks :=
                      (s.duplicatedBlocks + SECTOR_MOD - 1) % SECTOR_MOD }) := by
  by_cases hbb : s.equal_blocks b = b
  · left
    simp [dedup_remove_block_duplication, hbb] at hres
    exact ⟨hbb, hres.symm⟩
  · right
    refine ⟨hbb, ?_⟩
    unfold dedup_remove_block_duplication at hres
    rw [if_neg hbb] at hres
    cases hw : remove_walk s.equal_blocks b fuel b with
    | none => rw [hw] at hres; cases hres
    | some p =>
      rw [hw] at hres
      obtain ⟨hpb, hreach⟩ := remove_walk_some _ _ _ _ _ hw
      refine ⟨p, reach_lt h hb hreach, ?_, hpb, ?_⟩
      · intro e; rw [e] at hpb; exact hbb hpb
      · exact (Option.some.inj hres).symm

theorem removeOut_of_result {s s1 : DedupState} {b fuel : Nat}
    (h : CycleInv s.equal_blocks s.blocks_count) (hb : b < s.blocks_count)
    (hres : dedup_remove_block_duplication fuel s b = some s1) : RemoveOut s b s1 := by
  rcases remove_cases h hb hres with ⟨hbb, rfl⟩ | ⟨_, p, hp, hne, hpb, rfl⟩
  · exact removeOut_of_self h hbb
  · exact removeOut_of_links h hb hp hne hpb

/-- With at least `blocks_count` loop tests the removal returns. -/
theorem remove_total {s : DedupState} {b fuel : Nat}
    (h : CycleInv s.equal_blocks s.blocks_count) (hb : b < s.blocks_count)
    (hf : s.blocks_count ≤ fuel) :
    ∃ s1, dedup_remove_block_duplication fuel s b = some s1 := by
  rcases remove_result h hb hf with ⟨_, hr⟩ | ⟨_, p, _, _, _, hr⟩
  · exact ⟨_, hr⟩
  · exact ⟨_, hr⟩

theorem in_range_lt {s : DedupState} {block : Nat} (h : dedup_is_in_range s block ≠ 0) :
    s.start_block ≤ block ∧ block - s.start_block < s.blocks_count := by
  unfold dedup_is_in_range at h
  split_ifs at h with hc
  · have := Nat.mod_le (s.start_block + s.blocks_count) SECTOR_MOD
    omega
  · exact absurd rfl h

/-! ## The incremental update -/

theorem update_match_iff (s : DedupState) (b c : Nat) :
    update_match s b c = true ↔
      (c ≠ b ∧ s.hash_crc c = s.hash_crc b ∧ s.hashes c ≠ none ∧
        s.hashes c = s.hashes b) := by
  unfold update_match
  cases hc : s.hashes c <;> cases hb : s.hashes b <;> simp

theorem dec_mod (d M : Nat) (h1 : 1 ≤ d) (h2 : d < M) : (d + M - 1) % M = d - 1 := by
  have e : d + M - 1 = (d - 1) + M := by omega
  rw [e, Nat.add_mod_right, Nat.mod_eq_of_lt (by omega)]

theorem dec_inc_mod (d M : Nat) (h : d < M) : ((d + M - 1) % M + 1) % M = d := by
  rcases Nat.eq_zero_or_pos d with h0 | hpos
  · subst h0
    have e : (0 + M - 1) % M = M - 1 := by
      rw [Nat.zero_add]; exact Nat.mod_eq_of_lt (by omega)
    rw [e]
    have e2 : M - 1 + 1 = M := by omega
    rw [e2, Nat.mod_self]
  · rw [dec_mod d M hpos h]
    have e : d - 1 + 1 = d := by omega
    rw [e, Nat.mod_eq_of_lt h]

theorem inc_dec_mod (d M : Nat) (h : d < M) : ((d + 1) % M + M - 1) % M = d := by
  by_cases hlt : d + 1 < M
  · rw [Nat.mod_eq_of_lt hlt]
    have e : d + 1 + M - 1 = d + M := by omega
    rw [e, Nat.add_mod_right, Nat.mod_eq_of_lt h]
  · have e : d + 1 = M := by omega
    rw [e, Nat.mod_self, Nat.zero_add]
    exact (Nat.mod_eq_of_lt (by omega)).trans (by omega)

/-- Shape of the result of `dedup_update_page_changed` on an in-range
block: a removal, the store of the new digest and checksum, then a merge
behind the block found by the scan, if any. -/
theorem update_cases {env : Env} {fuel : Nat} {s s2 : DedupState} {blk : Nat}
    {data : Content} {r : Int} (hin : dedup_is_in_range s blk ≠ 0)
    (hres : dedup_update_page_changed env fuel s blk data = some (r, s2)) :
    r = 0 ∧ ∃ s1, dedup_remove_block_duplication fuel s (blk - s.start_block) = some s1 ∧
      ((update_equal_block (store_hash_crc env s1 (blk - s.start_block) data)
            (blk - s.start_block) = blk - s.start_block ∧
          s2 = store_hash_crc env s1 (blk - s.start_block) data) ∨
        (update_equal_block (store_hash_crc env s1 (blk - s.start_block) data)
            (blk - s.start_block) ≠ blk - s.start_block ∧
          s2 = dedup_set_block_duplication
            (store_hash_crc env s1 (blk - s.start_block) data)
            (update_equal_block (store_hash_crc env s1 (blk - s.start_block) data)
              (blk - s.start_block))
            (blk - s.start_block))) := by
  unfold dedup_update_page_changed at hres
  rw [if_neg hin] at hres
  cases hrem : dedup_remove_block_duplication fuel s (blk - s.start_block) with
  | none => simp [hrem] at hres
  | some s1 =>
    simp only [hrem] at hres
    by_cases he : update_equal_block (store_hash_crc env s1 (blk - s.start_block) data)
        (blk - s.start_block) = blk - s.start_block
    · rw [if_neg (by rw [he]; exact fun hc => hc rfl)] at hres
      have := Option.some.inj hres
      exact ⟨(congrArg Prod.fst this).symm, s1, rfl, Or.inl ⟨he, (congrArg Prod.snd this).symm⟩⟩
    · rw [if_pos (fun hc => he hc.symm)] at hres
      have := Option.some.inj hres
      exact ⟨(congrArg Prod.fst this).symm, s1, rfl, Or.inr ⟨he, (congrArg Prod.snd this).symm⟩⟩

theorem update_total (env : Env) {fuel : Nat} {s : DedupState} {blk : Nat}
    (data : Content) (h : CycleInv s.equal_blocks s.blocks_count)
    (hin : dedup_is_in_range s blk ≠ 0) (hf : s.blocks_count ≤ fuel) :
    ∃ s2, dedup_update_page_changed env fuel s blk data = some (0, s2) := by
  obtain ⟨s1, hs1⟩ := remove_total h (in_range_lt hin).2 hf
  unfold dedup_update_page_changed
  rw [if_neg hin]
  simp only [hs1]
  split_ifs
  · exact ⟨_, rfl⟩
  · exact ⟨_, rfl⟩

theorem store_equal_blocks (env : Env) (s : DedupState) (b : Nat) (data : Content) :
    (store_hash_crc env s b data).equal_blocks = s.equal_blocks ∧
    (store_hash_crc env s b data).blocks_count = s.blocks_count ∧
    (store_hash_crc env s b data).start_block = s.start_block ∧
    (store_hash_crc env s b data).duplicatedBlocks = s.duplicatedBlocks ∧
    (store_hash_crc env s b data).need_to_init = s.need_to_init := by
  unfold store_hash_crc
  cases s.hashes b <;> exact ⟨rfl, rfl, rfl, rfl, rfl⟩

theorem store_of_some (env : Env) (s : DedupState) (b : Nat) (data : Content)
    (h : s.hashes b ≠ none) :
    (store_hash_crc env s b data).hashes =
      Function.update s.hashes b (some (env.calc_hash data)) ∧
    (store_hash_crc env s b data).hash_crc =
      Function.update s.hash_crc b (env.crc32_le (env.calc_hash data)) := by
  unfold store_hash_crc
  cases hb : s.hashes b with
  | none => exact absurd hb h
  | some d => exact ⟨rfl, rfl⟩

/-- The structural part of an update: the cycle invariant and the relation
between the counter and the number of cycles are kept. -/
theorem update_structural {env : Env} {fuel : Nat} {s s2 : DedupState} {blk : Nat}
    {data : Content} {r : Int} (h : CycleInv s.equal_blocks s.blocks_count)
    (hres : dedup_update_page_changed env fuel s blk data = some (r, s2)) :
    s2.blocks_count = s.blocks_count ∧ s2.start_block = s.start_block ∧
    CycleInv s2.equal_blocks s2.blocks_count ∧
    (s.blocks_count < SECTOR_MOD →
      s.duplicatedBlocks + cycleCount s.equal_blocks s.blocks_count = s.blocks_count →
      s2.duplicatedBlocks + cycleCount s2.equal_blocks s2.blocks_count = s2.blocks_count) := by
  by_cases hin : dedup_is_in_range s blk = 0
  · unfold dedup_update_page_changed at hres
    rw [if_pos hin] at hres
    have := congrArg Prod.snd (Option.some.inj hres)
    simp only at this
    rw [← this]
    exact ⟨rfl, rfl, h, fun _ hc => hc⟩
  · obtain ⟨_, s1, hs1, hcase⟩ := update_cases hin hres
    have hb := (in_range_lt hin).2
    generalize blk - s.start_block = b at hs1 hcase hb
    have ho := removeOut_of_result h hb hs1
    obtain ⟨e1, e2, e3, e4, _⟩ := store_equal_blocks env s1 b data
    have hcnt1 : s.blocks_count < SECTOR_MOD →
        s.duplicatedBlocks + cycleCount s.equal_blocks s.blocks_count = s.blocks_count →
        s1.duplicatedBlocks + cycleCount s1.equal_blocks s.blocks_count = s.blocks_count := by
      intro hM hc
      rw [ho.dup, ho.cycles]
      by_cases hbb : s.equal_blocks b = b
      · rw [if_pos hbb, if_pos hbb]; exact hc
      · rw [if_neg hbb, if_neg hbb]
        have hle := cycleCount_le s1.equal_blocks s.blocks_count
        rw [ho.cycles, if_neg hbb] at hle
        rw [dec_mod _ _ (by omega) (by omega)]
        omega
    rcases hcase with ⟨_, rfl⟩ | ⟨hne, rfl⟩
    · rw [e1, e2, e3, e4, ho.count, ho.start]
      exact ⟨rfl, rfl, ho.inv, hcnt1⟩
    · generalize hj : update_equal_block (store_hash_crc env s1 b data) b = j at hne
      have hjn : j < s.blocks_count := by
        rcases firstMatch_spec (update_match (store_hash_crc env s1 b data) b)
          (store_hash_crc env s1 b data).blocks_count b with ⟨he, _, _⟩ | ⟨_, hlt, _, _⟩
        · exact absurd (hj ▸ he) hne
        · have : j < (store_hash_crc env s1 b data).blocks_count := hj ▸ hlt
          rw [e2, ho.count] at this
          exact this
      have heb : (dedup_set_block_duplication (store_hash_crc env s1 b data) j b).equal_blocks
          = mergeLinks s1.equal_blocks j b := by
        show mergeLinks (store_hash_crc env s1 b data).equal_blocks j b = _
        rw [e1]
      have hcount : (dedup_set_block_duplication (store_hash_crc env s1 b data) j b).blocks_count
          = s.blocks_count := by
        show (store_hash_crc env s1 b data).blocks_count = _
        rw [e2, ho.count]
      have hstart : (dedup_set_block_duplication (store_hash_crc env s1 b data) j b).start_block
          = s.start_block := by
        show (store_hash_crc env s1 b data).start_block = _
        rw [e3, ho.start]
      have hdup : (dedup_set_block_duplication (store_hash_crc env s1 b data) j b).duplicatedBlocks
          = (s1.duplicatedBlocks + 1) % SECTOR_MOD := by
        show ((store_hash_crc env s1 b data).duplicatedBlocks + 1) % SECTOR_MOD = _
        rw [e4]
      rw [hcount, hstart, heb, hdup]
      refine ⟨rfl, rfl, merge_cycleInv ho.inv hjn hb hne ho.self, ?_⟩
      intro hM hc
      have h1 := hcnt1 hM hc
      have hcc := merge_cycleCount ho.inv hjn hb hne ho.self
      rw [Nat.mod_eq_of_lt (by omega)]
      omega

theorem update_semantic {env : Env} {fuel : Nat} {s s2 : DedupState} {blk : Nat}
    {data : Content} {r : Int} (h : CycleInv s.equal_blocks s.blocks_count)
    (hc : CrcConsistent env s)
    (hp : ∀ x y, x < s.blocks_count → y < s.blocks_count →
      (Reach s.equal_blocks x y ↔ s.hashes x = s.hashes y))
    (hin : dedup_is_in_range s blk ≠ 0)
    (hres : dedup_update_page_changed env fuel s blk data = some (r, s2)) :
    UpdateOut env s (blk - s.start_block) data s2 := by
  obtain ⟨_, s1, hs1, hcase⟩ := update_cases hin hres
  have hb := (in_range_lt hin).2
  generalize blk - s.start_block = b at hs1 hcase hb ⊢
  have ho := removeOut_of_result h hb hs1
  obtain ⟨e1, e2, e3, e4, _⟩ := store_equal_blocks env s1 b data
  have hbsome : s1.hashes b ≠ none := by
    obtain ⟨d, hd, _⟩ := crc_get hc b hb
    rw [ho.hashes, hd]; exact Option.some_ne_none d
  obtain ⟨e5, e6⟩ := store_of_some env s1 b data hbsome
  rw [ho.hashes] at e5
  rw [ho.crc] at e6
  generalize hS : store_hash_crc env s1 b data = S at hcase e1 e2 e3 e4 e5 e6
  have hH2b : S.hashes b = some (env.calc_hash data) := by rw [e5, Function.update_same]
  have hH2 : ∀ z, z ≠ b → S.hashes z = s.hashes z := fun z hz => by
    rw [e5, Function.update_noteq hz]
  have hC2b : S.hash_crc b = env.crc32_le (env.calc_hash data) := by rw [e6, Function.update_same]
  have hC2 : ∀ z, z ≠ b → S.hash_crc z = s.hash_crc z := fun z hz => by
    rw [e6, Function.update_noteq hz]
  have hcons : CrcConsistent env S := by
    intro i hi
    rw [e2, ho.count] at hi
    by_cases hib : i = b
    · rw [hib, hH2b, hC2b]; rfl
    · rw [hH2 i hib, hC2 i hib]; exact hc i hi
  have hmatch : ∀ c, c < s.blocks_count →
      (update_match S b c = true ↔ (c ≠ b ∧ s.hashes c = some (env.calc_hash data))) := by
    intro c hcn
    rw [update_match_iff]
    constructor
    · rintro ⟨hcb, _, _, heq⟩
      exact ⟨hcb, by rw [← hH2 c hcb, heq, hH2b]⟩
    · rintro ⟨hcb, heq⟩
      obtain ⟨d, hd1, hd2⟩ := crc_get hc c hcn
      have hdd : d = env.calc_hash data := by rw [hd1] at heq; exact Option.some.inj heq
      refine ⟨hcb, ?_, ?_, ?_⟩
      · rw [hC2 c hcb, hC2b, hd2, hdd]
      · rw [hH2 c hcb, heq]; exact Option.some_ne_none _
      · rw [hH2 c hcb, heq, hH2b]
  have hspec := firstMatch_spec (update_match S b) S.blocks_count b
  rw [e2, ho.count] at hspec
  have hueb : update_equal_block S b = (firstMatch (update_match S b) S.blocks_count).getD b :=
    rfl
  rw [e2, ho.count] at hueb
  rw [← hueb] at hspec
  rcases hcase with ⟨he, rfl⟩ | ⟨hne, rfl⟩
  · have hno : ∀ c, c < s.blocks_count → c ≠ b → s.hashes c ≠ some (env.calc_hash data) := by
      intro c hcn hcb heq
      rcases hspec with ⟨_, _, hnone⟩ | ⟨_, hlt, htrue, _⟩
      · have := hnone c hcn
        rw [(hmatch c hcn).2 ⟨hcb, heq⟩] at this
        cases this
      · exact ((hmatch _ hlt).1 htrue).1 he
    refine
      { count := by rw [e2, ho.count], start := by rw [e3, ho.start], hashes := e5,
        crc := e6, consistent := hcons, partition := ?_, dup_nomatch := ?_,
        dup_match := ?_ }
    · intro x y hx hy
      rw [e1, ho.reach x y hx hy]
      constructor
      · rintro (hxy | ⟨hxb, hyb, hr⟩)
        · rw [hxy]
        · rw [hH2 x hxb, hH2 y hyb]; exact (hp x y hx hy).1 hr
      · intro heq
        by_cases hxy : x = y
        · exact Or.inl hxy
        · right
          have hxb : x ≠ b := by
            intro e
            have hyb : y ≠ b := fun e2 => hxy (by rw [e, e2])
            rw [e, hH2b, hH2 y hyb] at heq
            exact hno y hy hyb heq.symm
          have hyb : y ≠ b := by
            intro e
            rw [e, hH2b, hH2 x hxb] at heq
            exact hno x hx hxb heq
          rw [hH2 x hxb, hH2 y hyb] at heq
          exact ⟨hxb, hyb, (hp x y hx hy).2 heq⟩
    · intro _; rw [e4, ho.dup]
    · rintro ⟨c, hcn, hcb, heq⟩
      exact absurd heq (hno c hcn hcb)
  · generalize hj : update_equal_block S b = j at hne hspec
    have hjspec : j < s.blocks_count ∧ update_match S b j = true := by
      rcases hspec with ⟨he, _, _⟩ | ⟨_, hlt, htrue, _⟩
      · exact absurd he hne
      · exact ⟨hlt, htrue⟩
    obtain ⟨hjn, hjt⟩ := hjspec
    obtain ⟨hjb, hjh⟩ := (hmatch j hjn).1 hjt
    have heb : (dedup_set_block_duplication S j b).equal_blocks =
        mergeLinks s1.equal_blocks j b := by
      show mergeLinks S.equal_blocks j b = _
      rw [e1]
    have hcol_ne : ∀ z, collapse j b z ≠ b := by
      intro z; unfold collapse; split_ifs with hz
      · exact hjb
      · exact hz
    have hcol_lt : ∀ z, z < s.blocks_count → collapse j b z < s.blocks_count := by
      intro z hz; unfold collapse; split_ifs
      · exact hjn
      · exact hz
    have hcol_h : ∀ z, s.hashes (collapse j b z) = S.hashes z := by
      intro z; unfold collapse; split_ifs with hz
      · rw [hz, hH2b, hjh]
      · rw [hH2 z hz]
    refine
      { count := by show S.blocks_count = _; rw [e2, ho.count],
        start := by show S.start_block = _; rw [e3, ho.start],
        hashes := e5, crc := e6, consistent := hcons, partition := ?_,
        dup_nomatch := ?_, dup_match := ?_ }
    · intro x y hx hy
      show Reach (dedup_set_block_duplication S j b).equal_blocks x y ↔ S.hashes x = S.hashes y
      rw [heb, merge_reach_iff ho.inv hjn hb hjb ho.self x y hx,
        ho.reach _ _ (hcol_lt x hx) (hcol_lt y hy), ← hcol_h x, ← hcol_h y]
      constructor
      · rintro (hxy | ⟨_, _, hr⟩)
        · rw [hxy]
        · exact (hp _ _ (hcol_lt x hx) (hcol_lt y hy)).1 hr
      · intro heq
        exact Or.inr ⟨hcol_ne x, hcol_ne y, (hp _ _ (hcol_lt x hx) (hcol_lt y hy)).2 heq⟩
    · intro hno
      exact absurd hjh (hno j hjn hjb)
    · intro _
      show (S.duplicatedBlocks + 1) % SECTOR_MOD = _
      rw [e4, ho.dup]

/-! ## The first two loops of `dedup_init_blocks` -/

theorem init_records_frame (env : Env) (k : Nat) (s : DedupState) :
    (init_records env k s).1.blocks_count = s.blocks_count ∧
    (init_records env k s).1.start_block = s.start_block ∧
    (init_records env k s).1.duplicatedBlocks = s.duplicatedBlocks ∧
    (init_records env k s).1.need_to_init = s.need_to_init := by
  induction k with
  | zero => exact ⟨rfl, rfl, rfl, rfl⟩
  | succ k ih =>
    unfold init_records
    rcases hr : init_records env k s with ⟨s1, ok⟩
    rw [hr] at ih
    cases ok
    · exact ih
    · exact ih

theorem init_records_ok (env : Env) (k : Nat) (s : DedupState)
    (hok : (init_records env k s).2 = true) :
    ∀ i, i < k → (init_records env k s).1.equal_blocks i = i ∧
      (init_records env k s).1.hashes i ≠ none := by
  induction k with
  | zero => intro i hi; exact absurd hi (Nat.not_lt_zero i)
  | succ k ih =>
    unfold init_records at hok ⊢
    rcases hr : init_records env k s with ⟨s1, ok⟩
    rw [hr] at hok ih
    cases ok
    · cases hok
    · simp only at hok ih ⊢
      intro i hi
      by_cases hik : i = k
      · subst hik
        refine ⟨by simp [init_record], ?_⟩
        simp only [init_record, Function.update_same]
        intro hn
        rw [hn] at hok
        cases hok
      · have := ih trivial i (by omega)
        simp only [init_record, Function.update_noteq hik]
        exact this

theorem init_records_true (env : Env) (k : Nat) (s : DedupState)
    (halloc : ∀ i, i < k → env.kmalloc_hash i ≠ none) :
    (init_records env k s).2 = true := by
  induction k with
  | zero => rfl
  | succ k ih =>
    unfold init_records
    rcases hr : init_records env k s with ⟨s1, ok⟩
    rw [hr] at ih
    have hk := ih (fun i hi => halloc i (by omega))
    simp only at hk
    subst hk
    simp only
    cases hkm : env.kmalloc_hash k with
    | none => exact absurd hkm (halloc k (by omega))
    | some d => rfl

theorem calc_frame (env : Env) (b : Nat) (s : DedupState) :
    (dedup_calc_block_hash_crc env b s).equal_blocks = s.equal_blocks ∧
    (dedup_calc_block_hash_crc env b s).blocks_count = s.blocks_count ∧
    (dedup_calc_block_hash_crc env b s).start_block = s.start_block ∧
    (dedup_calc_block_hash_crc env b s).duplicatedBlocks = s.duplicatedBlocks ∧
    (dedup_calc_block_hash_crc env b s).need_to_init = s.need_to_init := by
  unfold dedup_calc_block_hash_crc
  split_ifs
  · exact ⟨rfl, rfl, rfl, rfl, rfl⟩
  · cases env.kmalloc_data b with
    | none => exact ⟨rfl, rfl, rfl, rfl, rfl⟩
    | some buf => exact store_equal_blocks env s b _

theorem store_hashes_ne_none (env : Env) (s : DedupState) (b : Nat) (data : Content)
    (i : Nat) (h : s.hashes i ≠ none) : (store_hash_crc env s b data).hashes i ≠ none := by
  unfold store_hash_crc
  cases hb : s.hashes b with
  | none => exact h
  | some d =>
    simp only
    by_cases hib : i = b
    · rw [hib, Function.update_same]; exact Option.some_ne_none _
    · rw [Function.update_noteq hib]; exact h

theorem calc_hashes_ne_none (env : Env) (b : Nat) (s : DedupState) (i : Nat)
    (h : s.hashes i ≠ none) : (dedup_calc_block_hash_crc env b s).hashes i ≠ none := by
  unfold dedup_calc_block_hash_crc
  split_ifs
  · exact h
  · cases env.kmalloc_data b with
    | none => exact h
    | some buf => exact store_hashes_ne_none env s b _ i h

theorem hash_phase_frame (env : Env) (k : Nat) (s : DedupState) :
    (forLoop (dedup_calc_block_hash_crc env) k s).equal_blocks = s.equal_blocks ∧
    (forLoop (dedup_calc_block_hash_crc env) k s).blocks_count = s.blocks_count ∧
    (forLoop (dedup_calc_block_hash_crc env) k s).start_block = s.start_block ∧
    (forLoop (dedup_calc_block_hash_crc env) k s).duplicatedBlocks = s.duplicatedBlocks ∧
    (forLoop (dedup_calc_block_hash_crc env) k s).need_to_init = s.need_to_init := by
  induction k with
  | zero => exact ⟨rfl, rfl, rfl, rfl, rfl⟩
  | succ k ih =>
    obtain ⟨a1, a2, a3, a4, a5⟩ := ih
    obtain ⟨b1, b2, b3, b4, b5⟩ :=
      calc_frame env k (forLoop (dedup_calc_block_hash_crc env) k s)
    exact ⟨b1.trans a1, b2.trans a2, b3.trans a3, b4.trans a4, b5.trans a5⟩

theorem hash_phase_ne_none (env : Env) (k : Nat) (s : DedupState) (i : Nat)
    (h : s.hashes i ≠ none) :
    (forLoop (dedup_calc_block_hash_crc env) k s).hashes i ≠ none := by
  induction k with
  | zero => exact h
  | succ k ih => exact calc_hashes_ne_none env k _ i ih

/-- When every content buffer can be allocated, the hash phase leaves each
processed record with the checksum of its digest. -/
theorem hash_phase_consistent (env : Env) (s : DedupState)
    (hbuf : ∀ i, i < s.blocks_count → s.hashes i ≠ none)
    (halloc : ∀ i, i < s.blocks_count → env.kmalloc_data i ≠ none) (k : Nat)
    (hk : k ≤ s.blocks_count) :
    ∀ i, i < k →
      ((forLoop (dedup_calc_block_hash_crc env) k s).hashes i).map env.crc32_le =
        some ((forLoop (dedup_calc_block_hash_crc env) k s).hash_crc i) := by
  induction k with
  | zero => intro i hi; exact absurd hi (Nat.not_lt_zero i)
  | succ k ih =>
    intro i hi
    have ih2 := ih (by omega)
    have hfr := hash_phase_frame env k s
    have hne := hash_phase_ne_none env k s k (hbuf k (by omega))
    have hstep : forLoop (dedup_calc_block_hash_crc env) (k + 1) s =
        dedup_calc_block_hash_crc env k (forLoop (dedup_calc_block_hash_crc env) k s) := rfl
    rw [hstep]
    generalize forLoop (dedup_calc_block_hash_crc env) k s = t at ih2 hfr hne ⊢
    unfold dedup_calc_block_hash_crc
    rw [if_neg (by rw [hfr.2.1]; omega)]
    cases hd : env.kmalloc_data k with
    | none => exact absurd hd (halloc k (by omega))
    | some buf =>
      simp only
      obtain ⟨e1, e2⟩ := store_of_some env t k (read_block env buf (t.start_block + k)) hne
      rw [e1, e2]
      by_cases hik : i = k
      · rw [hik, Function.update_same, Function.update_same]; rfl
      · rw [Function.update_noteq hik, Function.update_noteq hik]
        exact ih2 i (by omega)

theorem init_blocks_eq (env : Env) (s : DedupState)
    (hret : (dedup_init_blocks env s).1 = 0) :
    (init_records env s.blocks_count s).2 = true ∧
    (dedup_init_blocks env s).2 = test_final_hash_compare (hashed_state env s) := by
  unfold dedup_init_blocks at hret ⊢
  unfold hashed_state
  rcases hr : init_records env s.blocks_count s with ⟨s1, ok⟩
  rw [hr] at hret
  cases ok
  · simp at hret
  · exact ⟨rfl, rfl⟩

theorem init_blocks_ret (env : Env) (s : DedupState)
    (halloc : ∀ i, i < s.blocks_count → env.kmalloc_hash i ≠ none) :
    (dedup_init_blocks env s).1 = 0 := by
  have h := init_records_true env s.blocks_count s halloc
  unfold dedup_init_blocks
  rcases hr : init_records env s.blocks_count s with ⟨s1, ok⟩
  rw [hr] at h
  simp only at h
  subst h
  rfl

theorem hashed_state_spec (env : Env) (s : DedupState)
    (hok : (init_records env s.blocks_count s).2 = true) :
    (hashed_state env s).blocks_count = s.blocks_count ∧
    (hashed_state env s).start_block = s.start_block ∧
    (hashed_state env s).duplicatedBlocks = s.duplicatedBlocks ∧
    (∀ i, i < s.blocks_count → (hashed_state env s).equal_blocks i = i) ∧
    ((∀ i, i < s.blocks_count → env.kmalloc_data i ≠ none) →
      CrcConsistent env (hashed_state env s)) := by
  obtain ⟨f1, f2, f3, _⟩ := init_records_frame env s.blocks_count s
  have hi := init_records_ok env s.blocks_count s hok
  obtain ⟨g1, g2, g3, g4, _⟩ := hash_phase_frame env
    (init_records env s.blocks_count s).1.blocks_count (init_records env s.blocks_count s).1
  unfold hashed_state
  refine ⟨g2.trans f1, g3.trans f2, g4.trans f3, ?_, ?_⟩
  · intro i hin
    rw [g1]; exact (hi i hin).1
  · intro halloc i hin
    rw [g2, f1] at hin
    exact hash_phase_consistent env _ (fun j hj => (hi j (by rw [← f1]; exact hj)).2)
      (fun j hj => halloc j (by rw [← f1]; exact hj)) _ (le_refl _) i (by rw [f1]; exact hin)

/-! ## Correctness of the partition -/

theorem partition_iff_reach {s : DedupState}
    (h : CycleInv s.equal_blocks s.blocks_count) :
    PartitionOK s ↔ ∀ x y, x < s.blocks_count → y < s.blocks_count →
      (Reach s.equal_blocks x y ↔ s.hashes x = s.hashes y) := by
  constructor
  · intro hp x y hx hy
    rw [← sameCycle_iff_reach h hx y]
    exact hp x hx y hy
  · intro hp x hx y hy
    rw [sameCycle_iff_reach h hx y]
    exact hp x y hx hy

/-- C1. Build partition correctness: when every link below `blocks_count`
has been reset to itself and every record holds a digest together with the
checksum of that digest, then after `test_final_hash_compare` two indices lie
on the same `equal_blocks` cycle if and only if their digests are equal (the
digests, checksums and block count are those given). -/
theorem build_partition_correct (env : Env) (s : DedupState)
    (hreset : ∀ i, i < s.blocks_count → s.equal_blocks i = i)
    (hcrc : CrcConsistent env s) :
    (test_final_hash_compare s).hashes = s.hashes ∧
    (test_final_hash_compare s).hash_crc = s.hash_crc ∧
    (test_final_hash_compare s).blocks_count = s.blocks_count ∧
    ∀ i, i < s.blocks_count → ∀ j, j < s.blocks_count →
      (SameCycle (test_final_hash_compare s).equal_blocks s.blocks_count i j ↔
        s.hashes i = s.hashes j) := by
  have hb := buildInv_final env s hreset
  refine ⟨hb.hashes, hb.crc, hb.count, ?_⟩
  intro i hi j hj
  rw [sameCycle_iff_reach hb.inv hi j]
  constructor
  · intro hr
    rcases hb.sound i j hi hj hr with h1 | ⟨_, _, h3⟩
    · rw [h1]
    · exact h3
  · intro he
    exact hb.complete hcrc i j hi hj he

/-- Scenario A as an instance of C1: the state handed to the grouping pass by
the build of `[A, B, A, C, A]` satisfies the hypotheses, and the classes are
`{0, 2, 4}`, `{1}` and `{3}`. -/
theorem build_partition_correct_witness :
    ((test_final_hash_compare (hashed_state scenarioEnv scenarioInit)).hashes =
        (hashed_state scenarioEnv scenarioInit).hashes ∧
      (test_final_hash_compare (hashed_state scenarioEnv scenarioInit)).hash_crc =
        (hashed_state scenarioEnv scenarioInit).hash_crc ∧
      (test_final_hash_compare (hashed_state scenarioEnv scenarioInit)).blocks_count =
        (hashed_state scenarioEnv scenarioInit).blocks_count ∧
      ∀ i, i < (hashed_state scenarioEnv scenarioInit).blocks_count →
        ∀ j, j < (hashed_state scenarioEnv scenarioInit).blocks_count →
        (SameCycle (test_final_hash_compare (hashed_state scenarioEnv scenarioInit)).equal_blocks
            (hashed_state scenarioEnv scenarioInit).blocks_count i j ↔
          (hashed_state scenarioEnv scenarioInit).hashes i =
            (hashed_state scenarioEnv scenarioInit).hashes j)) ∧
    (List.range 5).map (hashed_state scenarioEnv scenarioInit).hashes =
      [some 65, some 66, some 65, some 67, some 65] ∧
    (List.range 5).map (classOf scenarioA.equal_blocks 5) =
      [[0, 2, 4], [1], [0, 2, 4], [3], [0, 2, 4]] :=
  ⟨build_partition_correct scenarioEnv (hashed_state scenarioEnv scenarioInit)
    (by decide) (by decide), by decide, by decide⟩

/-- C2. Incremental update keeps the partition correct: in a state whose
links satisfy the cycle invariant, whose checksums are those of the stored
digests and whose cycles are the classes of equal digests, a call of
`dedup_update_page_changed` on an in-range block returns 0 (given
`blocks_count` loop tests for the removal walk), stores the digest of the new
content at the index of the block, and again two indices share a cycle exactly
when their (updated) digests are equal; the cycle invariant and the
consistency of the checksums hold again. -/
theorem update_partition_correct (env : Env) (fuel : Nat) (s : DedupState)
    (blk : Nat) (data : Content)
    (hinv : CycleInv s.equal_blocks s.blocks_count) (hcrc : CrcConsistent env s)
    (hpart : PartitionOK s) (hin : dedup_is_in_range s blk = 1)
    (hf : s.blocks_count ≤ fuel) :
    ∃ s2, dedup_update_page_changed env fuel s blk data = some (0, s2) ∧
      s2.blocks_count = s.blocks_count ∧
      s2.hashes = Function.update s.hashes (blk - s.start_block) (some (env.calc_hash data)) ∧
      CycleInv s2.equal_blocks s2.blocks_count ∧ CrcConsistent env s2 ∧ PartitionOK s2 := by
  have hin2 : dedup_is_in_range s blk ≠ 0 := by rw [hin]; exact Nat.one_ne_zero
  obtain ⟨s2, hres⟩ := update_total env data hinv hin2 hf
  obtain ⟨hcount, _, hinv2, _⟩ := update_structural hinv hres
  have ho := update_semantic hinv hcrc ((partition_iff_reach hinv).1 hpart) hin2 hres
  refine ⟨s2, hres, hcount, ho.hashes, hinv2, ho.consistent, ?_⟩
  rw [partition_iff_reach hinv2, hcount]
  exact ho.partition

/-- Scenario B as an instance of C2. -/
theorem update_partition_correct_witness :
    ∃ s2, dedup_update_page_changed scenarioEnv 5 scenarioA 2 [66] = some (0, s2) ∧
      s2.blocks_count = scenarioA.blocks_count ∧
      s2.hashes = Function.update scenarioA.hashes (2 - scenarioA.start_block)
        (some (scenarioEnv.calc_hash [66])) ∧
      CycleInv s2.equal_blocks s2.blocks_count ∧ CrcConsistent scenarioEnv s2 ∧
      PartitionOK s2 :=
  update_partition_correct scenarioEnv 5 scenarioA 2 [66] (by decide) (by decide)
    (by decide) (by decide) (by decide)

/-! ## The counter `duplicatedBlocks` -/

theorem length_filter_range (P : Nat → Prop) [DecidablePred P] (n : Nat) :
    ((List.range n).filter (fun i => decide (P i))).length =
      ((Finset.range n).filter P).card := by
  rw [← List.toFinset_card_of_nodup ((List.nodup_range n).filter _)]
  congr 1
  ext a
  simp

theorem distinctCount_eq_card (H : Nat → Option Digest) (n : Nat) :
    distinctCount H n = ((Finset.range n).image H).card := by
  unfold distinctCount
  rw [← List.toFinset_card_of_nodup (List.nodup_dedup _)]
  congr 1
  ext a
  simp

/-- When the cycles are the classes of equal digests, there are as many
cycles as distinct digests. -/
theorem cycleCount_eq_distinct {eb : Nat → Nat} {H : Nat → Option Digest} {n : Nat}
    (h : CycleInv eb n)
    (hp : ∀ x y, x < n → y < n → (Reach eb x y ↔ H x = H y)) :
    cycleCount eb n = distinctCount H n := by
  classical
  rw [cycleCount_eq_card_min h, distinctCount_eq_card]
  have himg : ((Finset.range n).filter (IsCycleMin eb)).image H = (Finset.range n).image H := by
    ext d
    simp only [Finset.mem_image, Finset.mem_filter, Finset.mem_range]
    constructor
    · rintro ⟨x, ⟨hx, _⟩, hd⟩; exact ⟨x, hx, hd⟩
    · rintro ⟨x, hx, hd⟩
      obtain ⟨a, ha, hmin⟩ := exists_least (fun j => H j = H x) x rfl
      have hax : a ≤ x := by
        by_contra hc
        exact hmin x (by omega) rfl
      refine ⟨a, ⟨by omega, ?_⟩, by rw [← hd]; exact ha⟩
      intro j hj hr
      have hjn : j < n := by omega
      have : H j = H a := (hp j a hjn (by omega)).1 hr
      exact hmin j hj (this.trans ha)
  rw [← himg]
  symm
  apply Finset.card_image_of_injOn
  intro x hx y hy hxy
  simp only [Finset.coe_filter, Finset.mem_range, Set.mem_setOf_eq] at hx hy
  rcases Nat.lt_trichotomy x y with hlt | heq | hgt
  · exact absurd ((hp x y hx.1 hy.1).2 hxy) (hy.2 x hlt)
  · exact heq
  · exact absurd ((hp y x hy.1 hx.1).2 hxy.symm) (hx.2 y hgt)

/-- The cycles of length one are the blocks that are their own link, so the
cycles and the linked blocks together number as many as the blocks and the
cycles of length greater than one. -/
theorem cycleCount_add_linkedCount {eb : Nat → Nat} {n : Nat} (h : CycleInv eb n) :
    cycleCount eb n + linkedCount eb n = n + linkedCycleCount eb n := by
  classical
  have e1 : cycleCount eb n =
      ((Finset.range n).filter (fun i => ∀ j, j < i → ¬ SameCycle eb n j i)).card :=
    length_filter_range _ n
  have e2 : linkedCount eb n = ((Finset.range n).filter (fun i => eb i ≠ i)).card :=
    length_filter_range _ n
  have e3 : linkedCycleCount eb n =
      ((Finset.range n).filter
        (fun i => eb i ≠ i ∧ ∀ j, j < i → ¬ SameCycle eb n j i)).card :=
    length_filter_range _ n
  have hsplit := Finset.filter_card_add_filter_neg_card_eq_card
    (s := (Finset.range n).filter (fun i => ∀ j, j < i → ¬ SameCycle eb n j i))
    (fun i => eb i ≠ i)
  have hall := Finset.filter_card_add_filter_neg_card_eq_card
    (s := Finset.range n) (fun i => eb i ≠ i)
  have hA : ((Finset.range n).filter (fun i => ∀ j, j < i → ¬ SameCycle eb n j i)).filter
      (fun i => eb i ≠ i) =
      (Finset.range n).filter (fun i => eb i ≠ i ∧ ∀ j, j < i → ¬ SameCycle eb n j i) := by
    ext a
    simp only [Finset.mem_filter, Finset.mem_range]
    tauto
  have hB : ((Finset.range n).filter (fun i => ∀ j, j < i → ¬ SameCycle eb n j i)).filter
      (fun i => ¬ eb i ≠ i) = (Finset.range n).filter (fun i => ¬ eb i ≠ i) := by
    ext a
    simp only [Finset.mem_filter, Finset.mem_range]
    constructor
    · rintro ⟨⟨ha, _⟩, hfix⟩; exact ⟨ha, hfix⟩
    · rintro ⟨ha, hfix⟩
      refine ⟨⟨ha, ?_⟩, hfix⟩
      rw [isCycleMin_iff h ha]
      intro j hj hr
      have := reach_to_fixed h (by omega) (not_not.1 hfix) hr
      omega
  rw [hA, hB] at hsplit
  rw [Finset.card_range] at hall
  omega

theorem reaches_inv {env : Env} {s0 s : DedupState} (hr : Reaches env s0 s) :
    s.blocks_count = s0.blocks_count ∧ CycleInv s.equal_blocks s.blocks_count ∧
    (s0.duplicatedBlocks = 0 → s0.blocks_count < SECTOR_MOD →
      s.duplicatedBlocks + cycleCount s.equal_blocks s.blocks_count = s.blocks_count) := by
  induction hr with
  | build hret =>
    obtain ⟨hok, heq⟩ := init_blocks_eq env s0 hret
    obtain ⟨c1, _, c3, c4, _⟩ := hashed_state_spec env s0 hok
    have hb := buildInv_final env (hashed_state env s0) (by rw [c1]; exact c4)
    rw [heq, hb.count, c1]
    refine ⟨rfl, by have := hb.inv; rw [c1] at this; exact this, ?_⟩
    intro h0 hM
    have := hb.counter (by rw [c3]; exact h0) (by rw [c1]; exact hM)
    rw [c1] at this
    exact this
  | update s s2 fuel blk data r _ hres ih =>
    obtain ⟨i1, i2, i3⟩ := ih
    obtain ⟨u1, _, u3, u4⟩ := update_structural i2 hres
    refine ⟨u1.trans i1, u3, ?_⟩
    intro h0 hM
    exact u4 (by rw [i1]; exact hM) (i3 h0 hM)

theorem option_pair_eq (o : Option (Int × DedupState)) (d : DedupState)
    (h : o.map Prod.fst = some 0) : o = some (0, (o.map Prod.snd).getD d) := by
  cases o with
  | none => cases h
  | some v =>
    obtain ⟨r, t⟩ := v
    have hr : r = 0 := Option.some.inj h
    rw [hr]; rfl

theorem remove_walk_mono (eb : Nat → Nat) (block : Nat) :
    ∀ f x p, remove_walk eb block f x = some p →
      ∀ g, f ≤ g → remove_walk eb block g x = some p := by
  intro f
  induction f with
  | zero => intro x p hp; simp [remove_walk] at hp
  | succ f ih =>
    intro x p hp g hg
    obtain ⟨g1, rfl⟩ : ∃ g1, g = g1 + 1 := ⟨g - 1, by omega⟩
    by_cases hx : eb x = block
    · simp [remove_walk, hx] at hp ⊢
      exact hp
    · simp [remove_walk, hx] at hp ⊢
      exact ih (eb x) p hp g1 (by omega)

theorem remove_fuel_mono {s s1 : DedupState} {b f g : Nat}
    (h : dedup_remove_block_duplication f s b = some s1) (hfg : f ≤ g) :
    dedup_remove_block_duplication g s b = some s1 := by
  unfold dedup_remove_block_duplication at h ⊢
  by_cases hbb : s.equal_blocks b = b
  · rw [if_pos hbb] at h ⊢; exact h
  · rw [if_neg hbb] at h ⊢
    cases hw : remove_walk s.equal_blocks b f b with
    | none => rw [hw] at h; cases h
    | some p =>
      rw [hw] at h
      rw [remove_walk_mono _ _ _ _ _ hw g hfg]
      exact h

/-- More loop tests than needed do not change the result of an update. -/
theorem update_fuel_mono {env : Env} {s : DedupState} {blk f g : Nat} {data : Content}
    {res : Int × DedupState}
    (h : dedup_update_page_changed env f s blk data = some res) (hfg : f ≤ g) :
    dedup_update_page_changed env g s blk data = some res := by
  unfold dedup_update_page_changed at h ⊢
  by_cases hin : dedup_is_in_range s blk = 0
  · rw [if_pos hin] at h ⊢; exact h
  · rw [if_neg hin] at h ⊢
    cases hrem : dedup_remove_block_duplication f s (blk - s.start_block) with
    | none => simp [hrem] at h
    | some s1 =>
      simp only [remove_fuel_mono hrem hfg]
      simp only [hrem] at h
      exact h

theorem buildInv_partition {env : Env} {s0 s : DedupState}
    (hb : BuildInv env s0 s0.blocks_count s) (hcrc : CrcConsistent env s0) :
    ∀ x y, x < s0.blocks_count → y < s0.blocks_count →
      (Reach s.equal_blocks x y ↔ s.hashes x = s.hashes y) := by
  intro x y hx hy
  rw [hb.hashes]
  constructor
  · intro hr
    rcases hb.sound x y hx hy hr with h1 | ⟨_, _, h3⟩
    · rw [h1]
    · exact h3
  · intro he
    exact hb.complete hcrc x y hx hy he

/-- C3. Cycle invariant: the links restricted to the indices below
`blocks_count` form a permutation of them after the initialisation loop of
`dedup_init_blocks`; the invariant is preserved by
`dedup_remove_block_duplication b` for every in-range `b` (which returns,
given `blocks_count` loop tests) and by `dedup_set_block_duplication r m` for
in-range `r ≠ m` with `equal_blocks[m] = m`; hence it holds, and every index
is on a simple cycle leading back to it, in every state reached by a build
followed by calls of `dedup_update_page_changed`. -/
theorem cycle_invariant_preserved (env : Env) :
    (∀ s : DedupState, (init_records env s.blocks_count s).2 = true →
      CycleInv (init_records env s.blocks_count s).1.equal_blocks
        (init_records env s.blocks_count s).1.blocks_count) ∧
    (∀ (s : DedupState) (b fuel : Nat), CycleInv s.equal_blocks s.blocks_count →
      b < s.blocks_count → s.blocks_count ≤ fuel →
      ∃ s1, dedup_remove_block_duplication fuel s b = some s1 ∧
        CycleInv s1.equal_blocks s1.blocks_count) ∧
    (∀ (s : DedupState) (r m : Nat), CycleInv s.equal_blocks s.blocks_count →
      r < s.blocks_count → m < s.blocks_count → r ≠ m → s.equal_blocks m = m →
      CycleInv (dedup_set_block_duplication s r m).equal_blocks
        (dedup_set_block_duplication s r m).blocks_count) ∧
    (∀ s0 s : DedupState, Reaches env s0 s →
      CycleInv s.equal_blocks s.blocks_count ∧
        ReturnsToStart s.equal_blocks s.blocks_count) := by
  refine ⟨?_, ?_, ?_, ?_⟩
  · intro s hok
    rw [(init_records_frame env s.blocks_count s).1]
    exact identity_cycleInv (fun i hi => (init_records_ok env s.blocks_count s hok i hi).1)
  · intro s b fuel hinv hb hf
    obtain ⟨s1, hs1⟩ := remove_total hinv hb hf
    have ho := removeOut_of_result hinv hb hs1
    exact ⟨s1, hs1, by rw [ho.count]; exact ho.inv⟩
  · intro s r m hinv hr hm hrm hself
    exact merge_cycleInv hinv hr hm hrm hself
  · intro s0 s hreach
    have h := (reaches_inv hreach).2.1
    exact ⟨h, returns_of_cycleInv h⟩

/-- The parts of C3 at the states of scenarios A and B. -/
theorem cycle_invariant_preserved_witness :
    CycleInv (init_records scenarioEnv scenarioInit.blocks_count scenarioInit).1.equal_blocks
      (init_records scenarioEnv scenarioInit.blocks_count scenarioInit).1.blocks_count ∧
    (∃ s1, dedup_remove_block_duplication 5 scenarioA 2 = some s1 ∧
      CycleInv s1.equal_blocks s1.blocks_count) ∧
    CycleInv (dedup_set_block_duplication scenarioA 0 1).equal_blocks
      (dedup_set_block_duplication scenarioA 0 1).blocks_count ∧
    (CycleInv scenarioB.equal_blocks scenarioB.blocks_count ∧
      ReturnsToStart scenarioB.equal_blocks scenarioB.blocks_count) :=
  ⟨(cycle_invariant_preserved scenarioEnv).1 scenarioInit (by decide),
    (cycle_invariant_preserved scenarioEnv).2.1 scenarioA 2 5 (by decide) (by decide)
      (by decide),
    (cycle_invariant_preserved scenarioEnv).2.2.1 scenarioA 0 1 (by decide) (by decide)
      (by decide) (by decide) (by decide),
    (cycle_invariant_preserved scenarioEnv).2.2.2 scenarioInit scenarioB
      (Reaches.update scenarioA scenarioB 5 2 [66] 0 (Reaches.build (by decide))
        (option_pair_eq _ scenarioA (by decide)))⟩

/-- C4. After a build that starts with `duplicatedBlocks = 0` over
`blocks_count` blocks (a count below `2 ^ 64`, every digest buffer
allocated), `dedup_init_blocks` returns 0 and `duplicatedBlocks` equals the
block count minus the number of `equal_blocks` cycles; when the content
buffers of the hash phase are allocated as well, so that every record holds
the checksum of its digest, this is the block count minus the number of
distinct digests among the blocks. -/
theorem build_counter (env : Env) (s : DedupState)
    (h0 : s.duplicatedBlocks = 0) (hM : s.blocks_count < SECTOR_MOD)
    (hhash : ∀ i, i < s.blocks_count → env.kmalloc_hash i ≠ none) :
    (dedup_init_blocks env s).1 = 0 ∧
    (dedup_init_blocks env s).2.blocks_count = s.blocks_count ∧
    (dedup_init_blocks env s).2.duplicatedBlocks =
      s.blocks_count - cycleCount (dedup_init_blocks env s).2.equal_blocks s.blocks_count ∧
    ((∀ i, i < s.blocks_count → env.kmalloc_data i ≠ none) →
      (dedup_init_blocks env s).2.duplicatedBlocks =
        s.blocks_count - distinctCount (dedup_init_blocks env s).2.hashes s.blocks_count ∧
      distinctCount (dedup_init_blocks env s).2.hashes s.blocks_count =
        cycleCount (dedup_init_blocks env s).2.equal_blocks s.blocks_count) := by
  have hret := init_blocks_ret env s hhash
  obtain ⟨hok, heq⟩ := init_blocks_eq env s hret
  obtain ⟨c1, _, c3, c4, c5⟩ := hashed_state_spec env s hok
  have hb := buildInv_final env (hashed_state env s) (by rw [c1]; exact c4)
  have hcnt := hb.counter (by rw [c3]; exact h0) (by rw [c1]; exact hM)
  rw [c1] at hcnt
  rw [heq]
  refine ⟨hret, hb.count.trans c1, by omega, ?_⟩
  intro hdata
  have hpart := buildInv_partition hb (c5 hdata)
  have hcd := cycleCount_eq_distinct hb.inv hpart
  rw [c1] at hcd
  exact ⟨by rw [← hcd]; omega, hcd.symm⟩

/-- Scenario A as an instance of C4: five blocks, three distinct digests,
three cycles, counter 2. -/
theorem build_counter_witness :
    ((dedup_init_blocks scenarioEnv scenarioInit).1 = 0 ∧
      (dedup_init_blocks scenarioEnv scenarioInit).2.blocks_count =
        scenarioInit.blocks_count ∧
      (dedup_init_blocks scenarioEnv scenarioInit).2.duplicatedBlocks =
        scenarioInit.blocks_count -
          cycleCount (dedup_init_blocks scenarioEnv scenarioInit).2.equal_blocks
            scenarioInit.blocks_count ∧
      ((∀ i, i < scenarioInit.blocks_count → scenarioEnv.kmalloc_data i ≠ none) →
        (dedup_init_blocks scenarioEnv scenarioInit).2.duplicatedBlocks =
          scenarioInit.blocks_count -
            distinctCount (dedup_init_blocks scenarioEnv scenarioInit).2.hashes
              scenarioInit.blocks_count ∧
        distinctCount (dedup_init_blocks scenarioEnv scenarioInit).2.hashes
            scenarioInit.blocks_count =
          cycleCount (dedup_init_blocks scenarioEnv scenarioInit).2.equal_blocks
            scenarioInit.blocks_count)) ∧
    (∀ i, i < scenarioInit.blocks_count → scenarioEnv.kmalloc_data i ≠ none) ∧
    distinctCount scenarioA.hashes 5 = 3 ∧ cycleCount scenarioA.equal_blocks 5 = 3 ∧
    scenarioA.duplicatedBlocks = 2 :=
  ⟨build_counter scenarioEnv scenarioInit (by decide) (by decide) (by decide),
    by decide, by decide, by decide, by decide⟩

/-- C5, counterexample. The build of `[A, B, A, C, A]` from
`duplicatedBlocks = 0` leaves three blocks on a cycle of length greater than
one (0, 2 and 4) while `duplicatedBlocks` is 2. -/
theorem counter_differs_from_linked_count :
    Reaches scenarioEnv scenarioInit scenarioA ∧ scenarioInit.duplicatedBlocks = 0 ∧
    (List.range 5).map scenarioA.hashes = [some 65, some 66, some 65, some 67, some 65] ∧
    linkedCount scenarioA.equal_blocks scenarioA.blocks_count = 3 ∧
    scenarioA.duplicatedBlocks = 2 ∧
    scenarioA.duplicatedBlocks ≠ linkedCount scenarioA.equal_blocks scenarioA.blocks_count :=
  ⟨Reaches.build (by decide), by decide, by decide, by decide, by decide, by decide⟩

/-- C5, amended. In every state reached by a build from
`duplicatedBlocks = 0` (block count below `2 ^ 64`) followed by calls of
`dedup_update_page_changed`, `duplicatedBlocks` is the number of blocks minus
the number of `equal_blocks` cycles; equivalently, the number of blocks on a
cycle of length greater than one minus the number of such cycles. -/
theorem counter_counts_merged_blocks (env : Env) (s0 s : DedupState)
    (h0 : s0.duplicatedBlocks = 0) (hM : s0.blocks_count < SECTOR_MOD)
    (hr : Reaches env s0 s) :
    s.duplicatedBlocks + cycleCount s.equal_blocks s.blocks_count = s.blocks_count ∧
    s.duplicatedBlocks + linkedCycleCount s.equal_blocks s.blocks_count =
      linkedCount s.equal_blocks s.blocks_count := by
  obtain ⟨_, hinv, hcnt⟩ := reaches_inv hr
  have h1 := hcnt h0 hM
  have h2 := cycleCount_add_linkedCount hinv
  exact ⟨h1, by omega⟩

/-- The amended C5 in the state after scenarios A and B: counter 2, five
blocks, three cycles, four blocks on the two cycles of length two. -/
theorem counter_counts_merged_blocks_witness :
    (scenarioB.duplicatedBlocks + cycleCount scenarioB.equal_blocks scenarioB.blocks_count =
        scenarioB.blocks_count ∧
      scenarioB.duplicatedBlocks +
          linkedCycleCount scenarioB.equal_blocks scenarioB.blocks_count =
        linkedCount scenarioB.equal_blocks scenarioB.blocks_count) ∧
    scenarioB.duplicatedBlocks = 2 ∧ cycleCount scenarioB.equal_blocks 5 = 3 ∧
    linkedCount scenarioB.equal_blocks 5 = 4 ∧ linkedCycleCount scenarioB.equal_blocks 5 = 2 :=
  ⟨counter_counts_merged_blocks scenarioEnv scenarioInit scenarioB (by decide) (by decide)
    (Reaches.update scenarioA scenarioB 5 2 [66] 0 (Reaches.build (by decide))
      (option_pair_eq _ scenarioA (by decide))),
    by decide, by decide, by decide, by decide⟩

/-- C6. Scenario B: from the index built over blocks 0..4 with contents
`[A, B, A, C, A]` and `start_block = 0` (classes `{0, 2, 4}`, `{1}`, `{3}`),
`dedup_update_page_changed(2, B)` returns 0 whenever the removal walk is
given at least 5 loop tests, and leaves exactly the classes `{0, 4}`,
`{1, 2}`, `{3}` with `duplicatedBlocks = 2`. -/
theorem scenario_B_update (fuel : Nat) (hf : 5 ≤ fuel) :
    scenarioA.start_block = 0 ∧ scenarioA.blocks_count = 5 ∧
    (List.range 5).map (classOf scenarioA.equal_blocks 5) =
      [[0, 2, 4], [1], [0, 2, 4], [3], [0, 2, 4]] ∧
    dedup_update_page_changed scenarioEnv fuel scenarioA 2 [66] = some (0, scenarioB) ∧
    (List.range 5).map scenarioB.hashes = [some 65, some 66, some 66, some 67, some 65] ∧
    (List.range 5).map scenarioB.equal_blocks = [4, 2, 1, 3, 0] ∧
    (List.range 5).map (classOf scenarioB.equal_blocks 5) =
      [[0, 4], [1, 2], [1, 2], [3], [0, 4]] ∧
    scenarioB.duplicatedBlocks = 2 :=
  ⟨by decide, by decide, by decide,
    update_fuel_mono (option_pair_eq _ scenarioA (by decide)) hf,
    by decide, by decide, by decide, by decide⟩

/-- Scenario B with exactly five loop tests. -/
theorem scenario_B_update_witness :
    scenarioA.start_block = 0 ∧ scenarioA.blocks_count = 5 ∧
    (List.range 5).map (classOf scenarioA.equal_blocks 5) =
      [[0, 2, 4], [1], [0, 2, 4], [3], [0, 2, 4]] ∧
    dedup_update_page_changed scenarioEnv 5 scenarioA 2 [66] = some (0, scenarioB) ∧
    (List.range 5).map scenarioB.hashes = [some 65, some 66, some 66, some 67, some 65] ∧
    (List.range 5).map scenarioB.equal_blocks = [4, 2, 1, 3, 0] ∧
    (List.range 5).map (classOf scenarioB.equal_blocks 5) =
      [[0, 4], [1, 2], [1, 2], [3], [0, 4]] ∧
    scenarioB.duplicatedBlocks = 2 :=
  scenario_B_update 5 (by decide)

/-- C7. Merge/removal round trip: in a state satisfying the cycle invariant
(counter below `2 ^ 64`), for in-range `r ≠ m` with `equal_blocks[m] = m`,
`dedup_set_block_duplication(r, m)` followed by
`dedup_remove_block_duplication(m)` returns (given `blocks_count` loop
tests) the state before the merge: the same `equal_blocks` array, the same
`duplicatedBlocks`, and every other field untouched. -/
theorem merge_remove_round_trip (s : DedupState) (r m fuel : Nat)
    (hinv : CycleInv s.equal_blocks s.blocks_count) (hr : r < s.blocks_count)
    (hm : m < s.blocks_count) (hrm : r ≠ m) (hself : s.equal_blocks m = m)
    (hdup : s.duplicatedBlocks < SECTOR_MOD) (hf : s.blocks_count ≤ fuel) :
    dedup_remove_block_duplication fuel (dedup_set_block_duplication s r m) m = some s := by
  have hinv1 : CycleInv (dedup_set_block_duplication s r m).equal_blocks
      (dedup_set_block_duplication s r m).blocks_count := merge_cycleInv hinv hr hm hrm hself
  have hm1 : m < (dedup_set_block_duplication s r m).blocks_count := hm
  obtain ⟨s1, hs1⟩ := remove_total hinv1 hm1 hf
  have hrm_link : (dedup_set_block_duplication s r m).equal_blocks r = m := by
    show mergeLinks s.equal_blocks r m r = m
    rw [mergeLinks_apply, if_neg hrm, if_pos rfl]
  rw [hs1]
  rcases remove_cases hinv1 hm1 hs1 with ⟨hmm, _⟩ | ⟨_, p, hp, _, hpm, hres⟩
  · exfalso
    exact hrm (hinv1.2 r hr m hm (by rw [hrm_link, hmm]))
  · have hpr : p = r := hinv1.2 p hp r hr (by rw [hpm, hrm_link])
    rw [hres, hpr]
    have e1 : removeLinks (dedup_set_block_duplication s r m).equal_blocks r m =
        s.equal_blocks := remove_mergeLinks hself
    have e2 : ((dedup_set_block_duplication s r m).duplicatedBlocks + SECTOR_MOD - 1) %
        SECTOR_MOD = s.duplicatedBlocks := inc_dec_mod _ _ hdup
    rw [e1, e2]
    rfl

/-- The round trip at the state of scenario A: block 1 merged behind block 0
and removed again. -/
theorem merge_remove_round_trip_witness :
    dedup_remove_block_duplication 5 (dedup_set_block_duplication scenarioA 0 1) 1 =
      some scenarioA :=
  merge_remove_round_trip scenarioA 0 1 5 (by decide) (by decide) (by decide) (by decide)
    (by decide) (by decide) (by decide)

/-- C8. Removal is idempotent: in a state satisfying the cycle invariant, for
every in-range `b`, `dedup_remove_block_duplication(b)` returns a state `s1`
(given `blocks_count` loop tests) on which a second call returns `s1` itself:
the same `equal_blocks` array and the same `duplicatedBlocks`, the second
call taking the early return. -/
theorem remove_idempotent (s : DedupState) (b fuel : Nat)
    (hinv : CycleInv s.equal_blocks s.blocks_count) (hb : b < s.blocks_count)
    (hf : s.blocks_count ≤ fuel) :
    ∃ s1, dedup_remove_block_duplication fuel s b = some s1 ∧
      s1.equal_blocks b = b ∧
      dedup_remove_block_duplication fuel s1 b = some s1 := by
  obtain ⟨s1, hs1⟩ := remove_total hinv hb hf
  have ho := removeOut_of_result hinv hb hs1
  refine ⟨s1, hs1, ho.self, ?_⟩
  unfold dedup_remove_block_duplication
  rw [if_pos ho.self]

/-- Idempotence at block 2 of scenario A, a member of the class
`{0, 2, 4}`. -/
theorem remove_idempotent_witness :
    ∃ s1, dedup_remove_block_duplication 5 scenarioA 2 = some s1 ∧
      s1.equal_blocks 2 = 2 ∧
      dedup_remove_block_duplication 5 s1 2 = some s1 :=
  remove_idempotent scenarioA 2 5 (by decide) (by decide) (by decide)

/-- C9, counterexample. A state satisfying the cycle invariant in which two
indices share a cycle exactly when their digests are equal, and a rewrite of
block 1 with content whose digest equals the stored one, after which blocks 0
and 1 no longer share a cycle and `duplicatedBlocks` went from 1 to 0: the
stored checksum of block 0 differs from the checksum of its digest, so the
scan rejects it before comparing digests. -/
theorem rewrite_same_content_splits_class :
    CycleInv staleCrcState.equal_blocks staleCrcState.blocks_count ∧
    PartitionOK staleCrcState ∧ dedup_is_in_range staleCrcState 1 = 1 ∧
    staleCrcState.hashes (1 - staleCrcState.start_block) = some (scenarioEnv.calc_hash [5]) ∧
    dedup_update_page_changed scenarioEnv 2 staleCrcState 1 [5] =
      some (0, staleCrcRewritten) ∧
    SameCycle staleCrcState.equal_blocks 2 0 1 ∧
    ¬ SameCycle staleCrcRewritten.equal_blocks 2 0 1 ∧
    staleCrcState.duplicatedBlocks = 1 ∧ staleCrcRewritten.duplicatedBlocks = 0 :=
  ⟨by decide, by decide, by decide, by decide, option_pair_eq _ staleCrcState (by decide),
    by decide, by decide, by decide, by decide⟩

/-- C9, amended. In a state satisfying the cycle invariant, in which every
stored checksum is the checksum of the stored digest and two indices share a
cycle exactly when their digests are equal (counter below `2 ^ 64`), a call
of `dedup_update_page_changed` on an in-range block with content whose
digest equals the stored digest of the block returns 0 (given `blocks_count`
loop tests) and leaves the digests, the members of every class and
`duplicatedBlocks` unchanged. -/
theorem rewrite_same_content_unchanged (env : Env) (fuel : Nat) (s : DedupState)
    (blk : Nat) (data : Content)
    (hinv : CycleInv s.equal_blocks s.blocks_count) (hcrc : CrcConsistent env s)
    (hpart : PartitionOK s) (hin : dedup_is_in_range s blk = 1)
    (hsame : s.hashes (blk - s.start_block) = some (env.calc_hash data))
    (hdup : s.duplicatedBlocks < SECTOR_MOD) (hf : s.blocks_count ≤ fuel) :
    ∃ s2, dedup_update_page_changed env fuel s blk data = some (0, s2) ∧
      s2.blocks_count = s.blocks_count ∧ s2.hashes = s.hashes ∧
      (∀ i, i < s.blocks_count → ∀ j, j < s.blocks_count →
        (SameCycle s2.equal_blocks s.blocks_count i j ↔
          SameCycle s.equal_blocks s.blocks_count i j)) ∧
      (∀ i, i < s.blocks_count →
        classOf s2.equal_blocks s.blocks_count i = classOf s.equal_blocks s.blocks_count i) ∧
      s2.duplicatedBlocks = s.duplicatedBlocks := by
  have hin2 : dedup_is_in_range s blk ≠ 0 := by rw [hin]; exact Nat.one_ne_zero
  have hb := (in_range_lt hin2).2
  obtain ⟨s2, hres⟩ := update_total env data hinv hin2 hf
  obtain ⟨hcount, _, hinv2, _⟩ := update_structural hinv hres
  have hpr := (partition_iff_reach hinv).1 hpart
  have ho := update_semantic hinv hcrc hpr hin2 hres
  rw [hcount] at hinv2
  generalize blk - s.start_block = b at hsame hb ho
  have hhash : s2.hashes = s.hashes := by
    rw [ho.hashes, ← hsame, Function.update_eq_self]
  have hiff : ∀ i, i < s.blocks_count → ∀ j, j < s.blocks_count →
      (SameCycle s2.equal_blocks s.blocks_count i j ↔
        SameCycle s.equal_blocks s.blocks_count i j) := by
    intro i hi j hj
    rw [sameCycle_iff_reach hinv2 hi j, sameCycle_iff_reach hinv hi j, ho.partition i j hi hj,
      hpr i j hi hj, hhash]
  refine ⟨s2, hres, hcount, hhash, hiff, ?_, ?_⟩
  · intro i hi
    unfold classOf
    apply List.filter_congr
    intro j hj
    have hjn : j < s.blocks_count := List.mem_range.1 hj
    exact decide_eq_decide.2 (hiff i hi j hjn)
  · by_cases hbb : s.equal_blocks b = b
    · have hno : ∀ c, c < s.blocks_count → c ≠ b → s.hashes c ≠ some (env.calc_hash data) := by
        intro c hc hcb he
        have hreach : Reach s.equal_blocks b c := (hpr b c hb hc).2 (by rw [hsame, he])
        exact hcb (reach_of_fixed hbb hreach)
      rw [ho.dup_nomatch hno, if_pos hbb]
    · have hex : ∃ c, c < s.blocks_count ∧ c ≠ b ∧ s.hashes c = some (env.calc_hash data) := by
        refine ⟨s.equal_blocks b, hinv.1 b hb, hbb, ?_⟩
        rw [← hsame]
        exact ((hpr b _ hb (hinv.1 b hb)).1 (reach_step _ b)).symm
      rw [ho.dup_match hex, if_neg hbb]
      exact dec_inc_mod _ _ hdup

/-- The amended C9 at block 2 of scenario A, rewritten with `A` again. -/
theorem rewrite_same_content_unchanged_witness :
    ∃ s2, dedup_update_page_changed scenarioEnv 5 scenarioA 2 [65] = some (0, s2) ∧
      s2.blocks_count = scenarioA.blocks_count ∧ s2.hashes = scenarioA.hashes ∧
      (∀ i, i < scenarioA.blocks_count → ∀ j, j < scenarioA.blocks_count →
        (SameCycle s2.equal_blocks scenarioA.blocks_count i j ↔
          SameCycle scenarioA.equal_blocks scenarioA.blocks_count i j)) ∧
      (∀ i, i < scenarioA.blocks_count →
        classOf s2.equal_blocks scenarioA.blocks_count i =
          classOf scenarioA.equal_blocks scenarioA.blocks_count i) ∧
      s2.duplicatedBlocks = scenarioA.duplicatedBlocks :=
  rewrite_same_content_unchanged scenarioEnv 5 scenarioA 2 [65] (by decide) (by decide)
    (by decide) (by decide) (by decide) (by decide) (by decide)

/-- C10. A checksum collision alone never merges. The outer loop of
`test_final_hash_compare` calls `dedup_set_block_duplication(equal_block, i)`
exactly when `equal_block ≠ i`, and then `equal_block` is an earlier index
holding a digest equal to that of `i`; the `equal_block` found by
`dedup_update_page_changed`, when it is not the block itself, holds a digest
equal to that of the block; so for arbitrary digest and checksum arrays, after
`test_final_hash_compare` on reset links, two indices on one cycle have equal
digests. -/
theorem checksum_collision_never_merges :
    (∀ (i : Nat) (s : DedupState), build_step i s =
      if build_equal_block s i ≠ i then
        dedup_set_block_duplication s (build_equal_block s i) i
      else s) ∧
    (∀ (s : DedupState) (i : Nat), build_equal_block s i ≠ i →
      build_equal_block s i < i ∧
        ∃ d, s.hashes i = some d ∧ s.hashes (build_equal_block s i) = some d) ∧
    (∀ (s : DedupState) (b : Nat), update_equal_block s b ≠ b →
      ∃ d, s.hashes b = some d ∧ s.hashes (update_equal_block s b) = some d) ∧
    (∀ s : DedupState, (∀ i, i < s.blocks_count → s.equal_blocks i = i) →
      ∀ i, i < s.blocks_count → ∀ j, j < s.blocks_count →
        SameCycle (test_final_hash_compare s).equal_blocks s.blocks_count i j →
        (test_final_hash_compare s).hashes i = (test_final_hash_compare s).hashes j) := by
  refine ⟨fun _ _ => rfl, ?_, ?_, ?_⟩
  · intro s i hne
    rcases firstMatch_spec (build_match s i) i i with ⟨he, _, _⟩ | ⟨_, hlt, htrue, _⟩
    · exact absurd he hne
    · refine ⟨hlt, ?_⟩
      obtain ⟨_, hsome, heq⟩ := (build_match_iff s i _).1 htrue
      cases hd : s.hashes i with
      | none => exact absurd hd hsome
      | some d => exact ⟨d, rfl, by rw [← hd]; exact heq.symm⟩
  · intro s b hne
    rcases firstMatch_spec (update_match s b) s.blocks_count b with
      ⟨he, _, _⟩ | ⟨_, _, htrue, _⟩
    · exact absurd he hne
    · obtain ⟨_, _, hsome, heq⟩ := (update_match_iff s b _).1 htrue
      cases hd : s.hashes b with
      | none => rw [hd] at heq; exact absurd heq hsome
      | some d => exact ⟨d, rfl, by rw [← hd]; exact heq⟩
  · intro s hid i hi j hj hsame
    have hb := buildInv_final ⟨fun _ => 0, fun _ => 0, fun _ => none, fun _ => none,
      fun _ => none⟩ s hid
    obtain ⟨k, _, hk⟩ := hsame
    rw [hb.hashes]
    rcases hb.sound i j hi hj ⟨k, hk⟩ with h1 | ⟨_, _, h3⟩
    · rw [h1]
    · exact h3

/-- The contrived collision of C10: blocks 0 and 1 of `collisionState` have
equal checksums and different digests, and stay on different cycles; and the
blocks chosen in scenario A hold equal digests. -/
theorem checksum_collision_never_merges_witness :
    (collisionState.hash_crc 0 = collisionState.hash_crc 1 ∧
      collisionState.hashes 0 ≠ collisionState.hashes 1 ∧
      ¬ SameCycle (test_final_hash_compare collisionState).equal_blocks
        collisionState.blocks_count 0 1) ∧
    (build_equal_block (hashed_state scenarioEnv scenarioInit) 2 < 2 ∧
      ∃ d, (hashed_state scenarioEnv scenarioInit).hashes 2 = some d ∧
        (hashed_state scenarioEnv scenarioInit).hashes
          (build_equal_block (hashed_state scenarioEnv scenarioInit) 2) = some d) ∧
    (∃ d, scenarioA.hashes 2 = some d ∧
      scenarioA.hashes (update_equal_block scenarioA 2) = some d) :=
  ⟨⟨by decide, by decide, fun h =>
      absurd (checksum_collision_never_merges.2.2.2 collisionState (by decide) 0 (by decide) 1
        (by decide) h) (by decide)⟩,
    checksum_collision_never_merges.2.1 (hashed_state scenarioEnv scenarioInit) 2 (by decide),
    checksum_collision_never_merges.2.2.1 scenarioA 2 (by decide)⟩

/-- C11. Out-of-range write is a no-op: for every block for which
`dedup_is_in_range` returns 0, `dedup_update_page_changed` returns 0 (whatever
the bound on the removal walk, which is not reached) and leaves the whole
state, in particular `equal_blocks`, `hashes`, `hash_crc` and
`duplicatedBlocks`, unchanged. -/
theorem out_of_range_write_noop (env : Env) (fuel : Nat) (s : DedupState)
    (blk : Nat) (data : Content) (hout : dedup_is_in_range s blk = 0) :
    dedup_update_page_changed env fuel s blk data = some (0, s) := by
  unfold dedup_update_page_changed
  rw [if_pos hout]

/-- Block 7 is outside the range of scenario A. -/
theorem out_of_range_write_noop_witness :
    dedup_is_in_range scenarioA 7 = 0 ∧
    dedup_update_page_changed scenarioEnv 0 scenarioA 7 [66] = some (0, scenarioA) :=
  ⟨by decide, out_of_range_write_noop scenarioEnv 0 scenarioA 7 [66] (by decide)⟩

/-- C12, the code. When every digest buffer is allocated, `dedup_init_blocks`
returns 0 and runs the grouping pass, and `dedup_calc` returns 0 and clears
`need_to_init`, whatever `read_dev_sector` and the allocation of the content
buffers give: a failed read or a failed content-buffer allocation is not
reported by `read_block` and `dedup_calc_block_hash_crc`. -/
theorem build_ignores_hash_phase_failure (env : Env) (s : DedupState)
    (hneed : s.need_to_init ≠ 0) (hcount : s.blocks_count ≤ BLOCKS_MAX_COUNT)
    (hhash : ∀ i, i < s.blocks_count → env.kmalloc_hash i ≠ none) :
    (dedup_init_blocks env s).1 = 0 ∧
    (dedup_init_blocks env s).2 = test_final_hash_compare (hashed_state env s) ∧
    (dedup_calc env true s).1 = 0 ∧
    (dedup_calc env true s).2.need_to_init = 0 := by
  have hret := init_blocks_ret env s hhash
  have heq := (init_blocks_eq env s hret).2
  have hle : ¬ s.blocks_count > BLOCKS_MAX_COUNT := by omega
  refine ⟨hret, heq, ?_, ?_⟩
  · unfold dedup_calc
    rw [if_pos hneed]
    simp only [if_neg hle, hret]
    simp
  · unfold dedup_calc
    rw [if_pos hneed]
    simp only [if_neg hle, hret]
    simp

/-- C12 at two blocks: with every read failing, and with every content
buffer allocation failing, the build returns 0, the grouping pass merges the
two blocks on the contents of their uninitialised buffers, and `dedup_calc`
clears `need_to_init`; only a failed digest buffer allocation gives -1 and
leaves `need_to_init` set. -/
theorem build_ignores_hash_phase_failure_witness :
    ((∀ b, readFailEnv.read_dev_sector b = none) ∧
      (dedup_init_blocks readFailEnv twoBlockInit).1 = 0 ∧
      (dedup_init_blocks readFailEnv twoBlockInit).2 =
        test_final_hash_compare (hashed_state readFailEnv twoBlockInit) ∧
      (dedup_calc readFailEnv true twoBlockInit).1 = 0 ∧
      (dedup_calc readFailEnv true twoBlockInit).2.need_to_init = 0 ∧
      (dedup_calc readFailEnv true twoBlockInit).2.duplicatedBlocks = 1) ∧
    ((∀ b, allocFailEnv.kmalloc_data b = none) ∧
      (dedup_init_blocks allocFailEnv twoBlockInit).1 = 0 ∧
      (dedup_init_blocks allocFailEnv twoBlockInit).2 =
        test_final_hash_compare (hashed_state allocFailEnv twoBlockInit) ∧
      (dedup_calc allocFailEnv true twoBlockInit).1 = 0 ∧
      (dedup_calc allocFailEnv true twoBlockInit).2.need_to_init = 0 ∧
      (dedup_calc allocFailEnv true twoBlockInit).2.duplicatedBlocks = 1) ∧
    ((dedup_init_blocks hashAllocFailEnv twoBlockInit).1 = -1 ∧
      (dedup_calc hashAllocFailEnv true twoBlockInit).1 = -1 ∧
      (dedup_calc hashAllocFailEnv true twoBlockInit).2.need_to_init = 2) :=
  ⟨⟨fun _ => rfl,
      (build_ignores_hash_phase_failure readFailEnv twoBlockInit (by decide) (by decide)
        (by decide)).1,
      (build_ignores_hash_phase_failure readFailEnv twoBlockInit (by decide) (by decide)
        (by decide)).2.1,
      (build_ignores_hash_phase_failure readFailEnv twoBlockInit (by decide) (by decide)
        (by decide)).2.2.1,
      (build_ignores_hash_phase_failure readFailEnv twoBlockInit (by decide) (by decide)
        (by decide)).2.2.2, by decide⟩,
    ⟨fun _ => rfl,
      (build_ignores_hash_phase_failure allocFailEnv twoBlockInit (by decide) (by decide)
        (by decide)).1,
      (build_ignores_hash_phase_failure allocFailEnv twoBlockInit (by decide) (by decide)
        (by decide)).2.1,
      (build_ignores_hash_phase_failure allocFailEnv twoBlockInit (by decide) (by decide)
        (by decide)).2.2.1,
      (build_ignores_hash_phase_failure allocFailEnv twoBlockInit (by decide) (by decide)
        (by decide)).2.2.2, by decide⟩,
    ⟨by decide, by decide, by decide⟩⟩

/-- C19, counterexample. With `start_block = 2 ^ 64 - 1` and
`blocks_count = 2` the block `2 ^ 64 - 1` satisfies
`start_block ≤ block < start_block + blocks_count` as integers, and
`dedup_is_in_range` returns 0: the sum wraps to 1. -/
theorem in_range_wraps_at_sector_max :
    wrapState.start_block = 2 ^ 64 - 1 ∧ wrapState.blocks_count = 2 ∧
    wrapState.start_block ≤ 2 ^ 64 - 1 ∧
    2 ^ 64 - 1 < wrapState.start_block + wrapState.blocks_count ∧
    (wrapState.start_block + wrapState.blocks_count) % SECTOR_MOD = 1 ∧
    dedup_is_in_range wrapState (2 ^ 64 - 1) = 0 :=
  ⟨by decide, by decide, by decide, by decide, by decide, by decide⟩

/-- C19, amended. `dedup_is_in_range` returns 1 exactly when
`start_block ≤ block < (start_block + blocks_count) mod 2 ^ 64`, and 0
otherwise; this is the integer interval
`start_block ≤ block < start_block + blocks_count` whenever the sum is below
`2 ^ 64`, and when the sum of two 64-bit values reaches `2 ^ 64` the function
returns 0 for every block. -/
theorem in_range_iff (s : DedupState) (block : Nat) :
    (dedup_is_in_range s block = 1 ∨ dedup_is_in_range s block = 0) ∧
    (dedup_is_in_range s block = 1 ↔
      (s.start_block ≤ block ∧
        block < (s.start_block + s.blocks_count) % SECTOR_MOD)) ∧
    (s.start_block + s.blocks_count < SECTOR_MOD →
      (dedup_is_in_range s block = 1 ↔
        (s.start_block ≤ block ∧ block < s.start_block + s.blocks_count))) ∧
    (s.start_block < SECTOR_MOD → s.blocks_count < SECTOR_MOD →
      SECTOR_MOD ≤ s.start_block + s.blocks_count → dedup_is_in_range s block = 0) := by
  have hdef : dedup_is_in_range s block =
      if s.start_block ≤ block ∧ block < (s.start_block + s.blocks_count) % SECTOR_MOD
      then 1 else 0 := rfl
  refine ⟨?_, ?_, ?_, ?_⟩
  · rw [hdef]; split_ifs
    · exact Or.inl rfl
    · exact Or.inr rfl
  · rw [hdef]; split_ifs with h
    · exact ⟨fun _ => h, fun _ => rfl⟩
    · exact ⟨fun h1 => absurd h1 (by decide), fun h2 => absurd h2 h⟩
  · intro hlt
    rw [hdef, Nat.mod_eq_of_lt hlt]
    split_ifs with h
    · exact ⟨fun _ => h, fun _ => rfl⟩
    · exact ⟨fun h1 => absurd h1 (by decide), fun h2 => absurd h2 h⟩
  · intro hs hc hge
    rw [hdef, if_neg]
    rintro ⟨h1, h2⟩
    have e : (s.start_block + s.blocks_count) % SECTOR_MOD =
        s.start_block + s.blocks_count - SECTOR_MOD := by
      rw [Nat.mod_eq_sub_mod hge]
      exact Nat.mod_eq_of_lt (by omega)
    rw [e] at h2
    omega

/-- The amended C19 at scenario A (no wrap: blocks 0..4 are in range, block
5 is not) and at the wrapping range. -/
theorem in_range_iff_witness :
    (dedup_is_in_range scenarioA 4 = 1 ↔
      (scenarioA.start_block ≤ 4 ∧ 4 < scenarioA.start_block + scenarioA.blocks_count)) ∧
    dedup_is_in_range scenarioA 4 = 1 ∧ dedup_is_in_range scenarioA 5 = 0 ∧
    dedup_is_in_range wrapState 0 = 0 :=
  ⟨(in_range_iff scenarioA 4).2.2.1 (by decide), by decide, by decide,
    (in_range_iff wrapState 0).2.2.2 (by decide) (by decide) (by decide)⟩

theorem build_step_of_eq {s : DedupState} {i : Nat} (h : build_equal_block s i = i) :
    build_step i s = s := by
  unfold build_step
  rw [if_neg (by rw [h]; exact fun hc => hc rfl)]

theorem build_step_of_ne {s : DedupState} {i : Nat} (h : build_equal_block s i ≠ i) :
    build_step i s = dedup_set_block_duplication s (build_equal_block s i) i := by
  unfold build_step
  rw [if_pos h]

/-- C20. Merge's precondition holds at every call site. In
`test_final_hash_compare`, run on links that are all reset, the iteration for
block `i` calls `dedup_set_block_duplication(equal_block, i)` only with
`equal_block < i < blocks_count` and `equal_blocks[i] = i` at that moment;
in `dedup_update_page_changed`, run on a state satisfying the cycle
invariant, the call `dedup_set_block_duplication(equal_block, block)` is made
only with both indices below `blocks_count`, `equal_block ≠ block` and
`equal_blocks[block] = block` at that moment. -/
theorem merge_precondition_at_calls (env : Env) :
    (∀ (s0 : DedupState), (∀ i, i < s0.blocks_count → s0.equal_blocks i = i) →
      ∀ i, i < s0.blocks_count →
        forLoop build_step (i + 1) s0 = build_step i (forLoop build_step i s0) ∧
        (build_equal_block (forLoop build_step i s0) i = i →
          build_step i (forLoop build_step i s0) = forLoop build_step i s0) ∧
        (build_equal_block (forLoop build_step i s0) i ≠ i →
          build_step i (forLoop build_step i s0) =
            dedup_set_block_duplication (forLoop build_step i s0)
              (build_equal_block (forLoop build_step i s0) i) i ∧
          build_equal_block (forLoop build_step i s0) i <
            (forLoop build_step i s0).blocks_count ∧
          i < (forLoop build_step i s0).blocks_count ∧
          build_equal_block (forLoop build_step i s0) i ≠ i ∧
          (forLoop build_step i s0).equal_blocks i = i)) ∧
    (∀ (fuel : Nat) (s s2 : DedupState) (blk : Nat) (data : Content) (r : Int),
      CycleInv s.equal_blocks s.blocks_count → dedup_is_in_range s blk ≠ 0 →
      dedup_update_page_changed env fuel s blk data = some (r, s2) →
      ∃ s1, dedup_remove_block_duplication fuel s (blk - s.start_block) = some s1 ∧
        (update_equal_block (store_hash_crc env s1 (blk - s.start_block) data)
            (blk - s.start_block) = blk - s.start_block →
          s2 = store_hash_crc env s1 (blk - s.start_block) data) ∧
        (update_equal_block (store_hash_crc env s1 (blk - s.start_block) data)
            (blk - s.start_block) ≠ blk - s.start_block →
          s2 = dedup_set_block_duplication
            (store_hash_crc env s1 (blk - s.start_block) data)
            (update_equal_block (store_hash_crc env s1 (blk - s.start_block) data)
              (blk - s.start_block))
            (blk - s.start_block) ∧
          update_equal_block (store_hash_crc env s1 (blk - s.start_block) data)
              (blk - s.start_block) <
            (store_hash_crc env s1 (blk - s.start_block) data).blocks_count ∧
          blk - s.start_block <
            (store_hash_crc env s1 (blk - s.start_block) data).blocks_count ∧
          (store_hash_crc env s1 (blk - s.start_block) data).equal_blocks
            (blk - s.start_block) = blk - s.start_block)) := by
  refine ⟨?_, ?_⟩
  · intro s0 hid i hi
    have hb := buildInv_loop env s0 hid i (by omega)
    refine ⟨rfl, ?_, ?_⟩
    · intro he
      exact build_step_of_eq he
    · intro hne
      refine ⟨build_step_of_ne hne, ?_, by rw [hb.count]; exact hi, hne, ?_⟩
      · rcases firstMatch_spec (build_match (forLoop build_step i s0) i) i i with
          ⟨he, _, _⟩ | ⟨_, hlt, _, _⟩
        · exact absurd he hne
        · have hlt2 : build_equal_block (forLoop build_step i s0) i < i := hlt
          rw [hb.count]; omega
      · rw [hb.above i (le_refl i)]; exact hid i hi
  · intro fuel s s2 blk data r hinv hin hres
    obtain ⟨_, s1, hs1, hcase⟩ := update_cases hin hres
    have hb := (in_range_lt hin).2
    have ho := removeOut_of_result hinv hb hs1
    obtain ⟨e1, e2, _, _, _⟩ := store_equal_blocks env s1 (blk - s.start_block) data
    refine ⟨s1, hs1, ?_, ?_⟩
    · intro he
      rcases hcase with ⟨_, h2⟩ | ⟨hne, _⟩
      · exact h2
      · exact absurd he hne
    · intro hne
      rcases hcase with ⟨he, _⟩ | ⟨_, h2⟩
      · exact absurd he hne
      · refine ⟨h2, ?_, by rw [e2, ho.count]; exact hb, by rw [e1]; exact ho.self⟩
        rcases firstMatch_spec
            (update_match (store_hash_crc env s1 (blk - s.start_block) data)
              (blk - s.start_block))
            (store_hash_crc env s1 (blk - s.start_block) data).blocks_count
            (blk - s.start_block) with ⟨he, _, _⟩ | ⟨_, hlt, _, _⟩
        · exact absurd he hne
        · exact hlt

/-- C15. Removal's effect and frame: in a state satisfying the cycle
invariant, for an in-range `b` with `equal_blocks[b] ≠ b`,
`dedup_remove_block_duplication(b)` returns (given `blocks_count` loop tests)
a state in which `equal_blocks[p]` is the old `equal_blocks[b]` for the
unique in-range `p` with `equal_blocks[p] = b`, `equal_blocks[b] = b`,
`duplicatedBlocks` is one less (in 64-bit arithmetic; exactly one less when
it was positive) and every other link and field is unchanged; every
remaining block keeps its successor, the predecessor of `b` getting the
successor of `b`, so the remaining members of the class of `b` form one cycle
in their previous order, `b` is alone, and every other class is untouched. -/
theorem removal_effect_and_frame (s : DedupState) (b fuel : Nat)
    (hinv : CycleInv s.equal_blocks s.blocks_count) (hb : b < s.blocks_count)
    (hlinked : s.equal_blocks b ≠ b) (hf : s.blocks_count ≤ fuel) :
    ∃ p s1, p < s.blocks_count ∧ s.equal_blocks p = b ∧
      (∀ q, q < s.blocks_count → s.equal_blocks q = b → q = p) ∧
      dedup_remove_block_duplication fuel s b = some s1 ∧
      s1.equal_blocks p = s.equal_blocks b ∧ s1.equal_blocks b = b ∧
      (∀ x, x ≠ p → x ≠ b → s1.equal_blocks x = s.equal_blocks x) ∧
      s1.duplicatedBlocks = (s.duplicatedBlocks + SECTOR_MOD - 1) % SECTOR_MOD ∧
      (0 < s.duplicatedBlocks → s.duplicatedBlocks < SECTOR_MOD →
        s1.duplicatedBlocks + 1 = s.duplicatedBlocks) ∧
      s1.hashes = s.hashes ∧ s1.hash_crc = s.hash_crc ∧
      s1.blocks_count = s.blocks_count ∧ s1.start_block = s.start_block ∧
      CycleInv s1.equal_blocks s.blocks_count ∧
      (∀ x, x < s.blocks_count → x ≠ b →
        s1.equal_blocks x = if s.equal_blocks x = b then s.equal_blocks b
          else s.equal_blocks x) ∧
      (∀ x y, x < s.blocks_count → y < s.blocks_count → x ≠ b → y ≠ b →
        (SameCycle s1.equal_blocks s.blocks_count x y ↔
          SameCycle s.equal_blocks s.blocks_count x y)) ∧
      (∀ y, y < s.blocks_count →
        (SameCycle s1.equal_blocks s.blocks_count b y ↔ y = b)) := by
  obtain ⟨s1, hs1⟩ := remove_total hinv hb hf
  rcases remove_cases hinv hb hs1 with ⟨hbb, _⟩ | ⟨_, p, hp, hne, hpb, hres⟩
  · exact absurd hbb hlinked
  · have ho := removeOut_of_links hinv hb hp hne hpb
    rw [← hres] at ho
    have hlinks : s1.equal_blocks = removeLinks s.equal_blocks p b := by rw [hres]
    have hdupeq : s1.duplicatedBlocks =
        (s.duplicatedBlocks + SECTOR_MOD - 1) % SECTOR_MOD := by rw [hres]
    have huniq : ∀ q, q < s.blocks_count → s.equal_blocks q = b → q = p :=
      fun q hq hqb => hinv.2 q hq p hp (by rw [hqb, hpb])
    refine ⟨p, s1, hp, hpb, huniq, hs1, ?_, ho.self, ?_, hdupeq, ?_, ho.hashes, ho.crc,
      ho.count, ho.start, ho.inv, ?_, ?_, ?_⟩
    · rw [hlinks, removeLinks_apply, if_neg hne, if_pos rfl]
    · intro x hxp hxb
      rw [hlinks, removeLinks_apply, if_neg hxb, if_neg hxp]
    · intro hpos hlt
      rw [hdupeq, dec_mod _ _ hpos hlt]
      omega
    · intro x hx hxb
      rw [hlinks, removeLinks_apply, if_neg hxb]
      by_cases hxp : x = p
      · rw [if_pos hxp, hxp, if_pos hpb]
      · rw [if_neg hxp, if_neg (fun e => hxp (huniq x hx e))]
    · intro x y hx hy hxb hyb
      rw [sameCycle_iff_reach ho.inv hx y, sameCycle_iff_reach hinv hx y, ho.reach x y hx hy]
      constructor
      · rintro (hxy | ⟨_, _, hr⟩)
        · rw [hxy]; exact reach_refl _ y
        · exact hr
      · intro hr
        exact Or.inr ⟨hxb, hyb, hr⟩
    · intro y hy
      rw [sameCycle_iff_reach ho.inv hb y, ho.reach b y hb hy]
      constructor
      · rintro (hxy | ⟨hbb, _, _⟩)
        · exact hxy.symm
        · exact absurd rfl hbb
      · intro e
        exact Or.inl e.symm

/-- The removal of block 2 from the class `{0, 2, 4}` of scenario A (links
`0 → 4 → 2 → 0`): the predecessor is 4, which gets the successor 0 of 2. -/
theorem removal_effect_and_frame_witness :
    ∃ p s1, p < scenarioA.blocks_count ∧ scenarioA.equal_blocks p = 2 ∧
      (∀ q, q < scenarioA.blocks_count → scenarioA.equal_blocks q = 2 → q = p) ∧
      dedup_remove_block_duplication 5 scenarioA 2 = some s1 ∧
      s1.equal_blocks p = scenarioA.equal_blocks 2 ∧ s1.equal_blocks 2 = 2 ∧
      (∀ x, x ≠ p → x ≠ 2 → s1.equal_blocks x = scenarioA.equal_blocks x) ∧
      s1.duplicatedBlocks = (scenarioA.duplicatedBlocks + SECTOR_MOD - 1) % SECTOR_MOD ∧
      (0 < scenarioA.duplicatedBlocks → scenarioA.duplicatedBlocks < SECTOR_MOD →
        s1.duplicatedBlocks + 1 = scenarioA.duplicatedBlocks) ∧
      s1.hashes = scenarioA.hashes ∧ s1.hash_crc = scenarioA.hash_crc ∧
      s1.blocks_count = scenarioA.blocks_count ∧ s1.start_block = scenarioA.start_block ∧
      CycleInv s1.equal_blocks scenarioA.blocks_count ∧
      (∀ x, x < scenarioA.blocks_count → x ≠ 2 →
        s1.equal_blocks x = if scenarioA.equal_blocks x = 2 then scenarioA.equal_blocks 2
          else scenarioA.equal_blocks x) ∧
      (∀ x y, x < scenarioA.blocks_count → y < scenarioA.blocks_count → x ≠ 2 → y ≠ 2 →
        (SameCycle s1.equal_blocks scenarioA.blocks_count x y ↔
          SameCycle scenarioA.equal_blocks scenarioA.blocks_count x y)) ∧
      (∀ y, y < scenarioA.blocks_count →
        (SameCycle s1.equal_blocks scenarioA.blocks_count 2 y ↔ y = 2)) :=
  removal_effect_and_frame scenarioA 2 5 (by decide) (by decide) (by decide) (by decide)

/-- C14, counterexample. In scenario A (links `0 → 4 → 2 → 0`) block 4 is
rewritten with `A`. The smallest index other than 4 whose checksum and digest
equal the new ones of block 4 is 0, whose former successor is block 4 itself;
after the update `equal_blocks[0] = 4` and `equal_blocks[4] = 2`, the former
successor of block 4, not the former successor of block 0. -/
theorem update_link_is_not_former_successor :
    CycleInv scenarioA.equal_blocks scenarioA.blocks_count ∧
    dedup_is_in_range scenarioA 4 = 1 ∧
    dedup_update_page_changed scenarioEnv 5 scenarioA 4 [65] = some (0, scenarioRewrite4) ∧
    (0 ≠ 4 ∧ scenarioRewrite4.hash_crc 0 = scenarioRewrite4.hash_crc 4 ∧
      scenarioRewrite4.hashes 0 = scenarioRewrite4.hashes 4) ∧
    scenarioA.equal_blocks 0 = 4 ∧ scenarioA.equal_blocks 4 = 2 ∧
    scenarioRewrite4.equal_blocks 0 = 4 ∧ scenarioRewrite4.equal_blocks 4 = 2 ∧
    scenarioRewrite4.equal_blocks 4 ≠ scenarioA.equal_blocks 0 :=
  ⟨by decide, by decide, option_pair_eq _ scenarioA (by decide), by decide, by decide,
    by decide, by decide, by decide, by decide⟩

/-- C14, amended. In a state satisfying the cycle invariant, for an in-range
block with index `b` whose digest buffer is allocated, after
`dedup_update_page_changed` (which returns 0 given `blocks_count` loop
tests): if `j0` is the smallest index other than `b`, over the whole range
from 0, whose checksum and digest equal the new ones of `b`, then
`equal_blocks[j0] = b` and `equal_blocks[b]` is the successor `j0` had when
the merge was made, that is the former successor of `j0`, or the former
successor of `b` when `j0` was the predecessor of `b`; if no such index
exists, `equal_blocks[b] = b`. -/
theorem update_attaches_to_lowest_match (env : Env) (fuel : Nat) (s : DedupState)
    (blk : Nat) (data : Content)
    (hinv : CycleInv s.equal_blocks s.blocks_count) (hin : dedup_is_in_range s blk = 1)
    (hbuf : s.hashes (blk - s.start_block) ≠ none) (hf : s.blocks_count ≤ fuel) :
    ∃ s2, dedup_update_page_changed env fuel s blk data = some (0, s2) ∧
      s2.hashes (blk - s.start_block) = some (env.calc_hash data) ∧
      s2.hash_crc (blk - s.start_block) = env.crc32_le (env.calc_hash data) ∧
      (∀ j0, j0 < s.blocks_count → j0 ≠ blk - s.start_block →
        s2.hash_crc j0 = s2.hash_crc (blk - s.start_block) →
        s2.hashes j0 = s2.hashes (blk - s.start_block) →
        (∀ j, j < j0 → j ≠ blk - s.start_block →
          ¬ (s2.hash_crc j = s2.hash_crc (blk - s.start_block) ∧
            s2.hashes j = s2.hashes (blk - s.start_block))) →
        s2.equal_blocks j0 = blk - s.start_block ∧
        s2.equal_blocks (blk - s.start_block) =
          if s.equal_blocks j0 = blk - s.start_block then
            s.equal_blocks (blk - s.start_block)
          else s.equal_blocks j0) ∧
      ((∀ j, j < s.blocks_count → j ≠ blk - s.start_block →
          ¬ (s2.hash_crc j = s2.hash_crc (blk - s.start_block) ∧
            s2.hashes j = s2.hashes (blk - s.start_block))) →
        s2.equal_blocks (blk - s.start_block) = blk - s.start_block) := by
  have hin2 : dedup_is_in_range s blk ≠ 0 := by rw [hin]; exact Nat.one_ne_zero
  have hb := (in_range_lt hin2).2
  obtain ⟨s2, hres⟩ := update_total env data hinv hin2 hf
  obtain ⟨_, s1, hs1, hcase⟩ := update_cases hin2 hres
  generalize blk - s.start_block = b at hs1 hcase hb hbuf ⊢
  have ho := removeOut_of_result hinv hb hs1
  obtain ⟨e1, e2, _, _, _⟩ := store_equal_blocks env s1 b data
  obtain ⟨e5, e6⟩ := store_of_some env s1 b data (by rw [ho.hashes]; exact hbuf)
  rw [ho.hashes] at e5
  rw [ho.crc] at e6
  generalize store_hash_crc env s1 b data = S at hcase e1 e2 e5 e6
  have hmatch : ∀ c, update_match S b c = true ↔
      (c ≠ b ∧ S.hash_crc c = S.hash_crc b ∧ S.hashes c = S.hashes b) := by
    intro c
    rw [update_match_iff]
    constructor
    · rintro ⟨h1, h2, _, h4⟩; exact ⟨h1, h2, h4⟩
    · rintro ⟨h1, h2, h4⟩
      refine ⟨h1, h2, ?_, h4⟩
      rw [h4, e5, Function.update_same]
      exact Option.some_ne_none _
  have hs1link : ∀ j0, j0 < s.blocks_count → j0 ≠ b →
      s1.equal_blocks j0 =
        if s.equal_blocks j0 = b then s.equal_blocks b else s.equal_blocks j0 := by
    intro j0 hj0 hj0b
    rcases remove_cases hinv hb hs1 with ⟨hbb, hs⟩ | ⟨_, p, hp, hne, hpb, hs⟩
    · rw [hs, if_neg]
      intro e
      exact hj0b (hinv.2 j0 hj0 b hb (by rw [e, hbb]))
    · rw [hs]
      show removeLinks s.equal_blocks p b j0 = _
      rw [removeLinks_apply, if_neg hj0b]
      by_cases hjp : j0 = p
      · rw [if_pos hjp, hjp, if_pos hpb]
      · rw [if_neg hjp, if_neg (fun e => hjp (hinv.2 j0 hj0 p hp (by rw [e, hpb])))]
  have hspec := firstMatch_spec (update_match S b) S.blocks_count b
  have hueb : update_equal_block S b = (firstMatch (update_match S b) S.blocks_count).getD b :=
    rfl
  rw [← hueb, e2, ho.count] at hspec
  have hmerge : ∀ j, (dedup_set_block_duplication S j b).equal_blocks =
      mergeLinks s1.equal_blocks j b := by
    intro j
    show mergeLinks S.equal_blocks j b = _
    rw [e1]
  refine ⟨s2, hres, ?_, ?_, ?_, ?_⟩
  · rcases hcase with ⟨_, rfl⟩ | ⟨_, rfl⟩
    · rw [e5, Function.update_same]
    · show S.hashes b = _
      rw [e5, Function.update_same]
  · rcases hcase with ⟨_, rfl⟩ | ⟨_, rfl⟩
    · rw [e6, Function.update_same]
    · show S.hash_crc b = _
      rw [e6, Function.update_same]
  · intro j0 hj0 hj0b hc hh hleast
    have hS : s2.hashes = S.hashes ∧ s2.hash_crc = S.hash_crc := by
      rcases hcase with ⟨_, rfl⟩ | ⟨_, rfl⟩
      · exact ⟨rfl, rfl⟩
      · exact ⟨rfl, rfl⟩
    simp only [hS.1, hS.2] at hc hh hleast
    have hj0match : update_match S b j0 = true := (hmatch j0).2 ⟨hj0b, hc, hh⟩
    rcases hspec with ⟨_, _, hnone⟩ | ⟨_, hlt, htrue, hbefore⟩
    · have := hnone j0 hj0
      rw [hj0match] at this
      cases this
    · have hueq : update_equal_block S b = j0 := by
        rcases Nat.lt_trichotomy (update_equal_block S b) j0 with h1 | h1 | h1
        · obtain ⟨a1, a2, a3⟩ := (hmatch _).1 htrue
          exact absurd ⟨a2, a3⟩ (hleast _ h1 a1)
        · exact h1
        · have := hbefore j0 h1
          rw [hj0match] at this
          cases this
      rcases hcase with ⟨he, _⟩ | ⟨_, rfl⟩
      · rw [hueq] at he
        exact absurd he hj0b
      · rw [hueq, hmerge]
        refine ⟨?_, ?_⟩
        · rw [mergeLinks_apply, if_neg hj0b, if_pos rfl]
        · rw [mergeLinks_apply, if_pos rfl]
          exact hs1link j0 hj0 hj0b
  · intro hno
    have hS : s2.hashes = S.hashes ∧ s2.hash_crc = S.hash_crc := by
      rcases hcase with ⟨_, rfl⟩ | ⟨_, rfl⟩
      · exact ⟨rfl, rfl⟩
      · exact ⟨rfl, rfl⟩
    simp only [hS.1, hS.2] at hno
    rcases hcase with ⟨_, rfl⟩ | ⟨hne, _⟩
    · rw [e1]; exact ho.self
    · exfalso
      rcases hspec with ⟨he, _, _⟩ | ⟨_, hlt, htrue, _⟩
      · exact hne he
      · obtain ⟨a1, a2, a3⟩ := (hmatch _).1 htrue
        exact hno _ hlt a1 ⟨a2, a3⟩

/-- The amended C14 at block 4 of scenario A rewritten with `A`: the lowest
match is block 0, the former predecessor of block 4. -/
theorem update_attaches_to_lowest_match_witness :
    ∃ s2, dedup_update_page_changed scenarioEnv 5 scenarioA 4 [65] = some (0, s2) ∧
      s2.hashes (4 - scenarioA.start_block) = some (scenarioEnv.calc_hash [65]) ∧
      s2.hash_crc (4 - scenarioA.start_block) =
        scenarioEnv.crc32_le (scenarioEnv.calc_hash [65]) ∧
      (∀ j0, j0 < scenarioA.blocks_count → j0 ≠ 4 - scenarioA.start_block →
        s2.hash_crc j0 = s2.hash_crc (4 - scenarioA.start_block) →
        s2.hashes j0 = s2.hashes (4 - scenarioA.start_block) →
        (∀ j, j < j0 → j ≠ 4 - scenarioA.start_block →
          ¬ (s2.hash_crc j = s2.hash_crc (4 - scenarioA.start_block) ∧
            s2.hashes j = s2.hashes (4 - scenarioA.start_block))) →
        s2.equal_blocks j0 = 4 - scenarioA.start_block ∧
        s2.equal_blocks (4 - scenarioA.start_block) =
          if scenarioA.equal_blocks j0 = 4 - scenarioA.start_block then
            scenarioA.equal_blocks (4 - scenarioA.start_block)
          else scenarioA.equal_blocks j0) ∧
      ((∀ j, j < scenarioA.blocks_count → j ≠ 4 - scenarioA.start_block →
          ¬ (s2.hash_crc j = s2.hash_crc (4 - scenarioA.start_block) ∧
            s2.hashes j = s2.hashes (4 - scenarioA.start_block))) →
        s2.equal_blocks (4 - scenarioA.start_block) = 4 - scenarioA.start_block) :=
  update_attaches_to_lowest_match scenarioEnv 5 scenarioA 4 [65] (by decide) (by decide)
    (by decide) (by decide)

theorem build_match_consistent {env : Env} {s0 t : DedupState} {k : Nat}
    (hb : BuildInv env s0 k t) (hcrc : CrcConsistent env s0) (hk : k < s0.blocks_count)
    (j : Nat) (hj : j < k) :
    build_match t k j = true ↔ s0.hashes j = s0.hashes k := by
  rw [build_match_iff, hb.hashes, hb.crc]
  obtain ⟨d, hd, hcd⟩ := crc_get hcrc k hk
  obtain ⟨d2, hd2, hcd2⟩ := crc_get hcrc j (by omega)
  constructor
  · rintro ⟨_, _, h⟩; exact h.symm
  · intro h
    have hdd : d2 = d := by rw [hd, hd2] at h; exact Option.some.inj h
    exact ⟨by rw [hcd, hcd2, hdd], by rw [hd]; exact Option.some_ne_none d, h.symm⟩

/-- The block chosen by the inner loop of `test_final_hash_compare` under
consistent checksums: the lowest earlier index with the digest of `k`. -/
theorem build_equal_block_least {env : Env} {s0 t : DedupState} {k : Nat}
    (hb : BuildInv env s0 k t) (hcrc : CrcConsistent env s0) (hk : k < s0.blocks_count) :
    ((∀ j, j < k → s0.hashes j ≠ s0.hashes k) ∧ build_equal_block t k = k) ∨
    (build_equal_block t k < k ∧ s0.hashes (build_equal_block t k) = s0.hashes k ∧
      ∀ j, j < build_equal_block t k → s0.hashes j ≠ s0.hashes k) := by
  rcases firstMatch_spec (build_match t k) k k with ⟨he, _, hnone⟩ | ⟨_, hlt, htrue, hbefore⟩
  · left
    refine ⟨?_, he⟩
    intro j hj e
    have := hnone j hj
    rw [(build_match_consistent hb hcrc hk j hj).2 e] at this
    cases this
  · right
    have hlt2 : build_equal_block t k < k := hlt
    refine ⟨hlt2, (build_match_consistent hb hcrc hk _ hlt2).1 htrue, ?_⟩
    intro j hj e
    have := hbefore j hj
    rw [(build_match_consistent hb hcrc hk j (by omega)).2 e] at this
    cases this

theorem orderInv_loop (env : Env) (s0 : DedupState)
    (hid : ∀ i, i < s0.blocks_count → s0.equal_blocks i = i)
    (hcrc : CrcConsistent env s0) (k : Nat) (hk : k ≤ s0.blocks_count) :
    OrderInv s0.hashes k (forLoop build_step k s0).equal_blocks := by
  induction k with
  | zero =>
    exact ⟨fun i hi => absurd hi (Nat.not_lt_zero i), fun i hi => absurd hi (Nat.not_lt_zero i)⟩
  | succ k ih =>
    have hkn : k < s0.blocks_count := by omega
    have ih := ih (by omega)
    have hb := buildInv_loop env s0 hid k (by omega)
    have hstep : forLoop build_step (k + 1) s0 = build_step k (forLoop build_step k s0) := rfl
    have hself : (forLoop build_step k s0).equal_blocks k = k := by
      rw [hb.above k (le_refl k)]; exact hid k hkn
    rw [hstep]
    generalize forLoop build_step k s0 = t at ih hb hself ⊢
    rcases build_equal_block_least hb hcrc hkn with ⟨hno, he⟩ | ⟨hlt, hh, hleast⟩
    · rw [build_step_of_eq he]
      refine ⟨?_, ?_⟩
      · intro i hi hex
        have hik : i ≠ k := by
          rintro rfl
          obtain ⟨j, hj, hje⟩ := hex
          exact hno j hj hje
        exact ih.later i (by omega) hex
      · intro i hi hfirst
        by_cases hik : i = k
        · subst hik
          rw [hself]
          exact ⟨le_refl _, by omega, rfl, fun c h1 h2 => by omega⟩
        · obtain ⟨a1, a2, a3, a4⟩ := ih.first i (by omega) hfirst
          refine ⟨a1, by omega, a3, ?_⟩
          intro c hc1 hc2
          by_cases hck : c = k
          · rw [hck]
            exact fun e => hno i (by omega) e.symm
          · exact a4 c hc1 (by omega)
    · have hne : build_equal_block t k ≠ k := by omega
      rw [build_step_of_ne hne]
      generalize build_equal_block t k = j at hlt hh hleast hne
      have heb : (dedup_set_block_duplication t j k).equal_blocks =
          mergeLinks t.equal_blocks j k := rfl
      rw [heb]
      have hjfirst : ∀ j2, j2 < j → s0.hashes j2 ≠ s0.hashes j := by
        intro j2 hj2 e
        exact hleast j2 hj2 (e.trans hh)
      obtain ⟨b1, b2, b3, b4⟩ := ih.first j hlt hjfirst
      refine ⟨?_, ?_⟩
      · intro i hi hex
        by_cases hik : i = k
        · subst hik
          rw [mergeLinks_apply, if_pos rfl]
          refine ⟨b2, b3.trans hh, ?_⟩
          intro c hc1 hc2 e
          exact b4 c hc1 hc2 (e.trans hh.symm)
        · have hij : i ≠ j := by
            rintro rfl
            obtain ⟨j2, hj2, hje⟩ := hex
            exact hjfirst j2 hj2 hje
          rw [mergeLinks_apply, if_neg hik, if_neg hij]
          exact ih.later i (by omega) hex
      · intro i hi hfirst
        have hik : i ≠ k := by
          rintro rfl
          exact hfirst j hlt hh
        by_cases hij : i = j
        · subst hij
          rw [mergeLinks_apply, if_neg hik, if_pos rfl]
          exact ⟨by omega, by omega, hh.symm, fun c h1 h2 => by omega⟩
        · rw [mergeLinks_apply, if_neg hik, if_neg hij]
          obtain ⟨a1, a2, a3, a4⟩ := ih.first i (by omega) hfirst
          refine ⟨a1, by omega, a3, ?_⟩
          intro c hc1 hc2
          by_cases hck : c = k
          · rw [hck]
            intro e
            have hji : s0.hashes j = s0.hashes i := hh.trans e
            rcases Nat.lt_or_gt_of_ne hij with h1 | h1
            · exact hjfirst i h1 hji.symm
            · exact hfirst j h1 hji
          · exact a4 c hc1 (by omega)

theorem classOf_mem_iff {eb : Nat → Nat} {n i a : Nat} :
    a ∈ classOf eb n i ↔ (a < n ∧ SameCycle eb n i a) := by
  unfold classOf
  simp [List.mem_filter, List.mem_range]

theorem classOf_pairwise (eb : Nat → Nat) (n i : Nat) :
    List.Pairwise (fun a b => a < b) (classOf eb n i) :=
  List.Pairwise.filter _ (List.pairwise_lt_range n)

/-- In an ascending list without repetition the position of an element is
determined by the element. -/
theorem pairwise_lt_index {L : List Nat} (hs : List.Pairwise (fun a b => a < b) L)
    {u t : Nat} (hu : u < L.length) (ht : t < L.length) :
    (L.getD u 0 < L.getD t 0 ↔ u < t) := by
  rw [List.getD_eq_getElem L 0 hu, List.getD_eq_getElem L 0 ht]
  have hp := List.pairwise_iff_getElem.1 hs
  constructor
  · intro h
    by_contra hc
    rcases Nat.lt_or_ge t u with h1 | h1
    · have := hp t u ht hu h1
      omega
    · have e : u = t := by omega
      subst e
      omega
  · intro h
    exact hp u t hu ht h

theorem mem_getD {L : List Nat} {a : Nat} (h : a ∈ L) :
    ∃ u, u < L.length ∧ L.getD u 0 = a := by
  obtain ⟨u, hu, e⟩ := List.getElem_of_mem h
  exact ⟨u, hu, by rw [List.getD_eq_getElem L 0 hu]; exact e⟩

theorem getD_mem {L : List Nat} {u : Nat} (hu : u < L.length) : L.getD u 0 ∈ L := by
  rw [List.getD_eq_getElem L 0 hu]
  exact List.getElem_mem hu

/-- C13. Build tie-break and resulting link order, from reset links and
records holding the checksum of their digest. In `test_final_hash_compare`
the iteration for a block `i` that has an earlier block with the same digest
finds the lowest index `j < i` whose digest equals that of `i` and merges `i`
immediately after it (`equal_blocks[j] = i` after the iteration); the
iteration for a block without such a predecessor changes nothing.
Consequently, after the pass, the members `m0 < m1 < ... < mk` of a class, in
ascending order, satisfy `equal_blocks[m0] = mk` and
`equal_blocks[m(t+1)] = mt` for every `t < k`. -/
theorem build_link_order (env : Env) (s : DedupState)
    (hreset : ∀ i, i < s.blocks_count → s.equal_blocks i = i)
    (hcrc : CrcConsistent env s) :
    (∀ i, i < s.blocks_count → (∃ j, j < i ∧ s.hashes j = s.hashes i) →
      build_equal_block (forLoop build_step i s) i < i ∧
      s.hashes (build_equal_block (forLoop build_step i s) i) = s.hashes i ∧
      (∀ j, j < build_equal_block (forLoop build_step i s) i → s.hashes j ≠ s.hashes i) ∧
      forLoop build_step (i + 1) s =
        dedup_set_block_duplication (forLoop build_step i s)
          (build_equal_block (forLoop build_step i s) i) i ∧
      (forLoop build_step (i + 1) s).equal_blocks
        (build_equal_block (forLoop build_step i s) i) = i) ∧
    (∀ i, i < s.blocks_count → (∀ j, j < i → s.hashes j ≠ s.hashes i) →
      forLoop build_step (i + 1) s = forLoop build_step i s) ∧
    (∀ i, i < s.blocks_count →
      (∀ a, a ∈ classOf (test_final_hash_compare s).equal_blocks s.blocks_count i ↔
        (a < s.blocks_count ∧ s.hashes a = s.hashes i)) ∧
      List.Pairwise (fun a b => a < b)
        (classOf (test_final_hash_compare s).equal_blocks s.blocks_count i) ∧
      (test_final_hash_compare s).equal_blocks
          ((classOf (test_final_hash_compare s).equal_blocks s.blocks_count i).getD 0 0) =
        (classOf (test_final_hash_compare s).equal_blocks s.blocks_count i).getD
          ((classOf (test_final_hash_compare s).equal_blocks s.blocks_count i).length - 1) 0 ∧
      ∀ t, t + 1 < (classOf (test_final_hash_compare s).equal_blocks s.blocks_count i).length →
        (test_final_hash_compare s).equal_blocks
            ((classOf (test_final_hash_compare s).equal_blocks s.blocks_count i).getD
              (t + 1) 0) =
          (classOf (test_final_hash_compare s).equal_blocks s.blocks_count i).getD t 0) := by
  refine ⟨?_, ?_, ?_⟩
  · intro i hi hex
    have hb := buildInv_loop env s hreset i (by omega)
    have hstep : forLoop build_step (i + 1) s = build_step i (forLoop build_step i s) := rfl
    rcases build_equal_block_least hb hcrc hi with ⟨hno, _⟩ | ⟨hlt, hh, hleast⟩
    · obtain ⟨j, hj, hje⟩ := hex
      exact absurd hje (hno j hj)
    · have hne : build_equal_block (forLoop build_step i s) i ≠ i := by omega
      refine ⟨hlt, hh, hleast, by rw [hstep, build_step_of_ne hne], ?_⟩
      rw [hstep, build_step_of_ne hne]
      show mergeLinks _ _ _ _ = i
      rw [mergeLinks_apply, if_neg hne, if_pos rfl]
  · intro i hi hno
    have hb := buildInv_loop env s hreset i (by omega)
    have hstep : forLoop build_step (i + 1) s = build_step i (forLoop build_step i s) := rfl
    rcases build_equal_block_least hb hcrc hi with ⟨_, he⟩ | ⟨hlt, hh, _⟩
    · rw [hstep, build_step_of_eq he]
    · exact absurd hh (hno _ hlt)
  · intro i hi
    have hb := buildInv_final env s hreset
    have hpart := buildInv_partition hb hcrc
    have hord : OrderInv s.hashes s.blocks_count (test_final_hash_compare s).equal_blocks :=
      orderInv_loop env s hreset hcrc s.blocks_count (le_refl _)
    rw [hb.hashes] at hpart
    have hinv := hb.inv
    generalize (test_final_hash_compare s).equal_blocks = eb at hinv hpart hord ⊢
    have hmem : ∀ a, a ∈ classOf eb s.blocks_count i ↔
        (a < s.blocks_count ∧ s.hashes a = s.hashes i) := by
      intro a
      rw [classOf_mem_iff]
      constructor
      · rintro ⟨ha, hs⟩
        exact ⟨ha, ((hpart i a hi ha).1 ((sameCycle_iff_reach hinv hi a).1 hs)).symm⟩
      · rintro ⟨ha, he⟩
        exact ⟨ha, (sameCycle_iff_reach hinv hi a).2 ((hpart i a hi ha).2 he.symm)⟩
    have hsorted := classOf_pairwise eb s.blocks_count i
    generalize classOf eb s.blocks_count i = L at hmem hsorted ⊢
    have hpos : 0 < L.length := by
      have : i ∈ L := (hmem i).2 ⟨hi, rfl⟩
      exact List.length_pos_of_mem this
    refine ⟨hmem, hsorted, ?_, ?_⟩
    · obtain ⟨h0n, h0h⟩ := (hmem _).1 (getD_mem hpos)
      have hfirst : ∀ j, j < L.getD 0 0 → s.hashes j ≠ s.hashes (L.getD 0 0) := by
        intro j hj e
        have hjL : j ∈ L := (hmem j).2 ⟨by omega, e.trans h0h⟩
        obtain ⟨u, hu, hue⟩ := mem_getD hjL
        rw [← hue] at hj
        have := (pairwise_lt_index hsorted hu hpos).1 hj
        omega
      obtain ⟨a1, a2, a3, a4⟩ := hord.first _ h0n hfirst
      have hin : eb (L.getD 0 0) ∈ L := (hmem _).2 ⟨a2, a3.trans h0h⟩
      obtain ⟨u, hu, hue⟩ := mem_getD hin
      have hlast : L.length - 1 < L.length := by omega
      by_cases hul : u = L.length - 1
      · rw [← hue, hul]
      · exfalso
        have hlt : u < L.length - 1 := by omega
        have h1 := (pairwise_lt_index hsorted hu hlast).2 hlt
        rw [hue] at h1
        obtain ⟨l1, l2⟩ := (hmem _).1 (getD_mem hlast)
        exact a4 _ h1 l1 (l2.trans h0h.symm)
    · intro t ht
      have htl : t < L.length := by omega
      obtain ⟨bn, bh⟩ := (hmem _).1 (getD_mem ht)
      obtain ⟨an, ah⟩ := (hmem _).1 (getD_mem htl)
      have hab : L.getD t 0 < L.getD (t + 1) 0 :=
        (pairwise_lt_index hsorted htl ht).2 (by omega)
      obtain ⟨a1, a2, a3⟩ := hord.later _ bn ⟨_, hab, ah.trans bh.symm⟩
      have hin : eb (L.getD (t + 1) 0) ∈ L := (hmem _).2 ⟨by omega, a2.trans bh⟩
      obtain ⟨u, hu, hue⟩ := mem_getD hin
      have hut1 : u < t + 1 := by
        apply (pairwise_lt_index hsorted hu ht).1
        rw [hue]; exact a1
      by_cases hut : u = t
      · rw [← hue, hut]
      · exfalso
        have hlt : u < t := by omega
        have h1 := (pairwise_lt_index hsorted hu htl).2 hlt
        rw [hue] at h1
        exact a3 _ h1 hab (ah.trans bh.symm)

/-- Scenario A as an instance of C13: the class `[0, 2, 4]` has links
`0 → 4`, `2 → 0`, `4 → 2`. -/
theorem build_link_order_witness :
    (build_equal_block (forLoop build_step 4 (hashed_state scenarioEnv scenarioInit)) 4 = 0 ∧
      (forLoop build_step 5 (hashed_state scenarioEnv scenarioInit)).equal_blocks 0 = 4) ∧
    classOf scenarioA.equal_blocks 5 0 = [0, 2, 4] ∧
    scenarioA.equal_blocks 0 = 4 ∧ scenarioA.equal_blocks 2 = 0 ∧
    scenarioA.equal_blocks 4 = 2 ∧
    (∀ t, t + 1 < (classOf (test_final_hash_compare
          (hashed_state scenarioEnv scenarioInit)).equal_blocks
        (hashed_state scenarioEnv scenarioInit).blocks_count 0).length →
      (test_final_hash_compare (hashed_state scenarioEnv scenarioInit)).equal_blocks
          ((classOf (test_final_hash_compare
              (hashed_state scenarioEnv scenarioInit)).equal_blocks
            (hashed_state scenarioEnv scenarioInit).blocks_count 0).getD (t + 1) 0) =
        (classOf (test_final_hash_compare
            (hashed_state scenarioEnv scenarioInit)).equal_blocks
          (hashed_state scenarioEnv scenarioInit).blocks_count 0).getD t 0) :=
  ⟨by decide, by decide, by decide, by decide, by decide,
    ((build_link_order scenarioEnv (hashed_state scenarioEnv scenarioInit) (by decide)
      (by decide)).2.2 0 (by decide)).2.2.2⟩

theorem in_range_bounds {s : DedupState} {x : Nat} (hM : s.blocks_count < SECTOR_MOD)
    (hin : dedup_is_in_range s x ≠ 0) :
    s.start_block ≤ x ∧ x < s.start_block + s.blocks_count ∧
      s.start_block + s.blocks_count < SECTOR_MOD := by
  unfold dedup_is_in_range at hin
  split_ifs at hin with hc
  · obtain ⟨h1, h2⟩ := hc
    have hmod := Nat.mod_lt (s.start_block + s.blocks_count) (show 0 < SECTOR_MOD by decide)
    have hnowrap : s.start_block + s.blocks_count < SECTOR_MOD := by
      by_contra hge
      have hge2 : SECTOR_MOD ≤ s.start_block + s.blocks_count := by omega
      have e : (s.start_block + s.blocks_count) % SECTOR_MOD =
          s.start_block + s.blocks_count - SECTOR_MOD := by
        rw [Nat.mod_eq_sub_mod hge2]
        exact Nat.mod_eq_of_lt (by omega)
      omega
    rw [Nat.mod_eq_of_lt hnowrap] at h2
    exact ⟨h1, h2, hnowrap⟩
  · exact absurd rfl hin

theorem in_range_of_bounds {s : DedupState} {y : Nat} (h1 : s.start_block ≤ y)
    (h2 : y < s.start_block + s.blocks_count)
    (h3 : s.start_block + s.blocks_count < SECTOR_MOD) : dedup_is_in_range s y = 1 := by
  unfold dedup_is_in_range
  rw [Nat.mod_eq_of_lt h3, if_pos ⟨h1, h2⟩]

/-- For an in-range block the next equal block is the link of its index,
moved back to device numbering, and is in range. -/
theorem next_equal_in_range {s : DedupState} {x : Nat}
    (hinv : CycleInv s.equal_blocks s.blocks_count) (hM : s.blocks_count < SECTOR_MOD)
    (hin : dedup_is_in_range s x ≠ 0) :
    dedup_get_next_equal_block s x = s.equal_blocks (x - s.start_block) + s.start_block ∧
    dedup_is_in_range s (dedup_get_next_equal_block s x) = 1 := by
  obtain ⟨h1, h2, h3⟩ := in_range_bounds hM hin
  have hlt := hinv.1 (x - s.start_block) (by omega)
  have e : dedup_get_next_equal_block s x =
      s.equal_blocks (x - s.start_block) + s.start_block := by
    unfold dedup_get_next_equal_block
    rw [if_pos hin]
    exact Nat.mod_eq_of_lt (by omega)
  refine ⟨e, ?_⟩
  rw [e]
  exact in_range_of_bounds (by omega) (by omega) h3

theorem next_equal_iterate {s : DedupState} {x : Nat}
    (hinv : CycleInv s.equal_blocks s.blocks_count) (hM : s.blocks_count < SECTOR_MOD)
    (hin : dedup_is_in_range s x ≠ 0) (t : Nat) :
    (dedup_get_next_equal_block s)^[t] x =
        s.equal_blocks^[t] (x - s.start_block) + s.start_block ∧
    dedup_is_in_range s ((dedup_get_next_equal_block s)^[t] x) = 1 := by
  obtain ⟨h1, h2, h3⟩ := in_range_bounds hM hin
  induction t with
  | zero =>
    refine ⟨?_, ?_⟩
    · show x = x - s.start_block + s.start_block
      omega
    · exact in_range_of_bounds h1 h2 h3
  | succ t ih =>
    obtain ⟨e, hr⟩ := ih
    have hr2 : dedup_is_in_range s ((dedup_get_next_equal_block s)^[t] x) ≠ 0 := by
      rw [hr]; exact Nat.one_ne_zero
    obtain ⟨e2, hr3⟩ := next_equal_in_range hinv hM hr2
    rw [Function.iterate_succ_apply', Function.iterate_succ_apply']
    refine ⟨?_, hr3⟩
    rw [e2, e]
    have : s.equal_blocks^[t] (x - s.start_block) + s.start_block - s.start_block =
        s.equal_blocks^[t] (x - s.start_block) := by omega
    rw [this]

/-- Under the cycle invariant a class has as many members as the least
number of links that lead from a member back to itself. -/
theorem classOf_length_eq_minimalPeriod {eb : Nat → Nat} {n i : Nat}
    (h : CycleInv eb n) (hi : i < n) :
    (classOf eb n i).length = Function.minimalPeriod eb i ∧
      0 < Function.minimalPeriod eb i := by
  classical
  obtain ⟨k, hk0, _, hk⟩ := returns_of_cycleInv h i hi
  have hper : i ∈ Function.periodicPts eb := Function.mk_mem_periodicPts hk0 hk
  have hp0 := Function.minimalPeriod_pos_of_mem_periodicPts hper
  refine ⟨?_, hp0⟩
  have e1 : (classOf eb n i).length =
      ((Finset.range n).filter (fun j => SameCycle eb n i j)).card :=
    length_filter_range _ n
  have e2 : (Finset.range n).filter (fun j => SameCycle eb n i j) =
      (Finset.range (Function.minimalPeriod eb i)).image (fun t => eb^[t] i) := by
    ext a
    simp only [Finset.mem_filter, Finset.mem_range, Finset.mem_image]
    constructor
    · rintro ⟨_, k2, _, hk2⟩
      exact ⟨k2 % Function.minimalPeriod eb i, Nat.mod_lt _ hp0, by
        rw [Function.iterate_mod_minimalPeriod_eq]; exact hk2⟩
    · rintro ⟨t, _, ht⟩
      refine ⟨by rw [← ht]; exact iterate_lt h t i hi, ?_⟩
      exact (sameCycle_iff_reach h hi a).2 ⟨t, ht⟩
  rw [e1, e2, Finset.card_image_of_injOn, Finset.card_range]
  intro a ha b hb hab
  exact Function.iterate_injOn_Iio_minimalPeriod (by simpa using ha) (by simpa using hb) hab

/-- C16. Class walk: in a state satisfying the cycle invariant (block count
below `2 ^ 64`), for every in-range device block `x` whose class has `k`
members, iterating `dedup_get_next_equal_block` from `x` returns only in-range
blocks of the class of `x`, comes back to `x` after exactly `k` steps and not
before, meets pairwise different blocks during these `k` steps and meets every
member of the class among them, whichever member `x` is; for an out-of-range
block the function returns the block itself. -/
theorem class_walk (s : DedupState) (x : Nat)
    (hinv : CycleInv s.equal_blocks s.blocks_count) (hM : s.blocks_count < SECTOR_MOD)
    (hin : dedup_is_in_range s x = 1) :
    (∀ t, dedup_is_in_range s ((dedup_get_next_equal_block s)^[t] x) = 1 ∧
      (dedup_get_next_equal_block s)^[t] x - s.start_block ∈
        classOf s.equal_blocks s.blocks_count (x - s.start_block)) ∧
    0 < (classOf s.equal_blocks s.blocks_count (x - s.start_block)).length ∧
    (dedup_get_next_equal_block s)^[(classOf s.equal_blocks s.blocks_count
      (x - s.start_block)).length] x = x ∧
    (∀ t, 0 < t → t < (classOf s.equal_blocks s.blocks_count (x - s.start_block)).length →
      (dedup_get_next_equal_block s)^[t] x ≠ x) ∧
    (∀ t1 t2, t1 < (classOf s.equal_blocks s.blocks_count (x - s.start_block)).length →
      t2 < (classOf s.equal_blocks s.blocks_count (x - s.start_block)).length →
      (dedup_get_next_equal_block s)^[t1] x = (dedup_get_next_equal_block s)^[t2] x →
      t1 = t2) ∧
    (∀ m, m ∈ classOf s.equal_blocks s.blocks_count (x - s.start_block) →
      ∃ t, t < (classOf s.equal_blocks s.blocks_count (x - s.start_block)).length ∧
        (dedup_get_next_equal_block s)^[t] x = m + s.start_block) ∧
    (∀ y, dedup_is_in_range s y = 0 → dedup_get_next_equal_block s y = y) := by
  have hin2 : dedup_is_in_range s x ≠ 0 := by rw [hin]; exact Nat.one_ne_zero
  obtain ⟨h1, h2, _⟩ := in_range_bounds hM hin2
  have hi : x - s.start_block < s.blocks_count := by omega
  have hit := next_equal_iterate hinv hM hin2
  obtain ⟨hlen, hp0⟩ := classOf_length_eq_minimalPeriod hinv hi
  rw [hlen]
  have hinj := Function.iterate_injOn_Iio_minimalPeriod (f := s.equal_blocks)
    (x := x - s.start_block)
  refine ⟨?_, hp0, ?_, ?_, ?_, ?_, ?_⟩
  · intro t
    refine ⟨(hit t).2, ?_⟩
    rw [(hit t).1, classOf_mem_iff]
    have e : s.equal_blocks^[t] (x - s.start_block) + s.start_block - s.start_block =
        s.equal_blocks^[t] (x - s.start_block) := by omega
    rw [e]
    exact ⟨iterate_lt hinv t _ hi, (sameCycle_iff_reach hinv hi _).2 ⟨t, rfl⟩⟩
  · rw [(hit _).1]
    have := Function.isPeriodicPt_minimalPeriod s.equal_blocks (x - s.start_block)
    have e : s.equal_blocks^[Function.minimalPeriod s.equal_blocks (x - s.start_block)]
        (x - s.start_block) = x - s.start_block := this
    rw [e]; omega
  · intro t ht0 htk e
    rw [(hit t).1] at e
    have e2 : s.equal_blocks^[t] (x - s.start_block) = s.equal_blocks^[0] (x - s.start_block) := by
      show _ = x - s.start_block
      omega
    have := hinj (by simpa using htk) (by simpa using hp0) e2
    omega
  · intro t1 t2 ht1 ht2 e
    rw [(hit t1).1, (hit t2).1] at e
    have e2 : s.equal_blocks^[t1] (x - s.start_block) =
        s.equal_blocks^[t2] (x - s.start_block) := by omega
    exact hinj (by simpa using ht1) (by simpa using ht2) e2
  · intro m hm
    obtain ⟨_, k2, _, hk2⟩ := classOf_mem_iff.1 hm
    refine ⟨k2 % Function.minimalPeriod s.equal_blocks (x - s.start_block),
      Nat.mod_lt _ hp0, ?_⟩
    rw [(hit _).1, Function.iterate_mod_minimalPeriod_eq, hk2]
  · intro y hy
    unfold dedup_get_next_equal_block
    rw [if_neg (by rw [hy]; exact fun hc => hc rfl)]

/-- The walk from block 2 of scenario A, a member of the class `{0, 2, 4}`:
`2 → 0 → 4 → 2`; block 7 is out of range. -/
theorem class_walk_witness :
    ((∀ t, dedup_is_in_range scenarioA ((dedup_get_next_equal_block scenarioA)^[t] 2) = 1 ∧
        (dedup_get_next_equal_block scenarioA)^[t] 2 - scenarioA.start_block ∈
          classOf scenarioA.equal_blocks scenarioA.blocks_count
            (2 - scenarioA.start_block)) ∧
      0 < (classOf scenarioA.equal_blocks scenarioA.blocks_count
        (2 - scenarioA.start_block)).length ∧
      (dedup_get_next_equal_block scenarioA)^[(classOf scenarioA.equal_blocks
        scenarioA.blocks_count (2 - scenarioA.start_block)).length] 2 = 2 ∧
      (∀ t, 0 < t →
        t < (classOf scenarioA.equal_blocks scenarioA.blocks_count
          (2 - scenarioA.start_block)).length →
        (dedup_get_next_equal_block scenarioA)^[t] 2 ≠ 2) ∧
      (∀ t1 t2,
        t1 < (classOf scenarioA.equal_blocks scenarioA.blocks_count
          (2 - scenarioA.start_block)).length →
        t2 < (classOf scenarioA.equal_blocks scenarioA.blocks_count
          (2 - scenarioA.start_block)).length →
        (dedup_get_next_equal_block scenarioA)^[t1] 2 =
          (dedup_get_next_equal_block scenarioA)^[t2] 2 →
        t1 = t2) ∧
      (∀ m, m ∈ classOf scenarioA.equal_blocks scenarioA.blocks_count
          (2 - scenarioA.start_block) →
        ∃ t, t < (classOf scenarioA.equal_blocks scenarioA.blocks_count
            (2 - scenarioA.start_block)).length ∧
          (dedup_get_next_equal_block scenarioA)^[t] 2 = m + scenarioA.start_block) ∧
      (∀ y, dedup_is_in_range scenarioA y = 0 → dedup_get_next_equal_block scenarioA y = y)) ∧
    (List.range 4).map (fun t => (dedup_get_next_equal_block scenarioA)^[t] 2) = [2, 0, 4, 2] ∧
    dedup_get_next_equal_block scenarioA 7 = 7 :=
  ⟨class_walk scenarioA 2 (by decide) (by decide) (by decide), by decide, by decide⟩

theorem markCount_unmark {tmp_buf : Nat → Bool} {n j : Nat} (hj : j < n)
    (hm : tmp_buf j = true) :
    markCount (Function.update tmp_buf j false) n + 1 = markCount tmp_buf n := by
  unfold markCount
  have hset : (Finset.range n).filter (fun x => Function.update tmp_buf j false x = true) =
      ((Finset.range n).filter (fun x => tmp_buf x = true)).erase j := by
    ext x
    simp only [Finset.mem_filter, Finset.mem_range, Finset.mem_erase]
    by_cases hx : x = j
    · subst hx
      simp
    · rw [Function.update_noteq hx]
      tauto
  have hmem : j ∈ (Finset.range n).filter (fun x => tmp_buf x = true) := by
    simp only [Finset.mem_filter, Finset.mem_range]
    exact ⟨hj, hm⟩
  rw [hset, Finset.card_erase_of_mem hmem]
  have : 0 < ((Finset.range n).filter (fun x => tmp_buf x = true)).card :=
    Finset.card_pos.2 ⟨j, hmem⟩
  omega

theorem markCount_le (tmp_buf : Nat → Bool) (n : Nat) : markCount tmp_buf n ≤ n := by
  unfold markCount
  calc ((Finset.range n).filter _).card ≤ (Finset.range n).card := Finset.card_filter_le _ _
    _ = n := Finset.card_range n

/-- The inner loop stops whenever the links are in range: every turn clears
one mark, and every cell read is inside the buffer. -/
theorem print_walk_terminates {eb : Nat → Nat} {n : Nat} (hrange : ∀ x, x < n → eb x < n)
    (i : Nat) :
    ∀ (fuel j : Nat) (tmp_buf : Nat → Bool) (line : List Nat),
      j < n → markCount tmp_buf n < fuel →
      ∃ r, print_walk eb n i fuel j tmp_buf line = some r := by
  intro fuel
  induction fuel with
  | zero => intro j tmp_buf line _ hc; exact absurd hc (Nat.not_lt_zero _)
  | succ f ih =>
    intro j tmp_buf line hj hc
    have hnot : ¬ (j ≠ i ∧ n ≤ j) := fun h => by omega
    by_cases hcond : j ≠ i ∧ tmp_buf j = true
    · have hcnt := markCount_unmark hj hcond.2
      obtain ⟨r, hr⟩ := ih (eb j) (Function.update tmp_buf j false) (line ++ [j])
        (hrange j hj) (by omega)
      refine ⟨r, ?_⟩
      show (if j ≠ i ∧ n ≤ j then none else if j ≠ i ∧ tmp_buf j = true then _ else _) = some r
      rw [if_neg hnot, if_pos hcond]; exact hr
    · refine ⟨(tmp_buf, line), ?_⟩
      show (if j ≠ i ∧ n ≤ j then none else if j ≠ i ∧ tmp_buf j = true then _ else _) =
        some (tmp_buf, line)
      rw [if_neg hnot, if_neg hcond]

theorem print_step_terminates {eb : Nat → Nat} {n fuel : Nat}
    (hrange : ∀ x, x < n → eb x < n) (hf : n ≤ fuel) (i : Nat) (hi : i < n)
    (st : (Nat → Bool) × List (List Nat)) :
    ∃ r, print_step fuel eb n i st = some r := by
  unfold print_step
  by_cases hm : st.1 i = true
  · rw [if_pos hm]
    by_cases hself : i = eb i
    · rw [if_pos hself]
      exact ⟨_, rfl⟩
    · rw [if_neg hself]
      have hcnt := markCount_unmark hi hm
      have hle := markCount_le st.1 n
      obtain ⟨r, hr⟩ := print_walk_terminates hrange i fuel (eb i)
        (Function.update st.1 i false) [i] (hrange i hi) (by omega)
      rw [hr]
      exact ⟨_, rfl⟩
  · rw [if_neg hm]
    exact ⟨st, rfl⟩

theorem print_loop_terminates {eb : Nat → Nat} {n fuel : Nat}
    (hrange : ∀ x, x < n → eb x < n) (hf : n ≤ fuel) (k : Nat) (hk : k ≤ n)
    (st : (Nat → Bool) × List (List Nat)) :
    ∃ r, print_loop fuel eb n k st = some r := by
  induction k with
  | zero => exact ⟨st, rfl⟩
  | succ k ih =>
    obtain ⟨r1, h1⟩ := ih (by omega)
    obtain ⟨r2, h3⟩ := print_step_terminates hrange hf k (by omega) r1
    refine ⟨r2, ?_⟩
    show (match print_loop fuel eb n k st with
      | none => none
      | some st1 => print_step fuel eb n k st1) = some r2
    rw [h1]; exact h3

theorem clearOrbit_succ (eb : Nat → Nat) (k : Nat) (tmp_buf : Nat → Bool) (t : Nat) :
    Function.update (clearOrbit eb k tmp_buf t) (eb^[t] k) false =
      clearOrbit eb k tmp_buf (t + 1) := by
  funext x
  unfold clearOrbit
  by_cases hx : x = eb^[t] k
  · rw [hx, Function.update_same]
    symm
    rw [Bool.and_eq_false_iff]
    right
    rw [decide_eq_false_iff_not]
    intro h
    exact h t (Nat.lt_succ_self t) rfl
  · rw [Function.update_noteq hx]
    congr 1
    rw [decide_eq_decide]
    constructor
    · intro h u hu
      rcases Nat.lt_succ_iff_lt_or_eq.1 hu with h1 | h1
      · exact h u h1
      · rw [h1]; exact fun e => hx e.symm
    · intro h u hu
      exact h u (by omega)

/-- The inner loop on a cycle: started after `t` blocks of the cycle of `k`
have been printed and cleared, it prints and clears the remaining ones and
stops on coming back to `k`. -/
theorem print_walk_orbit {eb : Nat → Nat} {n k p : Nat} (tmp_buf : Nat → Bool)
    (hper : eb^[p] k = k)
    (hmin : ∀ t, 0 < t → t < p → eb^[t] k ≠ k)
    (hinj : ∀ u t, u < p → t < p → eb^[u] k = eb^[t] k → u = t)
    (hlt : ∀ t, eb^[t] k < n)
    (hmarked : ∀ t, t < p → tmp_buf (eb^[t] k) = true) :
    ∀ (d t fuel : Nat), t + d = p → 1 ≤ t → d < fuel →
      print_walk eb n k fuel (eb^[t] k) (clearOrbit eb k tmp_buf t)
          ((List.range t).map (fun u => eb^[u] k)) =
        some (clearOrbit eb k tmp_buf p, (List.range p).map (fun u => eb^[u] k)) := by
  intro d
  induction d with
  | zero =>
    intro t fuel htp _ hf
    obtain ⟨f, rfl⟩ : ∃ f, fuel = f + 1 := ⟨fuel - 1, by omega⟩
    have e : t = p := by omega
    subst e
    show (if eb^[t] k ≠ k ∧ n ≤ eb^[t] k then none
      else if eb^[t] k ≠ k ∧ clearOrbit eb k tmp_buf t (eb^[t] k) = true then _ else _) = _
    rw [if_neg (fun h => h.1 hper), if_neg (fun h => h.1 hper)]
  | succ d ih =>
    intro t fuel htp ht1 hf
    obtain ⟨f, rfl⟩ : ∃ f, fuel = f + 1 := ⟨fuel - 1, by omega⟩
    have htlt : t < p := by omega
    have hne : eb^[t] k ≠ k := hmin t (by omega) htlt
    have hmark : clearOrbit eb k tmp_buf t (eb^[t] k) = true := by
      unfold clearOrbit
      rw [hmarked t htlt, Bool.true_and, decide_eq_true_iff]
      intro u hu e
      have := hinj u t (by omega) htlt e
      omega
    show (if eb^[t] k ≠ k ∧ n ≤ eb^[t] k then none
      else if eb^[t] k ≠ k ∧ clearOrbit eb k tmp_buf t (eb^[t] k) = true then _ else _) = _
    rw [if_neg (fun h => absurd (hlt t) (by omega)), if_pos ⟨hne, hmark⟩, clearOrbit_succ]
    have hline : (List.range t).map (fun u => eb^[u] k) ++ [eb^[t] k] =
        (List.range (t + 1)).map (fun u => eb^[u] k) := by
      rw [List.range_succ, List.map_append]
      rfl
    rw [hline, ← Function.iterate_succ_apply' eb t k]
    exact ih (t + 1) f (by omega) (by omega) (by omega)

theorem filter_singleton_pos (p : Nat → Bool) (k : Nat) (h : p k = true) :
    List.filter p [k] = [k] := by
  simp [List.filter, h]

theorem filter_singleton_neg (p : Nat → Bool) (k : Nat) (h : p k = false) :
    List.filter p [k] = [] := by
  simp [List.filter, h]

theorem class_report_succ (eb : Nat → Nat) (n k : Nat) :
    class_report eb n (k + 1) =
      class_report eb n k ++
        (if eb k ≠ k ∧ ∀ j, j < k → ¬ SameCycle eb n j k then [class_line eb n k] else []) := by
  unfold class_report
  rw [List.range_succ, List.filter_append, List.map_append]
  congr 1
  by_cases h : eb k ≠ k ∧ ∀ j, j < k → ¬ SameCycle eb n j k
  · have e := filter_singleton_pos
      (fun i => decide (eb i ≠ i ∧ ∀ j, j < i → ¬ SameCycle eb n j i)) k (decide_eq_true h)
    rw [if_pos h, e]
    rfl
  · have e := filter_singleton_neg
      (fun i => decide (eb i ≠ i ∧ ∀ j, j < i → ¬ SameCycle eb n j i)) k (decide_eq_false h)
    rw [if_neg h, e]
    rfl

theorem print_step_inv {eb : Nat → Nat} {n k fuel : Nat} (h : CycleInv eb n) (hk : k < n)
    (hf : n ≤ fuel) {st : (Nat → Bool) × List (List Nat)} (hst : PrintInv eb n k st) :
    ∃ st2, print_step fuel eb n k st = some st2 ∧ PrintInv eb n (k + 1) st2 := by
  have hminiff := isCycleMin_iff h hk
  unfold print_step
  by_cases hm : st.1 k = true
  · have hmin : IsCycleMin eb k := fun j hj => ((hst.marks k).1 hm).2 j hj
    rw [if_pos hm]
    by_cases hself : k = eb k
    · rw [if_pos hself]
      refine ⟨_, rfl, ?_, ?_⟩
      · intro x
        show Function.update st.1 k false x = true ↔ _
        by_cases hxk : x = k
        · rw [hxk, Function.update_same]
          constructor
          · intro hc; cases hc
          · rintro ⟨_, hno⟩
            exact absurd (reach_refl eb k) (hno k (Nat.lt_succ_self k))
        · rw [Function.update_noteq hxk, hst.marks x]
          constructor
          · rintro ⟨hx, hno⟩
            refine ⟨hx, ?_⟩
            intro j hj hr
            rcases Nat.lt_succ_iff_lt_or_eq.1 hj with h1 | h1
            · exact hno j h1 hr
            · rw [h1] at hr
              exact hxk (reach_of_fixed hself.symm hr)
          · rintro ⟨hx, hno⟩
            exact ⟨hx, fun j hj => hno j (by omega)⟩
      · show st.2 = _
        rw [class_report_succ, if_neg (fun hc => hc.1 hself.symm), List.append_nil]
        exact hst.lines
    · rw [if_neg hself]
      obtain ⟨hlen, hp0⟩ := classOf_length_eq_minimalPeriod h hk
      have hper : eb^[Function.minimalPeriod eb k] k = k :=
        Function.isPeriodicPt_minimalPeriod eb k
      have hinj0 := Function.iterate_injOn_Iio_minimalPeriod (f := eb) (x := k)
      have hinj : ∀ u t, u < Function.minimalPeriod eb k → t < Function.minimalPeriod eb k →
          eb^[u] k = eb^[t] k → u = t := fun u t hu ht e =>
        hinj0 (by simpa using hu) (by simpa using ht) e
      have hmin2 : ∀ t, 0 < t → t < Function.minimalPeriod eb k → eb^[t] k ≠ k := by
        intro t ht0 htp e
        have := hinj t 0 htp hp0 e
        omega
      have hltn : ∀ t, eb^[t] k < n := fun t => iterate_lt h t k hk
      have hmarked : ∀ t, t < Function.minimalPeriod eb k → st.1 (eb^[t] k) = true := by
        intro t _
        rw [hst.marks]
        refine ⟨hltn t, ?_⟩
        intro j hj hr
        have hback : Reach eb (eb^[t] k) k := reach_symm h hk ⟨t, rfl⟩
        exact hmin j hj (reach_trans hr hback)
      have hple : Function.minimalPeriod eb k ≤ n := by
        rw [← hlen]
        unfold classOf
        calc ((List.range n).filter _).length ≤ (List.range n).length :=
              List.length_filter_le _ _
          _ = n := List.length_range n
      have hstart : Function.update st.1 k false = clearOrbit eb k st.1 1 := by
        have := clearOrbit_succ eb k st.1 0
        have e0 : clearOrbit eb k st.1 0 = st.1 := by
          funext x; unfold clearOrbit; simp
        rw [e0] at this
        exact this
      have hrun := print_walk_orbit st.1 hper hmin2 hinj hltn hmarked
        (Function.minimalPeriod eb k - 1) 1 fuel (by omega) (le_refl 1) (by omega)
      have hline1 : (List.range 1).map (fun u => eb^[u] k) = [k] := rfl
      rw [hline1] at hrun
      have hiter1 : eb^[1] k = eb k := rfl
      rw [hiter1, ← hstart] at hrun
      rw [hrun]
      refine ⟨_, rfl, ?_, ?_⟩
      · intro x
        show clearOrbit eb k st.1 (Function.minimalPeriod eb k) x = true ↔ _
        unfold clearOrbit
        rw [Bool.and_eq_true, hst.marks x, decide_eq_true_iff]
        constructor
        · rintro ⟨⟨hx, hno⟩, horb⟩
          refine ⟨hx, ?_⟩
          intro j hj hr
          rcases Nat.lt_succ_iff_lt_or_eq.1 hj with h1 | h1
          · exact hno j h1 hr
          · rw [h1] at hr
            obtain ⟨t, ht⟩ := hr
            refine horb (t % Function.minimalPeriod eb k) (Nat.mod_lt _ hp0) ?_
            rw [Function.iterate_mod_minimalPeriod_eq]; exact ht
        · rintro ⟨hx, hno⟩
          refine ⟨⟨hx, fun j hj => hno j (by omega)⟩, ?_⟩
          intro u _ e
          exact hno k (Nat.lt_succ_self k) ⟨u, e⟩
      · show st.2 ++ [_] = _
        rw [class_report_succ, if_pos ⟨fun hc => hself hc.symm, hminiff.2 hmin⟩, hst.lines]
        unfold class_line
        rw [hlen]
  · rw [if_neg hm]
    have hnotmin : ∃ j, j < k ∧ Reach eb j k := by
      by_contra hc
      apply hm
      rw [hst.marks]
      exact ⟨hk, fun j hj hr => hc ⟨j, hj, hr⟩⟩
    obtain ⟨j0, hj0, hr0⟩ := hnotmin
    refine ⟨st, rfl, ?_, ?_⟩
    · intro x
      rw [hst.marks x]
      constructor
      · rintro ⟨hx, hno⟩
        refine ⟨hx, ?_⟩
        intro j hj hr
        rcases Nat.lt_succ_iff_lt_or_eq.1 hj with h1 | h1
        · exact hno j h1 hr
        · rw [h1] at hr
          exact hno j0 hj0 (reach_trans hr0 hr)
      · rintro ⟨hx, hno⟩
        exact ⟨hx, fun j hj => hno j (by omega)⟩
    · rw [class_report_succ, if_neg, List.append_nil]
      · exact hst.lines
      · rintro ⟨_, hmin⟩
        exact (hminiff.1 hmin) j0 hj0 hr0

theorem print_loop_inv {eb : Nat → Nat} {n fuel : Nat} (h : CycleInv eb n) (hf : n ≤ fuel)
    (k : Nat) (hk : k ≤ n) :
    ∃ st, print_loop fuel eb n k (fun j => decide (j < n), []) = some st ∧
      PrintInv eb n k st := by
  induction k with
  | zero =>
    refine ⟨_, rfl, ?_, rfl⟩
    intro x
    show decide (x < n) = true ↔ _
    rw [decide_eq_true_iff]
    exact ⟨fun hx => ⟨hx, fun j hj => absurd hj (Nat.not_lt_zero j)⟩, fun hx => hx.1⟩
  | succ k ih =>
    obtain ⟨st1, h1, h2⟩ := ih (by omega)
    obtain ⟨st2, h3, h4⟩ := print_step_inv h (by omega) hf h2
    refine ⟨st2, ?_, h4⟩
    show (match print_loop fuel eb n k _ with
      | none => none
      | some st1 => print_step fuel eb n k st1) = some st2
    rw [h1]; exact h3

theorem class_line_length (eb : Nat → Nat) (n i : Nat) :
    (class_line eb n i).length = (classOf eb n i).length := by
  unfold class_line
  rw [List.length_map, List.length_range]

theorem class_line_getD (eb : Nat → Nat) (n i t : Nat) (ht : t < (classOf eb n i).length) :
    (class_line eb n i).getD t 0 = eb^[t] i := by
  have hl : t < (class_line eb n i).length := by rw [class_line_length]; exact ht
  rw [List.getD_eq_getElem _ 0 hl]
  unfold class_line
  simp

theorem class_line_mem {eb : Nat → Nat} {n i : Nat} (h : CycleInv eb n) (hi : i < n)
    (a : Nat) : a ∈ class_line eb n i ↔ a ∈ classOf eb n i := by
  obtain ⟨hlen, hp0⟩ := classOf_length_eq_minimalPeriod h hi
  unfold class_line
  rw [hlen, classOf_mem_iff]
  simp only [List.mem_map, List.mem_range]
  constructor
  · rintro ⟨t, _, ht⟩
    exact ⟨by rw [← ht]; exact iterate_lt h t i hi, (sameCycle_iff_reach h hi a).2 ⟨t, ht⟩⟩
  · rintro ⟨_, k2, _, hk2⟩
    exact ⟨k2 % Function.minimalPeriod eb i, Nat.mod_lt _ hp0, by
      rw [Function.iterate_mod_minimalPeriod_eq]; exact hk2⟩

theorem class_line_nodup {eb : Nat → Nat} {n i : Nat} (h : CycleInv eb n) (hi : i < n) :
    (class_line eb n i).Nodup := by
  obtain ⟨hlen, _⟩ := classOf_length_eq_minimalPeriod h hi
  unfold class_line
  rw [hlen]
  apply List.Nodup.map_on _ (List.nodup_range _)
  intro x hx y hy e
  exact Function.iterate_injOn_Iio_minimalPeriod (by simpa using hx) (by simpa using hy) e

theorem class_report_mem {eb : Nat → Nat} {n : Nat} {line : List Nat}
    (hl : line ∈ class_report eb n n) :
    ∃ i, i < n ∧ eb i ≠ i ∧ (∀ j, j < i → ¬ SameCycle eb n j i) ∧
      line = class_line eb n i := by
  unfold class_report at hl
  rw [List.mem_map] at hl
  obtain ⟨i, hi, rfl⟩ := hl
  rw [List.mem_filter, List.mem_range, decide_eq_true_iff] at hi
  exact ⟨i, hi.1, hi.2.1, hi.2.2, rfl⟩

/-- C17. Class report: in a state satisfying the cycle invariant,
`print_dedup_data_structure` (its marker buffer allocated, `blocks_count` loop
tests given to each inner loop) prints exactly the report `class_report`: one
line per class of more than one block and none for a singleton, as many lines
as there are cycles of length greater than one; the lines come in ascending
order of their first number; a line starts with the smallest index of its
class, each further number is the link of the one before it, and the numbers
of the line are the members of the class, each once; every block of a class
of more than one block appears in exactly one line exactly once, and no other
block is printed. -/
theorem class_report_correct (s : DedupState) (fuel : Nat)
    (hinv : CycleInv s.equal_blocks s.blocks_count) (hf : s.blocks_count ≤ fuel) :
    print_dedup_data_structure fuel true s =
      some (class_report s.equal_blocks s.blocks_count s.blocks_count) ∧
    (class_report s.equal_blocks s.blocks_count s.blocks_count).length =
      linkedCycleCount s.equal_blocks s.blocks_count ∧
    List.Pairwise (fun l1 l2 => l1.headD 0 < l2.headD 0)
      (class_report s.equal_blocks s.blocks_count s.blocks_count) ∧
    (∀ line, line ∈ class_report s.equal_blocks s.blocks_count s.blocks_count →
      line.headD 0 < s.blocks_count ∧
      s.equal_blocks (line.headD 0) ≠ line.headD 0 ∧
      (∀ a, a ∈ line ↔ a ∈ classOf s.equal_blocks s.blocks_count (line.headD 0)) ∧
      (∀ a, a ∈ line → line.headD 0 ≤ a) ∧
      line.length = (classOf s.equal_blocks s.blocks_count (line.headD 0)).length ∧
      line.Nodup ∧
      (∀ t, t + 1 < line.length → line.getD (t + 1) 0 = s.equal_blocks (line.getD t 0))) ∧
    (class_report s.equal_blocks s.blocks_count s.blocks_count).flatten.Nodup ∧
    (∀ x, x ∈ (class_report s.equal_blocks s.blocks_count s.blocks_count).flatten ↔
      (x < s.blocks_count ∧ s.equal_blocks x ≠ x)) := by
  generalize hn : s.blocks_count = n at hinv hf ⊢
  generalize heb : s.equal_blocks = eb at hinv ⊢
  have hhead : ∀ i, i < n → (class_line eb n i).headD 0 = i := by
    intro i hi
    obtain ⟨hlen, hp0⟩ := classOf_length_eq_minimalPeriod hinv hi
    have := class_line_getD eb n i 0 (by omega)
    rw [List.getD_eq_getElem?_getD] at this
    rw [List.headD_eq_head?_getD, List.head?_eq_getElem?]
    exact this
  have hmemline : ∀ line, line ∈ class_report eb n n →
      ∃ i, i < n ∧ eb i ≠ i ∧ IsCycleMin eb i ∧ line = class_line eb n i ∧
        line.headD 0 = i := by
    intro line hl
    obtain ⟨i, hi, h1, h2, h3⟩ := class_report_mem hl
    exact ⟨i, hi, h1, (isCycleMin_iff hinv hi).1 h2, h3, by rw [h3]; exact hhead i hi⟩
  refine ⟨?_, ?_, ?_, ?_, ?_, ?_⟩
  · obtain ⟨st, hst, hinvst⟩ := print_loop_inv hinv hf n (le_refl n)
    unfold print_dedup_data_structure
    rw [if_neg (by decide), hn, heb, hst]
    show some st.2 = _
    rw [hinvst.lines]
  · unfold class_report linkedCycleCount
    rw [List.length_map]
  · unfold class_report
    rw [List.pairwise_map]
    apply List.Pairwise.imp_of_mem _
      (List.Pairwise.filter _ (List.pairwise_lt_range n))
    intro a b ha hb hab
    rw [List.mem_filter, List.mem_range] at ha hb
    rw [hhead a ha.1, hhead b hb.1]
    exact hab
  · intro line hl
    obtain ⟨i, hi, h1, h2, h3, h4⟩ := hmemline line hl
    rw [h4]
    subst h3
    refine ⟨hi, h1, class_line_mem hinv hi, ?_, class_line_length eb n i,
      class_line_nodup hinv hi, ?_⟩
    · intro a ha
      obtain ⟨han, hs⟩ := classOf_mem_iff.1 ((class_line_mem hinv hi a).1 ha)
      by_contra hc
      have hr : Reach eb i a := (sameCycle_iff_reach hinv hi a).1 hs
      exact h2 a (by omega) (reach_symm hinv hi hr)
    · intro t ht
      rw [class_line_length] at ht
      rw [class_line_getD eb n i (t + 1) ht, class_line_getD eb n i t (by omega),
        Function.iterate_succ_apply']
  · rw [List.nodup_flatten]
    refine ⟨?_, ?_⟩
    · intro line hl
      obtain ⟨i, hi, _, _, h3, _⟩ := hmemline line hl
      rw [h3]; exact class_line_nodup hinv hi
    · unfold class_report
      rw [List.pairwise_map]
      apply List.Pairwise.imp_of_mem _
        (List.Pairwise.filter _ (List.pairwise_lt_range n))
      intro a b ha hb hab
      rw [List.mem_filter, List.mem_range, decide_eq_true_iff] at ha hb
      rw [List.disjoint_left]
      intro x hxa hxb
      obtain ⟨_, hsa⟩ := classOf_mem_iff.1 ((class_line_mem hinv ha.1 x).1 hxa)
      obtain ⟨_, hsb⟩ := classOf_mem_iff.1 ((class_line_mem hinv hb.1 x).1 hxb)
      have hra := (sameCycle_iff_reach hinv ha.1 x).1 hsa
      have hrb := (sameCycle_iff_reach hinv hb.1 x).1 hsb
      have hab2 : Reach eb a b := reach_trans hra (reach_symm hinv hb.1 hrb)
      exact ((isCycleMin_iff hinv hb.1).1 hb.2.2) a hab hab2
  · intro x
    rw [List.mem_flatten]
    constructor
    · rintro ⟨line, hl, hx⟩
      obtain ⟨i, hi, h1, _, h3, _⟩ := hmemline line hl
      rw [h3] at hx
      obtain ⟨hxn, hs⟩ := classOf_mem_iff.1 ((class_line_mem hinv hi x).1 hx)
      refine ⟨hxn, ?_⟩
      intro hfix
      have hr := (sameCycle_iff_reach hinv hi x).1 hs
      have := reach_to_fixed hinv hi hfix hr
      rw [this] at h1
      exact h1 hfix
    · rintro ⟨hxn, hne⟩
      obtain ⟨m, hm, hmmin⟩ := exists_least (fun j => Reach eb j x) x (reach_refl eb x)
      have hmx : m ≤ x := by
        by_contra hc
        exact hmmin x (by omega) (reach_refl eb x)
      have hmn : m < n := by omega
      have hmin : IsCycleMin eb m := fun j hj hr => hmmin j hj (reach_trans hr hm)
      have hmne : eb m ≠ m := by
        intro hfix
        have := reach_of_fixed hfix hm
        rw [this] at hne
        exact hne hfix
      refine ⟨class_line eb n m, ?_, ?_⟩
      · unfold class_report
        rw [List.mem_map]
        refine ⟨m, ?_, rfl⟩
        rw [List.mem_filter, List.mem_range, decide_eq_true_iff]
        exact ⟨hmn, hmne, (isCycleMin_iff hinv hmn).2 hmin⟩
      · rw [class_line_mem hinv hmn, classOf_mem_iff]
        exact ⟨hxn, (sameCycle_iff_reach hinv hmn x).2 hm⟩

/-- Scenario B: the state satisfies the cycle invariant, and the report is the
two lines `0->4` and `1->2`. -/
theorem class_report_correct_witness :
    (CycleInv scenarioB.equal_blocks scenarioB.blocks_count ∧ scenarioB.blocks_count ≤ 5) ∧
    class_report scenarioB.equal_blocks scenarioB.blocks_count scenarioB.blocks_count =
      [[0, 4], [1, 2]] ∧
    print_dedup_data_structure 5 true scenarioB =
      some (class_report scenarioB.equal_blocks scenarioB.blocks_count
        scenarioB.blocks_count) :=
  ⟨⟨by decide, by decide⟩, by decide,
    (class_report_correct scenarioB 5 (by decide) (by decide)).1⟩

/-- C18, as stated, fails. The links `[1, 1]` over two blocks are in range and
violate the cycle invariant (block 0 leads to block 1, which never returns to
block 0). The traversal completes and prints the single line `0->1`, the same
output as for the valid links `[1, 0]`: nothing in what is printed tells the
broken structure from a sound one. -/
theorem report_silent_on_broken_links :
    (∀ x, x < brokenState.blocks_count →
      brokenState.equal_blocks x < brokenState.blocks_count) ∧
    ¬ CycleInv brokenState.equal_blocks brokenState.blocks_count ∧
    SameCycle brokenState.equal_blocks brokenState.blocks_count 0 1 ∧
    ¬ SameCycle brokenState.equal_blocks brokenState.blocks_count 1 0 ∧
    CycleInv pairState.equal_blocks pairState.blocks_count ∧
    print_dedup_data_structure 2 true brokenState = some [[0, 1]] ∧
    print_dedup_data_structure 2 true pairState = some [[0, 1]] :=
  ⟨by decide, by decide, by decide, by decide, by decide, by decide, by decide⟩

/-- C18, amended. For every `equal_blocks` array whose entries are in range,
also one that violates the cycle invariant, `print_dedup_data_structure`
terminates: given `blocks_count` loop tests for each inner loop it returns its
lines, and no cell outside the marker buffer is read. When the buffer is not
allocated it returns at once. -/
theorem report_terminates (s : DedupState) (fuel : Nat) (tmp_alloc : Bool)
    (hrange : ∀ x, x < s.blocks_count → s.equal_blocks x < s.blocks_count)
    (hf : s.blocks_count ≤ fuel) :
    ∃ out, print_dedup_data_structure fuel tmp_alloc s = some out := by
  unfold print_dedup_data_structure
  by_cases ha : tmp_alloc = false
  · rw [if_pos ha]
    exact ⟨[], rfl⟩
  · rw [if_neg ha]
    obtain ⟨r, hr⟩ := print_loop_terminates hrange hf s.blocks_count (le_refl _)
      (fun j => decide (j < s.blocks_count), [])
    rw [hr]
    exact ⟨r.2, rfl⟩

/-- The traversal of the broken links `[1, 1]` terminates. -/
theorem report_terminates_witness :
    (∀ x, x < brokenState.blocks_count →
      brokenState.equal_blocks x < brokenState.blocks_count) ∧
    brokenState.blocks_count ≤ 2 ∧
    ∃ out, print_dedup_data_structure 2 true brokenState = some out :=
  ⟨by decide, by decide, report_terminates brokenState 2 true (by decide) (by decide)⟩

/-- Scenario A: in the build, the iteration for block 2 finds block 0 and
merges with the precondition met; in the update of block 2 with `B`, block 1
is found and the merge is made with the precondition met. -/
theorem merge_precondition_at_calls_witness :
    (build_equal_block (forLoop build_step 2 (hashed_state scenarioEnv scenarioInit)) 2 = 0 ∧
      build_step 2 (forLoop build_step 2 (hashed_state scenarioEnv scenarioInit)) =
        dedup_set_block_duplication
          (forLoop build_step 2 (hashed_state scenarioEnv scenarioInit))
          (build_equal_block (forLoop build_step 2 (hashed_state scenarioEnv scenarioInit)) 2)
          2 ∧
      (forLoop build_step 2 (hashed_state scenarioEnv scenarioInit)).equal_blocks 2 = 2) ∧
    (CycleInv scenarioA.equal_blocks scenarioA.blocks_count ∧
      dedup_is_in_range scenarioA 2 ≠ 0 ∧
      dedup_update_page_changed scenarioEnv 5 scenarioA 2 [66] = some (0, scenarioB) ∧
      ∃ s1, dedup_remove_block_duplication 5 scenarioA (2 - scenarioA.start_block) = some s1 ∧
        update_equal_block (store_hash_crc scenarioEnv s1 (2 - scenarioA.start_block) [66])
          (2 - scenarioA.start_block) = 1 ∧
        (store_hash_crc scenarioEnv s1 (2 - scenarioA.start_block) [66]).equal_blocks
          (2 - scenarioA.start_block) = 2 - scenarioA.start_block) := by
  have hb := (merge_precondition_at_calls scenarioEnv).1
    (hashed_state scenarioEnv scenarioInit) (by decide) 2 (by decide)
  have hne : build_equal_block
      (forLoop build_step 2 (hashed_state scenarioEnv scenarioInit)) 2 ≠ 2 := by decide
  have hupd : dedup_update_page_changed scenarioEnv 5 scenarioA 2 [66] =
      some (0, scenarioB) := option_pair_eq _ scenarioA (by decide)
  obtain ⟨s1, h1, _, h3⟩ := (merge_precondition_at_calls scenarioEnv).2
    5 scenarioA scenarioB 2 [66] 0 (by decide) (by decide) hupd
  have hs1 : s1 = ((dedup_remove_block_duplication 5 scenarioA
      (2 - scenarioA.start_block)).getD scenarioA) := by rw [h1]; rfl
  have hm : update_equal_block (store_hash_crc scenarioEnv s1 (2 - scenarioA.start_block) [66])
      (2 - scenarioA.start_block) = 1 := by rw [hs1]; decide
  refine ⟨⟨by decide, (hb.2.2 hne).1, (hb.2.2 hne).2.2.2.2⟩, by decide, by decide, hupd,
    s1, h1, hm, ?_⟩
  exact (h3 (by rw [hm]; decide)).2.2.2

theorem remove_walk_reads_fst (eb : Nat → Nat) (block : Nat) :
    ∀ fuel next reads,
      (remove_walk_reads eb block fuel next reads).map Prod.fst =
        remove_walk eb block fuel next := by
  intro fuel
  induction fuel with
  | zero => intro next reads; rfl
  | succ f ih =>
    intro next reads
    by_cases hx : eb next = block
    · simp [remove_walk_reads, remove_walk, hx]
    · simp only [remove_walk_reads, remove_walk, ne_eq, hx, not_false_eq_true, if_true]
      exact ih (eb next) (reads ++ [next])

theorem remove_walk_reads_of_iterate (eb : Nat → Nat) (block : Nat) (k : Nat) :
    ∀ x fuel reads, (∀ j, j < k → eb^[j + 1] x ≠ block) → eb^[k + 1] x = block → k < fuel →
      remove_walk_reads eb block fuel x reads =
        some (eb^[k] x, reads ++ (List.range (k + 1)).map (fun j => eb^[j] x)) := by
  induction k with
  | zero =>
    intro x fuel reads _ hx hf
    obtain ⟨f, rfl⟩ : ∃ f, fuel = f + 1 := ⟨fuel - 1, by omega⟩
    have hx1 : eb x = block := hx
    simp [remove_walk_reads, hx1]
  | succ k ih =>
    intro x fuel reads hne hx hf
    obtain ⟨f, rfl⟩ : ∃ f, fuel = f + 1 := ⟨fuel - 1, by omega⟩
    have hx1 : eb x ≠ block := hne 0 (by omega)
    rw [Function.iterate_succ_apply] at hx
    have hne2 : ∀ j, j < k → eb^[j + 1] (eb x) ≠ block := by
      intro j hj
      have := hne (j + 1) (by omega)
      rwa [Function.iterate_succ_apply] at this
    have h := ih (eb x) f (reads ++ [x]) hne2 hx (by omega)
    simp only [remove_walk_reads, ne_eq, hx1, not_false_eq_true, if_true]
    rw [h, List.range_succ_eq_map (k + 1), List.map_cons, List.map_map]
    simp only [Function.iterate_succ_apply, Function.iterate_zero, id_eq,
      List.append_assoc, List.singleton_append]
    rfl

theorem remove_walk_broken (fuel : Nat) :
    ∀ x, remove_walk brokenState.equal_blocks 0 fuel x = none := by
  induction fuel with
  | zero => intro x; rfl
  | succ f ih =>
    intro x
    have h1 : brokenState.equal_blocks x ≠ 0 := by
      show (1 : Nat) ≠ 0
      decide
    simp only [remove_walk, ne_eq, h1, not_false_eq_true, if_true]
    exact ih _

/-- C21. Removal terminates under the invariant. In a state whose
`equal_blocks` is a permutation of the indices below `blocks_count`, for every
index `b` below `blocks_count` whose class has `c` members, the predecessor
walk of `dedup_remove_block_duplication(b)` evaluates its loop test `c` times
(so takes `c - 1` steps), reads `equal_blocks` only at the indices
`b, equal_blocks[b], ...` of the class, all below `blocks_count`, and stops at
the only index `p` below `blocks_count` with `equal_blocks[p] = b`; the
function then returns. For the in-range links `[1, 1]`, not a permutation, and
`b = 0`, the walk does not stop within any number of loop tests. -/
theorem removal_walk_terminates (s : DedupState) (b fuel : Nat)
    (hinv : CycleInv s.equal_blocks s.blocks_count) (hb : b < s.blocks_count)
    (hf : (classOf s.equal_blocks s.blocks_count b).length ≤ fuel) :
    (∃ p reads,
      remove_walk_reads s.equal_blocks b fuel b [] = some (p, reads) ∧
      remove_walk s.equal_blocks b fuel b = some p ∧
      reads = (List.range (classOf s.equal_blocks s.blocks_count b).length).map
        (fun j => s.equal_blocks^[j] b) ∧
      reads.length = (classOf s.equal_blocks s.blocks_count b).length ∧
      reads.length - 1 ≤ (classOf s.equal_blocks s.blocks_count b).length - 1 ∧
      (∀ x, x ∈ reads → x < s.blocks_count ∧ x ∈ classOf s.equal_blocks s.blocks_count b) ∧
      p < s.blocks_count ∧ s.equal_blocks p = b ∧
      (∀ q, q < s.blocks_count → s.equal_blocks q = b → q = p) ∧
      ∃ s2, dedup_remove_block_duplication fuel s b = some s2) ∧
    ((∀ x, x < brokenState.blocks_count →
        brokenState.equal_blocks x < brokenState.blocks_count) ∧
      ¬ CycleInv brokenState.equal_blocks brokenState.blocks_count ∧
      ∀ g, remove_walk brokenState.equal_blocks 0 g 0 = none ∧
        remove_walk_reads brokenState.equal_blocks 0 g 0 [] = none ∧
        dedup_remove_block_duplication g brokenState 0 = none) := by
  refine ⟨?_, by decide, by decide, ?_⟩
  · generalize hn : s.blocks_count = n at hinv hb hf ⊢
    generalize heb : s.equal_blocks = eb at hinv hf ⊢
    obtain ⟨hlen, hp0⟩ := classOf_length_eq_minimalPeriod hinv hb
    rw [hlen] at hf ⊢
    obtain ⟨k, hk⟩ : ∃ k, Function.minimalPeriod eb b = k + 1 :=
      ⟨Function.minimalPeriod eb b - 1, by omega⟩
    have hret : eb^[k + 1] b = b := by
      rw [← hk]; exact Function.iterate_minimalPeriod
    have hne : ∀ j, j < k → eb^[j + 1] b ≠ b := by
      intro j hj hper
      have hle := Function.IsPeriodicPt.minimalPeriod_le (Nat.succ_pos j) hper
      omega
    have hw := remove_walk_reads_of_iterate eb b k b fuel [] hne hret (by omega)
    have hw2 := remove_walk_reads_fst eb b fuel b []
    rw [hw] at hw2
    have hpb : eb (eb^[k] b) = b := by
      rw [Function.iterate_succ_apply'] at hret; exact hret
    have hpn : eb^[k] b < n := iterate_lt hinv k b hb
    refine ⟨eb^[k] b, _, hw, hw2.symm, by rw [hk, List.nil_append], ?_, ?_, ?_, hpn, hpb,
      ?_, ?_⟩
    · rw [List.nil_append, List.length_map, List.length_range, hk]
    · rw [List.nil_append, List.length_map, List.length_range, hk]
    · intro x hx
      rw [List.nil_append, List.mem_map] at hx
      obtain ⟨j, _, rfl⟩ := hx
      have hlt := iterate_lt hinv j b hb
      exact ⟨hlt, classOf_mem_iff.2 ⟨hlt, (sameCycle_iff_reach hinv hb _).2 ⟨j, rfl⟩⟩⟩
    · intro q hq hqb
      exact hinv.2 q hq _ hpn (by rw [hqb, hpb])
    · unfold dedup_remove_block_duplication
      by_cases hself : s.equal_blocks b = b
      · rw [if_pos hself]; exact ⟨s, rfl⟩
      · rw [if_neg hself, heb, ← hw2]
        exact ⟨_, rfl⟩
  · intro g
    have h1 := remove_walk_broken g 0
    refine ⟨h1, ?_, ?_⟩
    · have h2 := remove_walk_reads_fst brokenState.equal_blocks 0 g 0 []
      rw [h1] at h2
      cases hr : remove_walk_reads brokenState.equal_blocks 0 g 0 [] with
      | none => rfl
      | some v => rw [hr] at h2; cases h2
    · unfold dedup_remove_block_duplication
      rw [if_neg (by decide), h1]

/-- Scenario A, block 0: the class `{0, 2, 4}` has three members and the links
are `0 -> 4 -> 2 -> 0`; the walk reads the indices 0, 4, 2 and stops at block
2, the predecessor of block 0. -/
theorem removal_walk_terminates_witness :
    (CycleInv scenarioA.equal_blocks scenarioA.blocks_count ∧ 0 < scenarioA.blocks_count ∧
      (classOf scenarioA.equal_blocks scenarioA.blocks_count 0).length ≤ 3) ∧
    remove_walk_reads scenarioA.equal_blocks 0 3 0 [] = some (2, [0, 4, 2]) ∧
    ∃ p reads,
      remove_walk_reads scenarioA.equal_blocks 0 3 0 [] = some (p, reads) ∧
      reads.length = (classOf scenarioA.equal_blocks scenarioA.blocks_count 0).length ∧
      scenarioA.equal_blocks p = 0 := by
  obtain ⟨p, reads, h1, _, _, h4, _, _, _, h8, _⟩ :=
    (removal_walk_terminates scenarioA 0 3 (by decide) (by decide) (by decide)).1
  exact ⟨⟨by decide, by decide, by decide⟩, by decide, p, reads, h1, h4, h8⟩

theorem init_blocks_fail_frame (env : Env) (s : DedupState)
    (h : (dedup_init_blocks env s).1 ≠ 0) :
    (dedup_init_blocks env s).2.need_to_init = s.need_to_init := by
  have hf := (init_records_frame env s.blocks_count s).2.2.2
  unfold dedup_init_blocks at h ⊢
  rcases hr : init_records env s.blocks_count s with ⟨s1, ok⟩
  rw [hr] at h hf
  cases ok
  · exact hf
  · exact absurd rfl h

/-- C22. Rebuild is only done once. With `need_to_init` equal to 0,
`dedup_calc` returns 0 and leaves the state as it is, so for a command
`dedup N` with positive `N`, `stats_store` sets `blocks_count` to the smaller
of `N` and `BLOCKS_MAX_COUNT` and `duplicatedBlocks` to 0 and changes nothing
else: `equal_blocks`, `hashes`, `hash_crc`, `start_block` are as before and
`need_to_init` stays 0. With `need_to_init` non-zero, `dedup_calc` returns 0
exactly when the device is found and `dedup_init_blocks` (on the block count
clamped to `BLOCKS_MAX_COUNT`) returns 0, and then the state is the built one
with `need_to_init` cleared; otherwise it returns -1 and `need_to_init` is as
before. In scenario A the classes `{0, 2, 4}` stay linked after a second
`dedup 5` while the counter drops from 2 to 0. -/
theorem rebuild_only_once (env : Env) (bdev : Bool) (s : DedupState) (result : Int)
    (hinit : s.need_to_init = 0) (hres : 0 < result) :
    dedup_calc env bdev s = (0, s) ∧
    dedup_calc env bdev
        { s with blocks_count := min result.toNat BLOCKS_MAX_COUNT, duplicatedBlocks := 0 } =
      (0, { s with blocks_count := min result.toNat BLOCKS_MAX_COUNT,
                   duplicatedBlocks := 0 }) ∧
    stats_store env bdev result s =
      { s with blocks_count := min result.toNat BLOCKS_MAX_COUNT, duplicatedBlocks := 0 } ∧
    (stats_store env bdev result s).equal_blocks = s.equal_blocks ∧
    (stats_store env bdev result s).hashes = s.hashes ∧
    (stats_store env bdev result s).hash_crc = s.hash_crc ∧
    (stats_store env bdev result s).start_block = s.start_block ∧
    (stats_store env bdev result s).need_to_init = 0 ∧
    (stats_store env bdev result s).duplicatedBlocks = 0 ∧
    ((stats_store env bdev result s).blocks_count : Int) = min result BLOCKS_MAX_COUNT ∧
    (∀ s0 : DedupState, s0.need_to_init ≠ 0 →
      (((dedup_calc env bdev s0).1 = 0 ∨ (dedup_calc env bdev s0).1 = -1) ∧
        ((dedup_calc env bdev s0).1 = 0 ↔
          (bdev = true ∧
            (dedup_init_blocks env
              (if s0.blocks_count > BLOCKS_MAX_COUNT
                then { s0 with blocks_count := BLOCKS_MAX_COUNT } else s0)).1 = 0)) ∧
        ((dedup_calc env bdev s0).1 = 0 →
          (dedup_calc env bdev s0).2 =
            { (dedup_init_blocks env
                (if s0.blocks_count > BLOCKS_MAX_COUNT
                  then { s0 with blocks_count := BLOCKS_MAX_COUNT } else s0)).2
              with need_to_init := 0 } ∧
          (dedup_calc env bdev s0).2.need_to_init = 0) ∧
        ((dedup_calc env bdev s0).1 = -1 →
          (dedup_calc env bdev s0).2.need_to_init = s0.need_to_init))) ∧
    (scenarioInit.need_to_init = 2 ∧ scenarioBuilt.need_to_init = 0 ∧
      scenarioBuilt.duplicatedBlocks = 2 ∧
      (stats_store scenarioEnv true 5 scenarioBuilt).duplicatedBlocks = 0 ∧
      (stats_store scenarioEnv true 5 scenarioBuilt).blocks_count = 5 ∧
      (List.range 5).map (stats_store scenarioEnv true 5 scenarioBuilt).equal_blocks =
        [4, 1, 0, 3, 2] ∧
      linkedCount (stats_store scenarioEnv true 5 scenarioBuilt).equal_blocks 5 = 3 ∧
      cycleCount (stats_store scenarioEnv true 5 scenarioBuilt).equal_blocks 5 = 3) := by
  have hcalc : ∀ t : DedupState, t.need_to_init = 0 → dedup_calc env bdev t = (0, t) := by
    intro t ht
    unfold dedup_calc
    rw [if_neg (by rw [ht]; exact fun h => h rfl)]
  have hmin : (if result > (BLOCKS_MAX_COUNT : Int) then BLOCKS_MAX_COUNT else result.toNat) =
      min result.toNat BLOCKS_MAX_COUNT := by
    have hr : ((result.toNat : Nat) : Int) = result := Int.toNat_of_nonneg (le_of_lt hres)
    split_ifs with h
    · rw [Nat.min_def, if_neg]; omega
    · rw [Nat.min_def, if_pos]; omega
  have hst : stats_store env bdev result s =
      { s with blocks_count := min result.toNat BLOCKS_MAX_COUNT, duplicatedBlocks := 0 } := by
    unfold stats_store
    rw [if_pos hres]
    simp only [hmin]
    have h2 := hcalc { s with blocks_count := min result.toNat BLOCKS_MAX_COUNT,
                              duplicatedBlocks := 0 } hinit
    rw [h2]
  refine ⟨hcalc s hinit, hcalc _ hinit, hst, by rw [hst], by rw [hst], by rw [hst],
    by rw [hst], by rw [hst]; exact hinit, by rw [hst], ?_, ?_, ?_⟩
  · rw [hst]
    show ((min result.toNat BLOCKS_MAX_COUNT : Nat) : Int) = min result BLOCKS_MAX_COUNT
    have hr : ((result.toNat : Nat) : Int) = result := Int.toNat_of_nonneg (le_of_lt hres)
    rw [Nat.cast_min, hr]
  · intro s0 hs0
    cases bdev with
    | false =>
      have hval : dedup_calc env false s0 = (-1, s0) := by
        unfold dedup_calc
        rw [if_pos hs0, if_pos rfl]
      rw [hval]
      refine ⟨Or.inr rfl, ⟨fun h => (by cases h), fun h => (by cases h.1)⟩,
        fun h => (by cases h), fun _ => rfl⟩
    | true =>
      by_cases hb : (dedup_init_blocks env
          (if s0.blocks_count > BLOCKS_MAX_COUNT
            then { s0 with blocks_count := BLOCKS_MAX_COUNT } else s0)).1 = 0
      · have hval : dedup_calc env true s0 =
            (0, { (dedup_init_blocks env
                    (if s0.blocks_count > BLOCKS_MAX_COUNT
                      then { s0 with blocks_count := BLOCKS_MAX_COUNT } else s0)).2
                  with need_to_init := 0 }) := by
          unfold dedup_calc
          rw [if_pos hs0, if_neg (by decide)]
          show (if _ then _ else _) = _
          rw [if_neg (not_not.2 hb)]
        rw [hval]
        exact ⟨Or.inl rfl, ⟨fun _ => ⟨rfl, hb⟩, fun _ => rfl⟩, fun _ => ⟨rfl, rfl⟩,
          fun h => (by cases h)⟩
      · have hfr := init_blocks_fail_frame env _ hb
        have hval : dedup_calc env true s0 =
            (-1, (dedup_init_blocks env
                    (if s0.blocks_count > BLOCKS_MAX_COUNT
                      then { s0 with blocks_count := BLOCKS_MAX_COUNT } else s0)).2) := by
          unfold dedup_calc
          rw [if_pos hs0, if_neg (by decide)]
          show (if _ then _ else _) = _
          rw [if_pos hb]
        rw [hval]
        refine ⟨Or.inr rfl, ⟨fun h => (by cases h), fun h => absurd h.2 hb⟩,
          fun h => (by cases h), fun _ => ?_⟩
        show (dedup_init_blocks env _).2.need_to_init = _
        rw [hfr]
        split_ifs <;> rfl
  · decide

/-- Scenario A after its build: a second command `dedup 5` leaves the links
`[4, 1, 0, 3, 2]` and sets the counter to 0. -/
theorem rebuild_only_once_witness :
    (scenarioBuilt.need_to_init = 0 ∧ (0 : Int) < 5) ∧
    stats_store scenarioEnv true 5 scenarioBuilt =
      { scenarioBuilt with blocks_count := min (5 : Int).toNat BLOCKS_MAX_COUNT,
                           duplicatedBlocks := 0 } ∧
    (stats_store scenarioEnv true 5 scenarioBuilt).equal_blocks = scenarioBuilt.equal_blocks :=
  ⟨⟨by decide, by decide⟩,
    (rebuild_only_once scenarioEnv true scenarioBuilt 5 (by decide) (by decide)).2.2.1,
    (rebuild_only_once scenarioEnv true scenarioBuilt 5 (by decide) (by decide)).2.2.2.1⟩

end Dedup
